import Mathlib

/-!
# SAJC (Semantic Adaptive JSON Compression) — verification development

Shallow embedding of the SAJC semantic columnar compression engine and
proofs about its codecs and orchestrator.

Buffers are modelled as `List Nat` with every entry below 256.  JavaScript
32-bit bitwise integer semantics (`|`, `&`, `<<`, `>>>`) are made explicit
with `% 2^32` and `% 32` on shift counts.  JavaScript strings are modelled
by their UTF-8 byte sequences (`List Nat`); IEEE-754 doubles are modelled
as exact rationals, with the 8-byte float serialisation kept as an explicit
parameter where a codec needs it.
-/

set_option maxHeartbeats 1000000

namespace SAJC

/-- A byte buffer: list of byte values (callers keep entries `< 256`). -/
abbrev Bytes := List Nat

/-- Errors surfaced by the decoders (JS `throw new Error(...)` sites). -/
inductive CErr where
  | truncated
  | varintOverflow
  | unknownMode
  | bitmapMismatch
  | dictIndexOutOfRange
  | enumStringTooLong
  | typeErr
  | noCodec
  | emptyBatch
  | roundTripFailed
  | invalidMagic
  | rangeErr
  deriving DecidableEq

/-- `Buffer.writeUInt32LE n` (for `n < 2^32`): four little-endian bytes. -/
def u32le (n : Nat) : Bytes :=
  [n % 256, n / 256 % 256, n / 65536 % 256, n / 16777216 % 256]

/-- `Buffer.readUInt32LE` on four bytes. -/
def readU32 (b0 b1 b2 b3 : Nat) : Nat :=
  b0 + 256 * b1 + 65536 * b2 + 16777216 * b3

/-- `Buffer.writeUInt16LE n` (for `n < 2^16`): two little-endian bytes. -/
def u16le (n : Nat) : Bytes := [n % 256, n / 256 % 256]

/-! ## Varint (LEB128), from `Varint.encode` / `Varint.decode`

`Varint.encode` is a do-while loop emitting 7 payload bits per byte with a
continuation bit in the MSB; we realise the loop with structural fuel
(`value + 1` iterations always suffice) and prove the natural unfolding
equation.  For the values reaching the loop (`val < 2^32`):
`val & 0x7f = val % 128`, `val >>>= 7` is `val / 128`, and `byte |= 0x80`
is `byte + 128` because `byte < 128`. -/

def lebEncodeAux : Nat → Nat → Bytes
  | 0, _ => []
  | fuel + 1, val =>
    let byte := val % 128
    let rest := val / 128
    if rest = 0 then [byte] else (byte + 128) :: lebEncodeAux fuel rest

/-- `Varint.encode` (unsigned LEB128). -/
def Varint.encode (value : Nat) : Bytes := lebEncodeAux (value + 1) value

/-! `Varint.decode` (unsigned, 32-bit JS semantics).

The JS loop keeps `value` as an int32 via `value |= (byte & 0x7f) << shift`;
`<<` shifts by `shift % 32` and truncates to 32 bits, and the final
`value >>> 0` reads the accumulator as an unsigned 32-bit integer, which is
how `value` is tracked here.  The overflow guard `shift > 35` fires after
the sixth continuation byte. -/

def varintDecodeLoop : Bytes → Nat → Nat → Nat → Except CErr (Nat × Nat)
  | [], _, _, _ => .error .truncated
  | b :: rest, value, shift, bytesRead =>
    let value' := value ||| ((b % 128) <<< (shift % 32)) % 2 ^ 32
    if b &&& 128 = 0 then .ok (value', bytesRead + 1)
    else if shift + 7 > 35 then .error .varintOverflow
    else varintDecodeLoop rest value' (shift + 7) (bytesRead + 1)

/-- `Varint.decode buffer offset`: returns `(value, bytesRead)` or fails. -/
def Varint.decode (buffer : Bytes) (offset : Nat) : Except CErr (Nat × Nat) :=
  varintDecodeLoop (buffer.drop offset) 0 0 0

/-! ## The dynamic value domain

`JVal` models the JavaScript values the compressor manipulates: `null`,
booleans, numbers (exact rationals in place of IEEE-754 doubles), strings
(as UTF-8 byte lists), arrays, plain objects (insertion-ordered key/value
lists), and the `MISSING` sentinel (`Symbol.for("SAJC_MISSING")`), which is
part of the same dynamic domain. -/

inductive JVal where
  | null
  | bool (b : Bool)
  | num (q : ℚ)
  | str (s : Bytes)
  | arr (elems : List JVal)
  | obj (fields : List (Bytes × JVal))
  | missing

/-- `val !== MISSING` tests (strict equality against the sentinel). -/
def JVal.isMissing : JVal → Bool
  | .missing => true
  | _ => false

/-! ## Bitmap builder and nullable wrapper (`NullableCodecWrapper`) -/

/-- One iteration of the bitmap loop:
`bitmap[Math.floor(i / 8)] |= 1 << i % 8` (out-of-range writes are silently
ignored by Node buffers, as by `List.set`). -/
def bmStep (bm : Bytes) (i : Nat) : Bytes :=
  bm.set (i / 8) (bm.getD (i / 8) 0 ||| 1 <<< (i % 8))

/-- The encode loop over `values[i]`, setting a bit for non-MISSING slots. -/
def bmLoop : List JVal → Nat → Bytes → Bytes
  | [], _, bm => bm
  | v :: rest, i, bm =>
    bmLoop rest (i + 1) (if v.isMissing then bm else bmStep bm i)

/-- Validity bitmap of a column: `Math.ceil(length / 8)` zeroed bytes,
then the encode loop. -/
def buildBitmap (values : List JVal) : Bytes :=
  bmLoop values 0 (List.replicate ((values.length + 7) / 8) 0)

/-- Number of set bits among the 8 bits of a byte. -/
def popCount8 (b : Nat) : Nat := ∑ k ∈ Finset.range 8, (b.testBit k).toNat

/-- Total popcount of a byte list. -/
def totalPop (bm : Bytes) : Nat := (bm.map popCount8).sum

/-- Bit `m` of a bitmap (byte `m / 8`, offset `m % 8`, LSB-first). -/
def bitAt (bm : Bytes) (m : Nat) : Bool := (bm.getD (m / 8) 0).testBit (m % 8)

/-- `NullableCodecWrapper.encode`: row count, validity bitmap, then the
inner codec's output over the non-MISSING values.  `writeUInt32LE` rejects
a row count at or above `2^32`. -/
def wrapEncode (enc : List JVal → Except CErr Bytes) (values : List JVal) :
    Except CErr Bytes :=
  match enc (values.filter (fun v => !v.isMissing)) with
  | .error e => .error e
  | .ok encodedValues =>
    if values.length < 2 ^ 32 then
      .ok (u32le values.length ++ buildBitmap values ++ encodedValues)
    else .error .rangeErr

/-- The decode loop counting set bits below `totalLength`.
`bitmap[Math.floor(i / 8)] & (1 << i % 8)` is falsy out of range, as is
`getD _ 0` here. -/
def countSetBits (bitmap : Bytes) (totalLength : Nat) : Nat :=
  ((List.range totalLength).filter (fun i => bitAt bitmap i)).length

/-- The re-interleaving loop of `NullableCodecWrapper.decode`: walk the
positions, consuming one decoded value per set bit and emitting `MISSING`
per clear bit.  (After the count check the default of `headD` is never
used.) -/
def interleaveLoop (bitmap : Bytes) : Nat → Nat → List JVal → List JVal
  | _, 0, _ => []
  | i, remaining + 1, nonNulls =>
    if bitAt bitmap i then
      nonNulls.headD JVal.missing :: interleaveLoop bitmap (i + 1) remaining nonNulls.tail
    else
      JVal.missing :: interleaveLoop bitmap (i + 1) remaining nonNulls

/-! ## ZigZag varints over BigInt (`Varint.encodeBigInt` / `Varint.decodeBigInt`)

BigInts are arbitrary-precision, so these are exact `ℤ`/`ℕ` computations:
`<<`/`>>` are flooring shifts and `^` is two's-complement xor, which is what
`Int.shiftLeft` / `Int.shiftRight` / `Int.xor` implement. -/

/-- ZigZag mapping `(value << 1n) ^ (value >> 63n)`. -/
def zigzag (v : ℤ) : ℤ := Int.xor (v <<< (1 : ℤ)) (v >>> (63 : ℤ))

/-- `Varint.encodeBigInt`: the do-while loop emits the LEB128 base-128
digits of the zigzag value (which is never negative), exactly as
`Varint.encode` does for a natural number. -/
def Varint.encodeBigInt (value : ℤ) : Bytes := Varint.encode (zigzag value).toNat

/-- The `decodeBigInt` accumulation loop: like the 32-bit loop but with
unbounded shifts, no truncation and no overflow guard. -/
def lebDecodeBigLoop : Bytes → Nat → Nat → Nat → Except CErr (Nat × Nat)
  | [], _, _, _ => .error .truncated
  | b :: rest, zz, shift, bytesRead =>
    let zz' := zz ||| ((b % 128) <<< shift)
    if b &&& 128 = 0 then .ok (zz', bytesRead + 1)
    else lebDecodeBigLoop rest zz' (shift + 7) (bytesRead + 1)

/-- ZigZag decoding `(n >> 1n) ^ -(n & 1n)` of a nonnegative accumulator. -/
def zigzagDecode (zz : Nat) : ℤ :=
  Int.xor ((zz >>> 1 : Nat) : ℤ) (-((zz &&& 1 : Nat) : ℤ))

/-- `Varint.decodeBigInt`: returns `(value, bytesRead)` or fails. -/
def Varint.decodeBigInt (buffer : Bytes) (offset : Nat) : Except CErr (ℤ × Nat) :=
  match lebDecodeBigLoop (buffer.drop offset) 0 0 0 with
  | .error e => .error e
  | .ok (zz, n) => .ok (zigzagDecode zz, n)

/-- A while-loop reading consecutive `decodeBigInt` values until the buffer
is exhausted; `fuel` is instantiated with the buffer length (each iteration
consumes at least one byte, so it never runs out). -/
def decodeBigInts : Nat → Bytes → Except CErr (List ℤ)
  | _, [] => .ok []
  | 0, _ :: _ => .error .truncated
  | fuel + 1, b :: rest =>
    match Varint.decodeBigInt (b :: rest) 0 with
    | .error e => .error e
    | .ok (v, n) =>
      match decodeBigInts fuel ((b :: rest).drop n) with
      | .error e => .error e
      | .ok vs => .ok (v :: vs)

/-! ## NumberCodec -/

/-- `typeof n === "number" && Number.isInteger(n)`. -/
def JVal.isIntegerNum : JVal → Bool
  | .num q => q.den = 1
  | _ => false

/-- JS `ToNumber` coercion as it arises in the codec's arithmetic:
`null ↦ 0`, booleans ↦ `0`/`1`, numbers themselves; `none` stands for NaN.
(Numeric-string and array coercions are not modelled: the number codec only
ever receives numbers, or nulls interleaved by the nullable wrapper.) -/
def JVal.toNumber : JVal → Option ℚ
  | .num q => some q
  | .null => some 0
  | .bool b => some (if b then 1 else 0)
  | _ => none

/-- The number a value coerces to, with an unreachable default. -/
def jsNumQ (v : JVal) : ℚ := v.toNumber.getD 0

/-- `Math.round`: round half toward positive infinity. -/
def jsRound (q : ℚ) : ℤ := ⌊q + 1 / 2⌋

/-- One value's fixed-point test at scale `s`:
`Math.abs(scaled - Math.round(scaled)) < 1e-9` with `scaled = n * 10^s`
(false on NaN). -/
def fitsScale (s : Nat) (v : JVal) : Bool :=
  match v.toNumber with
  | none => false
  | some q =>
    decide (|q * 10 ^ s - ((jsRound (q * 10 ^ s) : ℤ) : ℚ)| < 1 / 10 ^ 9)

/-- All values fit scale `s`. -/
def goodScale (values : List JVal) (s : Nat) : Bool := values.all (fitsScale s)

/-- The decimal scan: smallest scale in `1..6` accepted by every value. -/
def bestScale (values : List JVal) : Option Nat :=
  (List.range' 1 6).find? (fun s => goodScale values s)

/-- `BigInt(n)` for an integral number. -/
def jsToInt : JVal → ℤ
  | .num q => q.num
  | _ => 0

/-- `NumberCodec.encode`, parameterised by the 8-byte little-endian IEEE-754
double serialisation `f64` (only used in float mode).  `writeDoubleLE`
rejects non-number arguments, hence the `typeErr` on the float path. -/
def NumberCodec.encode (f64 : ℚ → Bytes) (values : List JVal) : Except CErr Bytes :=
  if values.length = 0 then .ok []
  else if values.all JVal.isIntegerNum then
    .ok (1 :: (values.map (fun v => Varint.encodeBigInt (jsToInt v))).flatten)
  else
    match bestScale values with
    | some scale =>
      .ok (2 :: scale ::
        (values.map (fun v => Varint.encodeBigInt (jsRound (jsNumQ v * 10 ^ scale)))).flatten)
    | none =>
      match values.mapM (fun v => match v with | .num q => some q | _ => none) with
      | some qs => .ok (0 :: (qs.map f64).flatten)
      | none => .error .typeErr

/-- The float-mode read loop: `readDoubleLE` every 8 bytes, throwing when
fewer than 8 bytes remain. -/
def floatLoop (f64dec : Bytes → ℚ) : Bytes → Except CErr (List ℚ)
  | [] => .ok []
  | b0 :: b1 :: b2 :: b3 :: b4 :: b5 :: b6 :: b7 :: rest =>
    match floatLoop f64dec rest with
    | .error e => .error e
    | .ok qs => .ok (f64dec [b0, b1, b2, b3, b4, b5, b6, b7] :: qs)
  | _ => .error .rangeErr

/-- `NumberCodec.decode`, parameterised by the IEEE-754 double read `f64dec`.
Mode `0x01` is integer mode, `0x02` decimal mode, and any other mode byte
falls through to float mode. -/
def NumberCodec.decode (f64dec : Bytes → ℚ) (buffer : Bytes) :
    Except CErr (List JVal) :=
  match buffer with
  | [] => .ok []
  | mode :: body =>
    if mode = 1 then
      match decodeBigInts body.length body with
      | .error e => .error e
      | .ok vs => .ok (vs.map (fun z : ℤ => JVal.num (z : ℚ)))
    else if mode = 2 then
      match body with
      | [] => .ok []
      | scale :: digits =>
        match decodeBigInts digits.length digits with
        | .error e => .error e
        | .ok vs => .ok (vs.map (fun z : ℤ => JVal.num ((z : ℚ) / 10 ^ scale)))
    else
      match floatLoop f64dec body with
      | .error e => .error e
      | .ok qs => .ok (qs.map JVal.num)

/-- `NullableCodecWrapper.decode`. -/
def wrapDecode (dec : Bytes → Except CErr (List JVal)) (buffer : Bytes) :
    Except CErr (List JVal) :=
  match buffer with
  | b0 :: b1 :: b2 :: b3 :: rest =>
    let totalLength := readU32 b0 b1 b2 b3
    if totalLength = 0 then .ok []
    else
      let bitmapLength := (totalLength + 7) / 8
      if rest.length < bitmapLength then .error .truncated
      else
        let bitmap := rest.take bitmapLength
        match dec (rest.drop bitmapLength) with
        | .error e => .error e
        | .ok decodedNonNulls =>
          if countSetBits bitmap totalLength ≠ decodedNonNulls.length then
            .error .bitmapMismatch
          else .ok (interleaveLoop bitmap 0 totalLength decodedNonNulls)
  | _ => .error .truncated

/-! ## TimestampCodec

Timestamps are modelled by their integer epoch milliseconds (`ℤ`): the
ISO-8601 parse (`new Date(v).getTime()`) and re-serialisation
(`toISOString`) at the codec's boundary are external `Date` built-ins and
are treated as the identity on the epoch-millisecond value. -/

/-- `Buffer.writeBigInt64LE`: 8 little-endian two's-complement bytes. -/
def int64le (v : ℤ) : Bytes :=
  let n := (v % 2 ^ 64).toNat
  [n % 256, n / 2 ^ 8 % 256, n / 2 ^ 16 % 256, n / 2 ^ 24 % 256,
   n / 2 ^ 32 % 256, n / 2 ^ 40 % 256, n / 2 ^ 48 % 256, n / 2 ^ 56 % 256]

/-- `Buffer.readBigInt64LE` on 8 bytes. -/
def readI64 (b0 b1 b2 b3 b4 b5 b6 b7 : Nat) : ℤ :=
  let n : Nat := b0 + 2 ^ 8 * b1 + 2 ^ 16 * b2 + 2 ^ 24 * b3 + 2 ^ 32 * b4 +
    2 ^ 40 * b5 + 2 ^ 48 * b6 + 2 ^ 56 * b7
  if n < 2 ^ 63 then (n : ℤ) else (n : ℤ) - 2 ^ 64

/-- `TimestampCodec.encode` over epoch milliseconds: 8-byte little-endian
base, then one ZigZag varint of `t - base` per value (index 0 included).
`writeBigInt64LE` rejects values outside the signed 64-bit range. -/
def TimestampCodec.encode (timestamps : List ℤ) : Except CErr Bytes :=
  match timestamps with
  | [] => .ok []
  | t0 :: _ =>
    if -(2 ^ 63) ≤ t0 ∧ t0 < 2 ^ 63 then
      .ok (int64le t0 ++ (timestamps.map (fun t => Varint.encodeBigInt (t - t0))).flatten)
    else .error .rangeErr

/-- `TimestampCodec.decode`: fewer than 8 bytes gives `[]`; otherwise read
the base and one `decodeBigInt` delta per remaining varint. -/
def TimestampCodec.decode (buffer : Bytes) : Except CErr (List ℤ) :=
  match buffer with
  | b0 :: b1 :: b2 :: b3 :: b4 :: b5 :: b6 :: b7 :: rest =>
    match decodeBigInts rest.length rest with
    | .error e => .error e
    | .ok deltas => .ok (deltas.map (fun d => readI64 b0 b1 b2 b3 b4 b5 b6 b7 + d))
  | _ => .ok []

/-! ## AdaptiveStringCodec

String-or-null column values; a string is its UTF-8 byte list.  The
dictionary `Map` keyed on the values themselves is realised by
insertion-ordered dedup plus first-index lookup, which is exactly the
`Map`'s iteration order and `get` result. -/

/-- Insertion-ordered deduplication (`Map.has`/`set` over the values). -/
def uniqueList {α : Type} [DecidableEq α] (values : List α) : List α :=
  values.foldl (fun seen x => if x ∈ seen then seen else seen ++ [x]) []

/-- Null-aware length-prefixed form: `Varint(0)` for null, else
`Varint(byteLen + 1) | utf8Bytes`. -/
def rawEncodeOne (s : Option Bytes) : Bytes :=
  match s with
  | none => Varint.encode 0
  | some b => Varint.encode (b.length + 1) ++ b

/-- Group equal adjacent indices into `(index, runLength)` runs. -/
def rleLoop : List Nat → Nat → Nat → List (Nat × Nat)
  | [], cur, run => [(cur, run)]
  | x :: xs, cur, run =>
    if x = cur then rleLoop xs cur (run + 1) else (cur, run) :: rleLoop xs x 1

/-- The RLE runs of an index stream. -/
def rleRuns : List Nat → List (Nat × Nat)
  | [] => []
  | x :: xs => rleLoop xs x 1

/-- Dictionary header: `Varint(|unique|)` then each entry length-prefixed. -/
def ascDictHeader (strings : List (Option Bytes)) : Bytes :=
  Varint.encode (uniqueList strings).length ++
    ((uniqueList strings).map rawEncodeOne).flatten

/-- Per-position dictionary indices. -/
def ascIndices (strings : List (Option Bytes)) : List Nat :=
  strings.map (fun st => (uniqueList strings).indexOf st)

/-- Mode `0x01` index stream: one varint per position. -/
def ascStd (strings : List (Option Bytes)) : Bytes :=
  ((ascIndices strings).map Varint.encode).flatten

/-- Mode `0x02` index stream: varint `(index, runLength)` pairs. -/
def ascRle (strings : List (Option Bytes)) : Bytes :=
  ((rleRuns (ascIndices strings)).map
    (fun p => Varint.encode p.1 ++ Varint.encode p.2)).flatten

/-- `AdaptiveStringCodec.encode`.  The heuristic
`uniqueStrings.length < strings.length * 0.7` is decided here in exact
arithmetic as `10·u < 7·n`; the double-precision product `n * 0.7` never
changes the comparison against an integer for any feasible `n` (the
nearest-double error is ≪ 1/10).  Non-string, non-null values make
`Buffer.from` throw; here they surface as `typeErr` before any output. -/
def AdaptiveStringCodec.encode (values : List JVal) : Except CErr Bytes :=
  if values.length = 0 then .ok []
  else
    match values.mapM (fun v => match v with
        | JVal.str s => some (some s)
        | JVal.null => some none
        | _ => none) with
    | none => .error .typeErr
    | some strings =>
      if (uniqueList strings).length * 10 < strings.length * 7 then
        if (ascRle strings).length < (ascStd strings).length then
          .ok (2 :: ascDictHeader strings ++ ascRle strings)
        else
          .ok (1 :: ascDictHeader strings ++ ascStd strings)
      else
        .ok (0 :: (strings.map rawEncodeOne).flatten)

/-- Raw-mode read loop: length-prefixed strings to end of buffer
(`slice` clamps; `fuel` is the buffer length). -/
def rawLoop : Nat → Bytes → Except CErr (List JVal)
  | _, [] => .ok []
  | 0, _ :: _ => .error .truncated
  | fuel + 1, b :: rest =>
    match Varint.decode (b :: rest) 0 with
    | .error e => .error e
    | .ok (lenPlusOne, n) =>
      if lenPlusOne = 0 then
        match rawLoop fuel ((b :: rest).drop n) with
        | .error e => .error e
        | .ok vs => .ok (JVal.null :: vs)
      else
        match rawLoop fuel ((b :: rest).drop (n + (lenPlusOne - 1))) with
        | .error e => .error e
        | .ok vs => .ok (JVal.str (((b :: rest).drop n).take (lenPlusOne - 1)) :: vs)

/-- Read `k` length-prefixed dictionary entries, returning them with the
remaining buffer. -/
def readDict : Nat → Bytes → Except CErr (List JVal × Bytes)
  | 0, buf => .ok ([], buf)
  | k + 1, buf =>
    match Varint.decode buf 0 with
    | .error e => .error e
    | .ok (lenPlusOne, n) =>
      if lenPlusOne = 0 then
        match readDict k (buf.drop n) with
        | .error e => .error e
        | .ok (dict, rest) => .ok (JVal.null :: dict, rest)
      else
        match readDict k (buf.drop (n + (lenPlusOne - 1))) with
        | .error e => .error e
        | .ok (dict, rest) =>
          .ok (JVal.str ((buf.drop n).take (lenPlusOne - 1)) :: dict, rest)

/-- Mode `0x01` read loop: one varint index per value to end of buffer.
(An out-of-range `dictionary[index]` is JS `undefined`; it is not
distinguished here and never arises in the proofs below.) -/
def stdIndexLoop (dict : List JVal) : Nat → Bytes → Except CErr (List JVal)
  | _, [] => .ok []
  | 0, _ :: _ => .error .truncated
  | fuel + 1, b :: rest =>
    match Varint.decode (b :: rest) 0 with
    | .error e => .error e
    | .ok (index, n) =>
      match stdIndexLoop dict fuel ((b :: rest).drop n) with
      | .error e => .error e
      | .ok vs => .ok (dict.getD index JVal.null :: vs)

/-- Mode `0x02` read loop: `(index, runLength)` varint pairs to EOF. -/
def rleIndexLoop (dict : List JVal) : Nat → Bytes → Except CErr (List JVal)
  | _, [] => .ok []
  | 0, _ :: _ => .error .truncated
  | fuel + 1, b :: rest =>
    match Varint.decode (b :: rest) 0 with
    | .error e => .error e
    | .ok (index, n1) =>
      match Varint.decode (b :: rest) n1 with
      | .error e => .error e
      | .ok (runLen, n2) =>
        match rleIndexLoop dict fuel ((b :: rest).drop (n1 + n2)) with
        | .error e => .error e
        | .ok vs => .ok (List.replicate runLen (dict.getD index JVal.null) ++ vs)

/-- `AdaptiveStringCodec.decode`: dispatch on the mode byte; an
unrecognised mode byte throws `UnknownMode`. -/
def AdaptiveStringCodec.decode (buffer : Bytes) : Except CErr (List JVal) :=
  match buffer with
  | [] => .ok []
  | mode :: body =>
    if mode = 0 then rawLoop body.length body
    else if mode = 1 ∨ mode = 2 then
      match Varint.decode body 0 with
      | .error e => .error e
      | .ok (dictSize, n) =>
        match readDict dictSize (body.drop n) with
        | .error e => .error e
        | .ok (dict, rest) =>
          if mode = 1 then stdIndexLoop dict rest.length rest
          else rleIndexLoop dict rest.length rest
    else .error .unknownMode

/-- Embed a string-or-null into the dynamic domain. -/
def strVal : Option Bytes → JVal
  | some b => JVal.str b
  | none => JVal.null

/-! ## EnumCodec (string-or-null values) -/

/-- One dictionary entry: `u8 255` for null, else `u8 len | bytes` with
`len < 255`. -/
def enumDictEntry (u : Option Bytes) : Except CErr Bytes :=
  match u with
  | none => .ok [255]
  | some b => if 255 ≤ b.length then .error .enumStringTooLong else .ok (b.length :: b)

/-- The nibble-packing loop: even positions overwrite `val << 4`, odd
positions or in `val` (buffer writes are truncated to a byte). -/
def nibbleLoop : List Nat → Nat → Bytes → Bytes
  | [], _, packed => packed
  | val :: rest, i, packed =>
    nibbleLoop rest (i + 1)
      (if i % 2 = 0 then packed.set (i / 2) ((val <<< 4) % 256)
       else packed.set (i / 2) ((packed.getD (i / 2) 0 ||| val) % 256))

/-- Pack indices as 4-bit nibbles, two per byte, into `⌈count/2⌉` bytes. -/
def enumPack (indices : List Nat) (count : Nat) : Bytes :=
  nibbleLoop indices 0 (List.replicate ((count + 1) / 2) 0)

/-- `EnumCodec.encode` over string-or-null values. -/
def EnumCodec.encode (values : List (Option Bytes)) : Except CErr Bytes :=
  if 2 ^ 32 ≤ values.length then .error .rangeErr
  else if values.length = 0 then .ok (u32le 0)
  else
    match (uniqueList values).mapM enumDictEntry with
    | .error e => .error e
    | .ok dictEntries =>
      let unique := uniqueList values
      let indices := values.map (fun v => unique.indexOf v)
      if 16 < unique.length then
        .ok (u32le values.length ++ unique.length % 256 :: dictEntries.flatten ++
          indices.map (· % 256))
      else
        .ok (u32le values.length ++ unique.length % 256 :: dictEntries.flatten ++
          enumPack indices values.length)

/-- Specification form of the nibble packing: two indices per byte, high
nibble first; an odd trailing index occupies the high nibble alone. -/
def packPairs : List Nat → Bytes
  | [] => []
  | [a] => [(a <<< 4) % 256]
  | a :: b :: rest => (((a <<< 4) % 256 ||| b) % 256) :: packPairs rest

/-! ## UUIDCodec

UUID strings are ASCII character-code lists. -/

/-- Hex digit test (both cases). -/
def isHexDigit (c : Nat) : Bool :=
  (48 ≤ c && c ≤ 57) || (97 ≤ c && c ≤ 102) || (65 ≤ c && c ≤ 70)

/-- Value of a hex digit. -/
def hexVal (c : Nat) : Nat :=
  if c ≤ 57 then c - 48 else if c ≤ 70 then c - 55 else c - 87

/-- Lowercase hex character of a nibble value. -/
def hexChar (v : Nat) : Nat := if v < 10 then 48 + v else 87 + v

/-- `Buffer.from(str, "hex")`: consume hex-digit pairs, stopping at the
first invalid pair. -/
def parseHex : List Nat → Bytes
  | c1 :: c2 :: rest =>
    if isHexDigit c1 && isHexDigit c2 then
      (16 * hexVal c1 + hexVal c2) :: parseHex rest
    else []
  | _ => []

/-- `UUIDCodec.encode`: strip hyphens, hex-decode 16 bytes per value. -/
def UUIDCodec.encode (values : List (List Nat)) : Bytes :=
  (values.map (fun u => parseHex (u.filter (fun c => c ≠ 45)))).flatten

/-- `toString("hex")` of one byte: two lowercase hex characters. -/
def byteToHex (b : Nat) : List Nat := [hexChar (b / 16), hexChar (b % 16)]

/-- Re-insert hyphens at hex-string offsets 8, 12, 16, 20. -/
def hyphenate (hex : List Nat) : List Nat :=
  hex.take 8 ++ [45] ++ ((hex.drop 8).take 4) ++ [45] ++ ((hex.drop 12).take 4) ++
    [45] ++ ((hex.drop 16).take 4) ++ [45] ++ hex.drop 20

/-- `UUIDCodec.decode`: one hyphenated string per 16-byte group. -/
def uuidDecodeLoop : Nat → Bytes → List (List Nat)
  | _, [] => []
  | 0, _ :: _ => []
  | fuel + 1, b :: rest =>
    hyphenate (((b :: rest).take 16).map byteToHex).flatten ::
      uuidDecodeLoop fuel ((b :: rest).drop 16)

/-- `UUIDCodec.decode`. -/
def UUIDCodec.decode (buffer : Bytes) : List (List Nat) :=
  uuidDecodeLoop buffer.length buffer

/-- JS `toLowerCase` per ASCII character. -/
def jsLower (c : Nat) : Nat := if 65 ≤ c && c ≤ 90 then c + 32 else c

/-! ## SemanticCompressor pipeline

Records are insertion-ordered key/value lists over UTF-8 byte-list keys
(JavaScript object property order for string keys; the special numeric-key
reordering of JS property enumeration is not modelled).  The pipeline is
parameterised by the IEEE-754 serialisation (`f64`/`f64dec`) and by the
UUID-regex and `Date.parse` oracles of the profiler, all external
built-ins. -/

/-- A JavaScript record: insertion-ordered key/value list. -/
abbrev Rec := List (Bytes × JVal)

/-- Property read `r[key]` (association lookup, first entry wins; compress
never produces duplicate keys). -/
def recLookup : Rec → Bytes → Option JVal
  | [], _ => none
  | (k, v) :: rest, key => if key = k then some v else recLookup rest key

/-- `key in r ? r[key] : MISSING`. -/
def recGet (r : Rec) (k : Bytes) : JVal := (recLookup r k).getD JVal.missing

/-- JS object assignment `o[k] = v`: update in place when the key exists
(keeping its insertion position), else append. -/
def dictSet (r : Rec) (k : Bytes) (v : JVal) : Rec :=
  if k ∈ r.map Prod.fst then r.map (fun p => if p.1 = k then (k, v) else p)
  else r ++ [(k, v)]

/-- JS default `Array.prototype.sort` string comparison: lexicographic by
code unit. -/
def bytesLe : Bytes → Bytes → Bool
  | [], _ => true
  | _ :: _, [] => false
  | a :: as, b :: bs => if a < b then true else if b < a then false else bytesLe as bs

/-- Insertion step of the sort. -/
def insertSorted (k : Bytes) : List Bytes → List Bytes
  | [] => [k]
  | x :: xs => if bytesLe k x then k :: x :: xs else x :: insertSorted k xs

/-- `Array.from(keys).sort()` (insertion sort; only the permutation and
duplicate-freeness properties are used below). -/
def sortKeys (l : List Bytes) : List Bytes := l.foldr insertSorted []

/-- The `flat` record built in `prepareData`: for every sorted key, the
record's value if the key is present (values are never `undefined` in the
modelled domain), else MISSING. -/
def padRecord (ks : List Bytes) (r : Rec) : Rec := ks.map (fun k => (k, recGet r k))

/-- `isPlainObject`: a non-null, non-array object.  MISSING is a symbol and
is explicitly excluded by the source. -/
def JVal.isPlainObject : JVal → Bool
  | .obj _ => true
  | _ => false

mutual
/-- `flattenRecursive` acting on one value at `path`: recurse into plain
objects, otherwise `result[path] = value`. -/
def flattenVal (acc : Rec) (path : Bytes) (v : JVal) : Rec :=
  match v with
  | .obj fields => flattenFields acc path fields
  | _ => dictSet acc path v
/-- `flattenRecursive` over an object's entries under `parentPath`
(`path = parentPath ? parentPath + "." + key : key`). -/
def flattenFields (acc : Rec) (pp : Bytes) : List (Bytes × JVal) → Rec
  | [] => acc
  | (k, v) :: rest =>
    flattenFields (flattenVal acc (if pp = [] then k else pp ++ 46 :: k) v) pp rest
end

/-- `ObjectFlattener.flatten`. -/
def ObjectFlattener.flatten (r : Rec) : Rec := flattenFields [] [] r

mutual
/-- `JSON.stringify` equality on the compared column arrays: `null` and
MISSING both serialise to `null` there; numbers, booleans and strings
serialise injectively; arrays and objects compare structurally. -/
def jeq : JVal → JVal → Bool
  | .null, .null => true
  | .null, .missing => true
  | .missing, .null => true
  | .missing, .missing => true
  | .bool a, .bool b => a == b
  | .num a, .num b => a == b
  | .str a, .str b => a == b
  | .arr a, .arr b => jeqList a b
  | .obj a, .obj b => jeqFields a b
  | _, _ => false
/-- `jeq` over arrays. -/
def jeqList : List JVal → List JVal → Bool
  | [], [] => true
  | a :: as, b :: bs => jeq a b && jeqList as bs
  | _, _ => false
/-- `jeq` over object field lists. -/
def jeqFields : List (Bytes × JVal) → List (Bytes × JVal) → Bool
  | [], [] => true
  | (k1, v1) :: as, (k2, v2) :: bs => k1 == k2 && jeq v1 v2 && jeqFields as bs
  | _, _ => false
end

/-- `v !== null` (undefined does not exist in the modelled domain; the
MISSING symbol is not null). -/
def JVal.isNull : JVal → Bool
  | .null => true
  | _ => false

/-- `typeof v === "boolean"`. -/
def JVal.isBoolV : JVal → Bool
  | .bool _ => true
  | _ => false

/-- `typeof v === "number"`. -/
def JVal.isNum : JVal → Bool
  | .num _ => true
  | _ => false

/-- `typeof v === "string"`. -/
def JVal.isStr : JVal → Bool
  | .str _ => true
  | _ => false

/-- `typeof item !== "object" || item === null` (JS `typeof null` is
`"object"`; arrays are objects; symbols are not). -/
def isPrimItem : JVal → Bool
  | .obj _ => false
  | .arr _ => false
  | _ => true

/-- `isArrayOfObjects` element-wise test on one value. -/
def isArrObj : JVal → Bool
  | .arr items => items.all JVal.isPlainObject
  | _ => false

/-- `isArrayOfPrimitives` element-wise test on one value. -/
def isArrPrim : JVal → Bool
  | .arr items => items.all isPrimItem
  | _ => false

/-- `FieldProfiler.detectType`, parameterised by the UUID-regex test and
the `Date.parse` success test on strings (external built-ins).  Field type
numbers: STRING 0, NUMBER 1, BOOLEAN 2, TIMESTAMP 3, UUID 4, ENUM 5,
OBJECT 6, ARRAY 7, ARRAY_PRIMITIVE 8. -/
def detectType (uuidT dateT : Bytes → Bool) (values : List JVal) : Nat :=
  if (values.filter (fun v => ! v.isNull)).length = 0 then 0
  else if (values.filter (fun v => ! v.isNull)).all
      (fun v => match v with | JVal.str s => uuidT s | _ => false) then 4
  else if (values.filter (fun v => ! v.isNull)).all
      (fun v => match v with | JVal.str s => dateT s | _ => false) then 3
  else if (match (values.filter (fun v => ! v.isNull)).mapM
          (fun v => match v with | JVal.str s => some s | _ => none) with
        | some ss => decide ((uniqueList ss).length ≤ 8)
        | none => false) then 5
  else if (values.filter (fun v => ! v.isNull)).all JVal.isBoolV then 2
  else if (values.filter (fun v => ! v.isNull)).all JVal.isNum then 1
  else if values.all isArrObj then 7
  else if values.all isArrPrim then 8
  else 0

/-- `buildSchema` on one column: profile the non-MISSING values, or the
whole column when every entry is MISSING. -/
def columnType (uuidT dateT : Bytes → Bool) (values : List JVal) : Nat :=
  detectType uuidT dateT
    (if 0 < (values.filter (fun v => ! v.isMissing)).length
     then values.filter (fun v => ! v.isMissing) else values)

/-- The registry dispatch (`resolveCodec`) on the encode side.  The string
and number codecs are the arms reachable below; the other registered codecs
(boolean, timestamp, UUID, enum, array codecs) operate on other value
domains and are embedded separately in this file — their dispatch arms are
out of scope here and are provably unreachable under the hypotheses of the
round-trip theorems below, which force column types 0 and 1. -/
def codecEncode (f64 : ℚ → Bytes) : Nat → List JVal → Except CErr Bytes
  | 0, vs => AdaptiveStringCodec.encode vs
  | 1, vs => NumberCodec.encode f64 vs
  | _, _ => .error .noCodec

/-- The registry dispatch on the decode side (same scope remark as
`codecEncode`). -/
def codecDecode (f64dec : Bytes → ℚ) : Nat → Bytes → Except CErr (List JVal)
  | 0, b => AdaptiveStringCodec.decode b
  | 1, b => NumberCodec.decode f64dec b
  | _, _ => .error .noCodec

/-- `columns[key].push(value)`, creating the column on first use. -/
def colAdd (cols : List (Bytes × List JVal)) (k : Bytes) (v : JVal) :
    List (Bytes × List JVal) :=
  if k ∈ cols.map Prod.fst then cols.map (fun p => if p.1 = k then (p.1, p.2 ++ [v]) else p)
  else cols ++ [(k, [v])]

/-- `ColumnBuilder.build`. -/
def buildColumns (records : List Rec) : List (Bytes × List JVal) :=
  records.foldl (fun cols r => r.foldl (fun c p => colAdd c p.1 p.2) cols) []

/-- The second pass of `prepareData`: keys of `ks` absent from a flattened
record are appended with value MISSING, in `ks` order. -/
def padMissing (ks : List Bytes) (f : Rec) : Rec :=
  f ++ (ks.filter (fun k => ! decide (k ∈ f.map Prod.fst))).map (fun k => (k, JVal.missing))

/-- One column of `prepareData`: profile, nullable-wrapped encode, decode
back and compare (the `JSON.stringify` round-trip integrity check). -/
def processColumn (f64 : ℚ → Bytes) (f64dec : Bytes → ℚ) (uuidT dateT : Bytes → Bool)
    (name : Bytes) (vals : List JVal) : Except CErr (Bytes × Nat × Bytes) :=
  match wrapEncode (codecEncode f64 (columnType uuidT dateT vals)) vals with
  | .error e => .error e
  | .ok encoded =>
    match wrapDecode (codecDecode f64dec (columnType uuidT dateT vals)) encoded with
    | .error e => .error e
    | .ok decoded =>
      if jeqList vals decoded then .ok (name, columnType uuidT dateT vals, encoded)
      else .error .roundTripFailed

/-- The key union of `prepareData` (a `Set` filled in iteration order). -/
def allKeys (records : List Rec) : List Bytes :=
  uniqueList (records.flatMap (fun r => r.map Prod.fst))

/-- The flattened records of `prepareData`: each record padded over the
sorted key union and flattened. -/
def flattenedRecords (records : List Rec) : List Rec :=
  records.map (fun r => ObjectFlattener.flatten (padRecord (sortKeys (allKeys records)) r))

/-- The second pass of `prepareData`: fill keys missing from some flattened
record (`allFlattenedKeys` union, in iteration order). -/
def filledRecords (records : List Rec) : List Rec :=
  (flattenedRecords records).map
    (padMissing (uniqueList ((flattenedRecords records).flatMap (fun f => f.map Prod.fst))))

/-- `SemanticCompressor.prepareData`: key union, sort, pad, flatten, second
key union and fill, column build, then per-column profile/encode/check.
Returns each field's name, type, and encoded column buffer. -/
def prepareData (f64 : ℚ → Bytes) (f64dec : Bytes → ℚ) (uuidT dateT : Bytes → Bool)
    (records : List Rec) : Except CErr (List (Bytes × Nat × Bytes)) :=
  if records.length = 0 then .error .emptyBatch
  else
    (buildColumns (filledRecords records)).mapM
      (fun c => processColumn f64 f64dec uuidT dateT c.1 c.2)

/-- `HeaderEncoder.encode` on fields `(name, type, byteLength)`: magic
`SAJC`, version byte, `u16` field count, then per field
`u8 nameLen | name | u8 type | u32 byteLength`.  Node's `writeUInt16LE` and
`writeUInt32LE` throw out of range; `Buffer.from([nameBuf.length])`
silently truncates a name length to `% 256`. -/
def headerEncode (version : Nat) (fields : List (Bytes × Nat × Nat)) : Except CErr Bytes :=
  if 2 ^ 16 ≤ fields.length then .error .rangeErr
  else if fields.any (fun f => 2 ^ 32 ≤ f.2.2) then .error .rangeErr
  else .ok ([83, 65, 74, 67] ++ version % 256 :: u16le fields.length ++
    (fields.map (fun f => f.1.length % 256 :: f.1 ++ f.2.1 % 256 :: u32le f.2.2)).flatten)

/-- `SemanticCompressor.compress` (default version 1): header then the
concatenated column buffers. -/
def compress (f64 : ℚ → Bytes) (f64dec : Bytes → ℚ) (uuidT dateT : Bytes → Bool)
    (records : List Rec) : Except CErr Bytes :=
  match prepareData f64 f64dec uuidT dateT records with
  | .error e => .error e
  | .ok cols =>
    match headerEncode 1 (cols.map (fun c => (c.1, c.2.1, c.2.2.length))) with
    | .error e => .error e
    | .ok header => .ok (header ++ (cols.map (fun c => c.2.2)).flatten)

/-- The header field parse loop of `decompress`
(`u8 nameLen | name | u8 type | u32 byteLength` per field).  Out-of-range
JS buffer reads yield `undefined` garbage; they are modelled as explicit
truncation errors and never arise for buffers produced by `compress`. -/
def parseFields : Nat → Bytes → Except CErr (List (Bytes × Nat × Nat) × Bytes)
  | 0, buf => .ok ([], buf)
  | k + 1, buf =>
    match buf with
    | [] => .error .truncated
    | nameLen :: rest =>
      if rest.length < nameLen then .error .truncated
      else
        match rest.drop nameLen with
        | typeNum :: b0 :: b1 :: b2 :: b3 :: rest2 =>
          match parseFields k rest2 with
          | .error e => .error e
          | .ok (fs, rem) => .ok ((rest.take nameLen, typeNum, readU32 b0 b1 b2 b3) :: fs, rem)
        | _ => .error .truncated

/-- The per-field column loop of `decompress`: slice `byteLength` bytes and
nullable-decode them with the field's codec.  The `columns` dictionary is
modelled as this ordered list (duplicate field names never arise from
`compress`). -/
def readColumns (f64dec : Bytes → ℚ) :
    List (Bytes × Nat × Nat) → Bytes → Except CErr (List (Bytes × List JVal))
  | [], _ => .ok []
  | f :: fs, buf =>
    match wrapDecode (codecDecode f64dec f.2.1) (buf.take f.2.2) with
    | .error e => .error e
    | .ok vals =>
      match readColumns f64dec fs (buf.drop f.2.2) with
      | .error e => .error e
      | .ok cols => .ok ((f.1, vals) :: cols)

/-- `columns[name]` (decoded column lookup). -/
def colLookup : List (Bytes × List JVal) → Bytes → List JVal
  | [], _ => []
  | c :: cs, name => if name = c.1 then c.2 else colLookup cs name

/-- `fullPath.split(".")`. -/
def splitDots : Bytes → List Bytes
  | [] => [[]]
  | c :: rest =>
    if c = 46 then [] :: splitDots rest
    else
      match splitDots rest with
      | part :: parts => (c :: part) :: parts
      | [] => [[c]]

/-- The nested path assignment of `unflatten` (`current[part]` walk with
`if (!current[part]) current[part] = {}`): an existing plain object is
descended into, a falsy or absent intermediate is replaced by a fresh
object.  (A truthy non-object intermediate, which JS would descend into and
silently drop the write on, does not arise for the flat records produced by
`decompress` and is modelled by the same replacement arm.) -/
def deepInsert (res : Rec) : List Bytes → JVal → Rec
  | [], _ => res
  | [p], v => dictSet res p v
  | p :: p2 :: ps, v =>
    match recLookup res p with
    | some (JVal.obj o) => dictSet res p (JVal.obj (deepInsert o (p2 :: ps) v))
    | _ => dictSet res p (JVal.obj (deepInsert [] (p2 :: ps) v))

/-- `ObjectFlattener.unflatten`: MISSING (and undefined) values are
skipped; other values are deep-assigned along their dotted path. -/
def unflatten (flat : Rec) : Rec :=
  flat.foldl (fun res p => if p.2.isMissing then res else deepInsert res (splitDots p.1) p.2) []

/-- `SemanticCompressor.decompress`: magic and length checks, header parse,
column slice/decode, row reassembly (MISSING values dropped), then
`unflatten` per row.  The columnar-brotli variant (magic `SJCB`) involves
zlib and is not modelled; its buffers are never produced by `compress`. -/
def decompress (f64dec : Bytes → ℚ) (buffer : Bytes) : Except CErr (List Rec) :=
  if buffer.length < 8 then .error .invalidMagic
  else if buffer.take 4 ≠ [83, 65, 74, 67] then .error .invalidMagic
  else
    match buffer.drop 4 with
    | _v :: c0 :: c1 :: rest =>
      match parseFields (c0 + 256 * c1) rest with
      | .error e => .error e
      | .ok (fields, body) =>
        if fields.length = 0 then .ok []
        else
          match readColumns f64dec fields body with
          | .error e => .error e
          | .ok cols =>
            .ok ((List.range ((colLookup cols (fields.headD ([], 0, 0)).1).length)).map
              (fun row => unflatten (fields.foldl (fun rec f =>
                if ((colLookup cols f.1).getD row JVal.missing).isMissing then rec
                else dictSet rec f.1 ((colLookup cols f.1).getD row JVal.missing)) [])))
    | _ => .error .invalidMagic

theorem lebEncodeAux_eq (val : Nat) : ∀ fuel, val < fuel →
    lebEncodeAux fuel val =
      if val < 128 then [val]
      else (val % 128 + 128) :: lebEncodeAux (val / 128 + 1) (val / 128) := by
  induction val using Nat.strong_induction_on with
  | _ val ih =>
    intro fuel hf
    match fuel, hf with
    | f + 1, hf =>
      rw [lebEncodeAux]
      by_cases hv : val < 128
      · have h0 : val / 128 = 0 := Nat.div_eq_of_lt hv
        simp [h0, hv, Nat.mod_eq_of_lt hv]
      · have hrest : val / 128 < val := Nat.div_lt_self (by omega) (by omega)
        have hne : ¬ val / 128 = 0 := by
          have := Nat.div_le_div_right (c := 128) (by omega : 128 ≤ val)
          simpa using Nat.not_eq_zero_of_lt (by omega : 0 < val / 128)
        simp only [hne, if_neg, hv]
        rw [ih (val / 128) hrest f (by omega), ih (val / 128) hrest (val / 128 + 1) (by omega)]
        simp

/-- Unfolding equation for `Varint.encode`. -/
theorem Varint.encode_eq (val : Nat) :
    Varint.encode val =
      if val < 128 then [val] else (val % 128 + 128) :: Varint.encode (val / 128) :=
  lebEncodeAux_eq val (val + 1) (Nat.lt_succ_self val)

theorem getD_eq_zero_of_le {l : Bytes} {i : Nat} (h : l.length ≤ i) : l.getD i 0 = 0 := by
  simp [List.getD_eq_getElem?_getD, List.getElem?_eq_none h]

theorem getD_mem_of_lt {l : Bytes} {i : Nat} (h : i < l.length) : l.getD i 0 ∈ l := by
  rw [List.getD_eq_getElem?_getD, List.getElem?_eq_getElem h]
  exact List.getElem_mem h

theorem getD_eq_getElem_of_lt {l : Bytes} {i : Nat} (h : i < l.length) :
    l.getD i 0 = l[i] := by
  rw [List.getD_eq_getElem?_getD, List.getElem?_eq_getElem h]
  rfl

theorem byte_and128_of_ge {b : Nat} (h1 : 128 ≤ b) (h2 : b < 256) : b &&& 128 ≠ 0 := by
  have h128 : (128 : Nat) = 2 ^ 7 := by norm_num
  rw [h128, Nat.and_two_pow]
  have hbit : b.testBit 7 = true := by
    rw [Nat.testBit_to_div_mod]
    simp only [decide_eq_true_eq, show (2 : Nat) ^ 7 = 128 from by norm_num]
    omega
  simp [hbit]

theorem byte_and128_of_lt {b : Nat} (h2 : b < 128) : b &&& 128 = 0 := by
  have h128 : (128 : Nat) = 2 ^ 7 := by norm_num
  rw [h128, Nat.and_two_pow]
  have hbit : b.testBit 7 = false := by
    rw [Nat.testBit_to_div_mod]
    simp only [decide_eq_false_iff_not, show (2 : Nat) ^ 7 = 128 from by norm_num]
    omega
  simp [hbit]

theorem varintDecodeLoop_term {b : Nat} (rest : Bytes) (value shift n : Nat)
    (hb : b &&& 128 = 0) :
    varintDecodeLoop (b :: rest) value shift n =
      .ok (value ||| ((b % 128) <<< (shift % 32)) % 2 ^ 32, n + 1) := by
  rw [varintDecodeLoop]; simp [hb]

theorem varintDecodeLoop_over {b : Nat} (rest : Bytes) (value shift n : Nat)
    (hb : b &&& 128 ≠ 0) (hs : 35 < shift + 7) :
    varintDecodeLoop (b :: rest) value shift n = .error .varintOverflow := by
  rw [varintDecodeLoop]; simp [hb, hs]

theorem varintDecodeLoop_cont {b : Nat} (rest : Bytes) (value shift n : Nat)
    (hb : b &&& 128 ≠ 0) (hs : shift + 7 ≤ 35) :
    varintDecodeLoop (b :: rest) value shift n =
      varintDecodeLoop rest (value ||| ((b % 128) <<< (shift % 32)) % 2 ^ 32)
        (shift + 7) (n + 1) := by
  rw [varintDecodeLoop]
  simp [hb, Nat.not_lt.2 hs]

/-- All-continuation buffers that run out before the overflow guard trips
give `Truncated`. -/
theorem varintDecodeLoop_all_cont {l : Bytes} : ∀ (value shift n : Nat),
    (∀ b ∈ l, b &&& 128 ≠ 0) → shift + 7 * l.length ≤ 35 →
    varintDecodeLoop l value shift n = .error .truncated := by
  induction l with
  | nil => intro value shift n _ _; rfl
  | cons b rest ih =>
    intro value shift n hc hs
    have hb : b &&& 128 ≠ 0 := hc b (List.mem_cons_self b rest)
    rw [varintDecodeLoop_cont rest value shift n hb (by simp at hs; omega)]
    exact ih _ _ _ (fun x hx => hc x (List.mem_cons_of_mem b hx)) (by simp at hs ⊢; omega)

/-- Success characterisation of the decode loop. -/
theorem varintDecodeLoop_ok {l : Bytes} : ∀ (value shift n val m : Nat),
    value < 2 ^ 32 → shift ≤ 35 →
    varintDecodeLoop l value shift n = .ok (val, m) →
    n < m ∧ m - n ≤ (35 - shift) / 7 + 1 ∧ m - n ≤ l.length ∧
      (l.getD (m - n - 1) 0) &&& 128 = 0 ∧
      (∀ i, i < m - n - 1 → (l.getD i 0) &&& 128 ≠ 0) ∧ val < 2 ^ 32 := by
  induction l with
  | nil => intro value shift n val m _ _ h; exact absurd h (by rw [varintDecodeLoop]; simp)
  | cons b rest ih =>
    intro value shift n val m hv hs h
    by_cases hb : b &&& 128 = 0
    · rw [varintDecodeLoop_term rest value shift n hb] at h
      obtain ⟨hval, hm⟩ : value ||| ((b % 128) <<< (shift % 32)) % 2 ^ 32 = val ∧ n + 1 = m := by
        simpa using h
      refine ⟨by omega, by omega, by simp; omega, ?_, fun i hi => by omega, ?_⟩
      · have : m - n - 1 = 0 := by omega
        simp [this, hb]
      · rw [← hval]
        exact Nat.or_lt_two_pow hv (Nat.mod_lt _ (by norm_num))
    · by_cases hover : shift + 7 ≤ 35
      · rw [varintDecodeLoop_cont rest value shift n hb hover] at h
        obtain ⟨h1, h2, h3, h4, h5, h6⟩ :=
          ih _ _ _ val m (Nat.or_lt_two_pow hv (Nat.mod_lt _ (by norm_num))) (by omega) h
        have hmn : 1 ≤ m - n - 1 := by omega
        refine ⟨by omega, by omega, by simp; omega, ?_, ?_, h6⟩
        · have : m - n - 1 = (m - (n + 1) - 1) + 1 := by omega
          rw [this, List.getD_cons_succ]
          exact h4
        · intro i hi
          match i with
          | 0 => simpa using hb
          | i' + 1 =>
            rw [List.getD_cons_succ]
            exact h5 i' (by omega)
      · rw [varintDecodeLoop_over rest value shift n hb (by omega)] at h
        exact absurd h (by simp)

/-- C5: `Varint.decode` fails with `VarintOverflow` whenever more than five
bytes are consumed without reaching a terminator byte (a byte with the
continuation bit clear), fails with `Truncated` when the buffer ends
mid-integer, and on success returns the decoded value (a 32-bit unsigned
integer) together with the number of bytes read: at least one byte, at most
six, ending at the first terminator byte. -/
theorem varint_decode_spec (buf : Bytes) (hb : ∀ b ∈ buf, b < 256) :
    ((∀ i, i < 6 → 128 ≤ buf.getD i 0) → Varint.decode buf 0 = .error .varintOverflow) ∧
    ((∀ i, i < buf.length → 128 ≤ buf.getD i 0) → buf.length < 6 →
      Varint.decode buf 0 = .error .truncated) ∧
    (∀ v n, Varint.decode buf 0 = .ok (v, n) →
      v < 2 ^ 32 ∧ 1 ≤ n ∧ n ≤ 6 ∧ n ≤ buf.length ∧ buf.getD (n - 1) 0 < 128 ∧
        ∀ i, i < n - 1 → 128 ≤ buf.getD i 0) := by
  refine ⟨?_, ?_, ?_⟩
  · intro hcont
    have hlen : 6 ≤ buf.length := by
      by_contra hge
      have h := hcont buf.length (by omega)
      rw [getD_eq_zero_of_le (Nat.le_refl _)] at h
      omega
    rcases buf with _ | ⟨b0, _ | ⟨b1, _ | ⟨b2, _ | ⟨b3, _ | ⟨b4, _ | ⟨b5, rest⟩⟩⟩⟩⟩⟩ <;>
      try (exfalso; simp only [List.length_cons, List.length_nil] at hlen; omega)
    have hA : ∀ i, i < 6 →
        ((b0 :: b1 :: b2 :: b3 :: b4 :: b5 :: rest).getD i 0) &&& 128 ≠ 0 := by
      intro i hi
      refine byte_and128_of_ge (hcont i hi) (hb _ (getD_mem_of_lt ?_))
      simp only [List.length_cons]; omega
    rw [Varint.decode, List.drop_zero]
    rw [varintDecodeLoop_cont _ _ _ _ (by simpa using hA 0 (by omega)) (by omega),
      varintDecodeLoop_cont _ _ _ _ (by simpa using hA 1 (by omega)) (by omega),
      varintDecodeLoop_cont _ _ _ _ (by simpa using hA 2 (by omega)) (by omega),
      varintDecodeLoop_cont _ _ _ _ (by simpa using hA 3 (by omega)) (by omega),
      varintDecodeLoop_cont _ _ _ _ (by simpa using hA 4 (by omega)) (by omega),
      varintDecodeLoop_over _ _ _ _ (by simpa using hA 5 (by omega)) (by omega)]
  · intro hcont hlen
    rw [Varint.decode, List.drop_zero]
    refine varintDecodeLoop_all_cont 0 0 0 ?_ (by omega)
    intro b hbmem
    obtain ⟨i, hi, rfl⟩ := List.mem_iff_getElem.1 hbmem
    have h1 := hcont i hi
    rw [getD_eq_getElem_of_lt hi] at h1
    exact byte_and128_of_ge h1 (hb _ hbmem)
  · intro v n h
    rw [Varint.decode, List.drop_zero] at h
    obtain ⟨h1, h2, h3, h4, h5, h6⟩ :=
      varintDecodeLoop_ok 0 0 0 v n (by norm_num) (by omega) h
    have h4' : buf.getD (n - 1) 0 &&& 128 = 0 := by simpa using h4
    have h5' : ∀ i, i < n - 1 → buf.getD i 0 &&& 128 ≠ 0 := fun i hi => by
      simpa using h5 i (by omega)
    refine ⟨h6, by omega, by omega, by omega, ?_, ?_⟩
    · by_contra hge
      have hmem : buf.getD (n - 1) 0 ∈ buf := getD_mem_of_lt (by omega)
      exact byte_and128_of_ge (by omega) (hb _ hmem) h4'
    · intro i hi
      by_contra hlt
      exact h5' i (by omega) (byte_and128_of_lt (by omega))

/-- Witness for `varint_decode_spec`: the buffer `0x82 0x03` decodes to
`(386, 2)` and satisfies the success characterisation. -/
theorem varint_decode_spec_witness :
    Varint.decode [130, 3] 0 = .ok (386, 2) ∧
      (386 < 2 ^ 32 ∧ 1 ≤ 2 ∧ 2 ≤ 6 ∧ 2 ≤ ([130, 3] : Bytes).length ∧
        ([130, 3] : Bytes).getD (2 - 1) 0 < 128 ∧
        ∀ i, i < 2 - 1 → 128 ≤ ([130, 3] : Bytes).getD i 0) :=
  ⟨rfl, (varint_decode_spec [130, 3] (by decide)).2.2 386 2 rfl⟩

/-! ### Bitmap lemmas -/

theorem getD_set_self {l : Bytes} {i : Nat} (x : Nat) (h : i < l.length) :
    (l.set i x).getD i 0 = x := by
  simp [List.getD_eq_getElem?_getD, List.getElem?_set_self h]

theorem getD_set_ne {l : Bytes} {i j : Nat} (x : Nat) (h : i ≠ j) :
    (l.set i x).getD j 0 = l.getD j 0 := by
  simp [List.getD_eq_getElem?_getD, List.getElem?_set_ne h]

theorem getD_replicate_zero (k j : Nat) : (List.replicate k 0).getD j 0 = 0 := by
  rcases Nat.lt_or_ge j k with h | h
  · rw [getD_eq_getElem_of_lt (by simpa using h)]
    simp
  · exact getD_eq_zero_of_le (by simpa using h)

theorem bitAt_bmStep (bm : Bytes) (i m : Nat) (hi : i / 8 < bm.length) :
    bitAt (bmStep bm i) m = (bitAt bm m || decide (m = i)) := by
  unfold bitAt bmStep
  by_cases hj : m / 8 = i / 8
  · rw [hj, getD_set_self _ hi]
    have h1 : (1 : Nat) <<< (i % 8) = 2 ^ (i % 8) := Nat.one_shiftLeft _
    rw [h1, Nat.testBit_or, Nat.testBit_two_pow]
    have : (i % 8 = m % 8) ↔ (m = i) := by omega
    simp [this]
  · rw [getD_set_ne _ (Ne.symm hj)]
    have : ¬ (m = i) := by omega
    simp [this]

theorem bmLoop_length : ∀ (l : List JVal) (i : Nat) (bm : Bytes),
    (bmLoop l i bm).length = bm.length := by
  intro l
  induction l with
  | nil => intro i bm; rfl
  | cons v rest ih =>
    intro i bm
    rw [bmLoop, ih]
    by_cases hv : v.isMissing <;> simp [hv, bmStep]

theorem buildBitmap_length (values : List JVal) :
    (buildBitmap values).length = (values.length + 7) / 8 := by
  rw [buildBitmap, bmLoop_length, List.length_replicate]

theorem exists_nonMissing_cons (v : JVal) (rest : List JVal) (i m : Nat) :
    (∃ t, ((v :: rest).getD t JVal.missing).isMissing = false ∧ i + t = m) ↔
      ((v.isMissing = false ∧ i = m) ∨
        ∃ t, (rest.getD t JVal.missing).isMissing = false ∧ (i + 1) + t = m) := by
  constructor
  · rintro ⟨t, ht, rfl⟩
    match t with
    | 0 => exact Or.inl ⟨by simpa using ht, by omega⟩
    | t' + 1 => exact Or.inr ⟨t', by simpa using ht, by omega⟩
  · rintro (⟨hv, rfl⟩ | ⟨t, ht, rfl⟩)
    · exact ⟨0, by simpa using hv, by omega⟩
    · exact ⟨t + 1, by simpa using ht, by omega⟩

theorem bitAt_bmLoop : ∀ (l : List JVal) (i : Nat) (bm : Bytes) (m : Nat),
    (∀ t, t < l.length → (i + t) / 8 < bm.length) →
    (bitAt (bmLoop l i bm) m = true ↔
      (bitAt bm m = true ∨
        ∃ t, (l.getD t JVal.missing).isMissing = false ∧ i + t = m)) := by
  intro l
  induction l with
  | nil =>
    intro i bm m _
    simp [bmLoop, JVal.isMissing]
  | cons v rest ih =>
    intro i bm m hb
    rw [bmLoop]
    by_cases hv : v.isMissing = true
    · rw [if_pos hv]
      rw [ih (i + 1) bm m (fun t ht => by
        have := hb (t + 1) (by simpa using Nat.succ_lt_succ ht)
        omega
        )]
      rw [exists_nonMissing_cons]
      simp [hv]
    · rw [if_neg hv]
      rw [ih (i + 1) (bmStep bm i) m (fun t ht => by
        have h1 := hb (t + 1) (by simpa using Nat.succ_lt_succ ht)
        have h2 : (bmStep bm i).length = bm.length := by simp [bmStep]
        omega
        )]
      rw [bitAt_bmStep bm i m (hb 0 (by simp))]
      rw [exists_nonMissing_cons]
      constructor
      · rintro (h | h)
        · rcases Bool.or_eq_true_iff.1 h with h' | h'
          · exact Or.inl h'
          · exact Or.inr (Or.inl ⟨by simpa using hv, by simpa using (of_decide_eq_true h').symm⟩)
        · exact Or.inr (Or.inr h)
      · rintro (h | ⟨⟨_, rfl⟩ | h⟩)
        · exact Or.inl (by simp [h])
        · exact Or.inl (by simp)
        · exact Or.inr h

theorem bitAt_buildBitmap (values : List JVal) (m : Nat) :
    bitAt (buildBitmap values) m = (!(values.getD m JVal.missing).isMissing) := by
  have h := bitAt_bmLoop values 0 (List.replicate ((values.length + 7) / 8) 0) m
    (fun t ht => by simp only [List.length_replicate]; omega)
  rw [buildBitmap]
  have hz : bitAt (List.replicate ((values.length + 7) / 8) 0) m = false := by
    unfold bitAt
    rw [getD_replicate_zero]
    exact Nat.zero_testBit _
  rcases hmiss : (values.getD m JVal.missing).isMissing with _ | _
  · simp only [Bool.not_false]
    exact h.2 (Or.inr ⟨m, hmiss, by omega⟩)
  · simp only [Bool.not_true]
    rcases hbit : bitAt (bmLoop values 0 (List.replicate ((values.length + 7) / 8) 0)) m
    · rfl
    · exfalso
      rcases h.1 hbit with hcontra | ⟨t, ht, hm⟩
      · rw [hz] at hcontra; exact Bool.false_ne_true hcontra
      · have : t = m := by omega
        rw [this, hmiss] at ht
        simp at ht

theorem popCount8_zero : popCount8 0 = 0 := by
  simp [popCount8, Nat.zero_testBit]

theorem popCount8_or (b k : Nat) (hk : k < 8) (hb : b.testBit k = false) :
    popCount8 (b ||| 1 <<< k) = popCount8 b + 1 := by
  unfold popCount8
  rw [Nat.one_shiftLeft]
  have hmem : k ∈ Finset.range 8 := Finset.mem_range.2 hk
  rw [Finset.sum_eq_sum_diff_singleton_add hmem, Finset.sum_eq_sum_diff_singleton_add hmem]
  have hsame : ∀ j ∈ Finset.range 8 \ {k},
      ((b ||| 2 ^ k).testBit j).toNat = (b.testBit j).toNat := by
    intro j hj
    have hne : k ≠ j := fun h => (Finset.mem_sdiff.1 hj).2 (by simp [h])
    rw [Nat.testBit_or, Nat.testBit_two_pow]
    simp [hne]
  rw [Finset.sum_congr rfl hsame]
  rw [Nat.testBit_or, Nat.testBit_two_pow, hb]
  simp

theorem totalPop_cons (b : Nat) (rest : Bytes) :
    totalPop (b :: rest) = popCount8 b + totalPop rest := by
  simp [totalPop]

theorem totalPop_set : ∀ (bm : Bytes) (j x : Nat), j < bm.length →
    totalPop (bm.set j x) + popCount8 (bm.getD j 0) = totalPop bm + popCount8 x := by
  intro bm
  induction bm with
  | nil => intro j x h; simp at h
  | cons b rest ih =>
    intro j x h
    match j with
    | 0 =>
      simp only [List.set_cons_zero, totalPop_cons, List.getD_cons_zero]
      omega
    | j' + 1 =>
      simp only [List.set_cons_succ, totalPop_cons, List.getD_cons_succ]
      have := ih j' x (by simpa using h)
      omega

theorem totalPop_bmStep (bm : Bytes) (i : Nat) (h : i / 8 < bm.length)
    (hbit : bitAt bm i = false) : totalPop (bmStep bm i) = totalPop bm + 1 := by
  unfold bitAt at hbit
  have hset := totalPop_set bm (i / 8) (bm.getD (i / 8) 0 ||| 1 <<< (i % 8)) h
  have hp := popCount8_or (bm.getD (i / 8) 0) (i % 8) (Nat.mod_lt _ (by norm_num)) hbit
  unfold bmStep
  omega

theorem totalPop_bmLoop : ∀ (l : List JVal) (i : Nat) (bm : Bytes),
    (∀ t, t < l.length → (i + t) / 8 < bm.length) →
    (∀ t, t < l.length → bitAt bm (i + t) = false) →
    totalPop (bmLoop l i bm) = totalPop bm + (l.filter (fun v => !v.isMissing)).length := by
  intro l
  induction l with
  | nil => intro i bm _ _; simp [bmLoop]
  | cons v rest ih =>
    intro i bm hb hbit
    rw [bmLoop]
    by_cases hv : v.isMissing = true
    · rw [if_pos hv]
      rw [ih (i + 1) bm
        (fun t ht => by have := hb (t + 1) (by simpa using Nat.succ_lt_succ ht); omega)
        (fun t ht => by
          have := hbit (t + 1) (by simpa using Nat.succ_lt_succ ht)
          simpa [Nat.add_assoc, Nat.add_comm 1 t] using this)]
      simp [List.filter_cons, hv]
    · rw [if_neg hv]
      have hlen : (bmStep bm i).length = bm.length := by simp [bmStep]
      have hstep := totalPop_bmStep bm i (hb 0 (by simp)) (hbit 0 (by simp))
      rw [ih (i + 1) (bmStep bm i)
        (fun t ht => by have := hb (t + 1) (by simpa using Nat.succ_lt_succ ht); omega)
        (fun t ht => by
          rw [bitAt_bmStep bm i _ (hb 0 (by simp))]
          have := hbit (t + 1) (by simpa using Nat.succ_lt_succ ht)
          have h2 : ¬ (i + 1 + t = i) := by omega
          rw [decide_eq_false h2]
          simp only [Bool.or_false]
          simpa [Nat.add_assoc, Nat.add_comm 1 t] using this)]
      rw [hstep]
      simp only [List.filter_cons, hv, Bool.not_false, Bool.false_eq_true, if_false]
      simp only [Bool.not_eq_true] at hv
      simp [hv]
      omega

theorem totalPop_replicate (k : Nat) : totalPop (List.replicate k 0) = 0 := by
  simp [totalPop, List.map_replicate, popCount8_zero, List.sum_replicate]

theorem totalPop_buildBitmap (values : List JVal) :
    totalPop (buildBitmap values) = (values.filter (fun v => !v.isMissing)).length := by
  rw [buildBitmap,
    totalPop_bmLoop values 0 _
      (fun t ht => by simp only [List.length_replicate]; omega)
      (fun t ht => by unfold bitAt; rw [getD_replicate_zero]; exact Nat.zero_testBit _),
    totalPop_replicate]
  omega

theorem range_getD_filter (p : JVal → Bool) : ∀ (values : List JVal),
    ((List.range values.length).filter
        (fun i => p (values.getD i JVal.missing))).length =
      (values.filter p).length := by
  intro values
  induction values with
  | nil => simp
  | cons v rest ih =>
    rw [List.length_cons, List.range_succ_eq_map]
    rw [List.filter_cons, List.filter_cons]
    simp only [List.getD_cons_zero]
    rw [List.filter_map]
    by_cases hp : p v = true
    · simp only [hp, if_pos]
      simp only [List.length_cons, List.length_map]
      rw [show (fun i => p ((v :: rest).getD i JVal.missing)) ∘ Nat.succ =
          (fun i => p (rest.getD i JVal.missing)) from rfl]
      rw [ih]
    · simp only [hp]
      simp only [Bool.false_eq_true, if_false, List.length_map]
      rw [show (fun i => p ((v :: rest).getD i JVal.missing)) ∘ Nat.succ =
          (fun i => p (rest.getD i JVal.missing)) from rfl]
      rw [ih]

theorem countSetBits_buildBitmap (values : List JVal) :
    countSetBits (buildBitmap values) values.length =
      (values.filter (fun v => !v.isMissing)).length := by
  unfold countSetBits
  rw [List.filter_congr
    (fun i _ => (bitAt_buildBitmap values i :
      bitAt (buildBitmap values) i = !(values.getD i JVal.missing).isMissing))]
  exact range_getD_filter (fun v => !v.isMissing) values

/-- C2: for every column of length `n`, the nullable-wrapped encoding
begins with a little-endian `u32` equal to `n`, followed by `⌈n/8⌉` bitmap
bytes in which bit `i` (LSB-first) is set iff entry `i` is not MISSING, so
that the bitmap's total popcount equals the number of non-MISSING entries;
and nullable-wrapped decode fails with the bitmap-mismatch error whenever
the inner codec decodes a number of values different from the bitmap's
popcount. -/
theorem nullable_wrapper_spec (enc : List JVal → Except CErr Bytes) (values : List JVal) :
    (∀ out, wrapEncode enc values = .ok out →
      out.take 4 = u32le values.length ∧
      (out.drop 4).take ((values.length + 7) / 8) = buildBitmap values ∧
      (∀ i, i < values.length →
        (bitAt (buildBitmap values) i = true ↔
          (values.getD i JVal.missing).isMissing = false)) ∧
      totalPop (buildBitmap values) = (values.filter (fun v => !v.isMissing)).length) ∧
    (∀ (dec : Bytes → Except CErr (List JVal)) (b0 b1 b2 b3 : Nat) (rest : Bytes)
        (l : List JVal),
      readU32 b0 b1 b2 b3 ≠ 0 →
      (readU32 b0 b1 b2 b3 + 7) / 8 ≤ rest.length →
      dec (rest.drop ((readU32 b0 b1 b2 b3 + 7) / 8)) = .ok l →
      l.length ≠ countSetBits (rest.take ((readU32 b0 b1 b2 b3 + 7) / 8))
        (readU32 b0 b1 b2 b3) →
      wrapDecode dec (b0 :: b1 :: b2 :: b3 :: rest) = .error .bitmapMismatch) := by
  constructor
  · intro out hout
    unfold wrapEncode at hout
    rcases henc : enc (values.filter (fun v => !v.isMissing)) with e | eb
    · rw [henc] at hout; simp at hout
    · rw [henc] at hout
      split at hout
      · simp at hout
      next x encodedValues heq =>
        injection heq with heq
        subst heq
        split at hout
        · have hout' : u32le values.length ++ buildBitmap values ++ eb = out := by
            simpa using hout
          subst hout'
          refine ⟨?_, ?_, fun i _ => by rw [bitAt_buildBitmap]; simp, totalPop_buildBitmap values⟩
          · rw [List.append_assoc]
            rw [show (4 : Nat) = (u32le values.length).length from rfl]
            exact List.take_left _ _
          · rw [List.append_assoc]
            rw [show (4 : Nat) = (u32le values.length).length from rfl, List.drop_left]
            rw [show ((values.length + 7) / 8 : Nat) = (buildBitmap values).length from
              (buildBitmap_length values).symm]
            exact List.take_left _ _
        · simp at hout
  · intro dec b0 b1 b2 b3 rest l htot hbl hdec hne
    unfold wrapDecode
    simp only [if_neg htot, if_neg (Nat.not_lt.2 hbl), hdec]
    rw [if_pos (Ne.symm hne)]

/-! ### ZigZag and BigInt varint lemmas -/

theorem natCast_shiftLeft_one (m : ℕ) : (m : ℤ) <<< (1 : ℤ) = ((2 * m : ℕ) : ℤ) := by
  rw [show (1 : ℤ) = ((1 : ℕ) : ℤ) from rfl, Int.shiftLeft_coe_nat]
  congr 1
  try rw [Nat.shiftLeft_eq]
  try omega

theorem natCast_shiftRight_63 (m : ℕ) (hm : m < 2 ^ 63) : (m : ℤ) >>> (63 : ℤ) = 0 := by
  rw [show (63 : ℤ) = ((63 : ℕ) : ℤ) from rfl, Int.shiftRight_coe_nat]
  have h0 : m >>> 63 = 0 := by
    rw [Nat.shiftRight_eq_div_pow]
    exact Nat.div_eq_of_lt hm
  rw [h0]
  try rfl

theorem negSucc_shiftLeft_one (m : ℕ) :
    Int.negSucc m <<< (1 : ℤ) = Int.negSucc (2 * m + 1) := by
  rw [show (1 : ℤ) = ((1 : ℕ) : ℤ) from rfl, Int.shiftLeft_negSucc]
  try congr 1
  try show Nat.shiftLeft' true m 1 = 2 * m + 1
  try rfl

theorem int_xor_zero (a : ℤ) : Int.xor a 0 = a := by
  cases a with
  | ofNat m =>
    show ((m ^^^ 0 : ℕ) : ℤ) = Int.ofNat m
    simp
  | negSucc m =>
    show Int.negSucc (m ^^^ 0) = Int.negSucc m
    simp

theorem int_xor_negSucc_negSucc (a b : ℕ) :
    Int.xor (Int.negSucc a) (Int.negSucc b) = ((a ^^^ b : ℕ) : ℤ) := rfl

theorem int_xor_ofNat_negSucc (a b : ℕ) :
    Int.xor (Int.ofNat a) (Int.negSucc b) = Int.negSucc (a ^^^ b) := rfl

theorem negSucc_shiftRight_63 (m : ℕ) (hm : m < 2 ^ 63) :
    Int.negSucc m >>> (63 : ℤ) = Int.negSucc 0 := by
  rw [show (63 : ℤ) = ((63 : ℕ) : ℤ) from rfl, Int.shiftRight_negSucc]
  congr 1
  rw [Nat.shiftRight_eq_div_pow]
  exact Nat.div_eq_of_lt hm

theorem zigzag_toNat_ofNat (m : ℕ) (hm : m < 2 ^ 63) :
    (zigzag (m : ℤ)).toNat = 2 * m := by
  unfold zigzag
  rw [natCast_shiftLeft_one, natCast_shiftRight_63 m hm, int_xor_zero]
  omega

theorem zigzag_toNat_negSucc (m : ℕ) (hm : m < 2 ^ 63) :
    (zigzag (Int.negSucc m)).toNat = 2 * m + 1 := by
  unfold zigzag
  rw [negSucc_shiftLeft_one, negSucc_shiftRight_63 m hm, int_xor_negSucc_negSucc]
  rw [Nat.xor_zero]
  omega

theorem zigzagDecode_zigzag (v : ℤ) (h1 : -(2 ^ 63) ≤ v) (h2 : v < 2 ^ 63) :
    zigzagDecode (zigzag v).toNat = v := by
  unfold zigzagDecode
  cases v with
  | ofNat m =>
    rw [show ((Int.ofNat m : ℤ)) = ((m : ℕ) : ℤ) from rfl] at h2 ⊢
    have hm : m < 2 ^ 63 := by exact_mod_cast h2
    rw [zigzag_toNat_ofNat m hm]
    have hs : (2 * m) >>> 1 = m := by rw [Nat.shiftRight_eq_div_pow]; omega
    have ha : (2 * m) &&& 1 = 0 := by rw [Nat.and_one_is_mod]; omega
    rw [hs, ha]
    rw [show (-((0 : ℕ) : ℤ)) = (0 : ℤ) from by simp, int_xor_zero]
  | negSucc m =>
    have hm : m < 2 ^ 63 := by
      have : -(2 ^ 63 : ℤ) ≤ Int.negSucc m := h1
      rw [Int.negSucc_eq] at this
      omega
    rw [zigzag_toNat_negSucc m hm]
    have hs : (2 * m + 1) >>> 1 = m := by rw [Nat.shiftRight_eq_div_pow]; omega
    have ha : (2 * m + 1) &&& 1 = 1 := by rw [Nat.and_one_is_mod]; omega
    rw [hs, ha]
    rw [show (-((1 : ℕ) : ℤ)) = Int.negSucc 0 from rfl]
    rw [show ((m : ℕ) : ℤ) = Int.ofNat m from rfl, int_xor_ofNat_negSucc]
    simp

theorem shiftLeft_split (z shift : Nat) :
    z <<< shift = ((z % 128) <<< shift) ||| ((z / 128) <<< (shift + 7)) := by
  apply Nat.eq_of_testBit_eq
  intro i
  rw [show (128 : Nat) = 2 ^ 7 from rfl, show z / 2 ^ 7 = z >>> 7 from
    (Nat.shiftRight_eq_div_pow z 7).symm]
  simp only [Nat.testBit_or, Nat.testBit_shiftLeft, Nat.testBit_mod_two_pow,
    Nat.testBit_shiftRight]
  by_cases hs : shift ≤ i
  · by_cases h7 : i - shift < 7
    · have hns : ¬ (shift + 7 ≤ i) := by omega
      simp [hs, h7, hns]
    · have hns : shift + 7 ≤ i := by omega
      have harith : 7 + (i - (shift + 7)) = i - shift := by omega
      simp [hs, h7, hns, harith]
  · have hns : ¬ (shift + 7 ≤ i) := by omega
    simp [hs, hns]

theorem encode_ne_nil (z : Nat) : Varint.encode z ≠ [] := by
  rw [Varint.encode_eq]
  by_cases h : z < 128 <;> simp [h]

theorem lebDecodeBigLoop_term {b : Nat} (rest : Bytes) (zz shift n : Nat)
    (hb : b &&& 128 = 0) :
    lebDecodeBigLoop (b :: rest) zz shift n =
      .ok (zz ||| (b % 128) <<< shift, n + 1) := by
  rw [lebDecodeBigLoop]; simp [hb]

theorem lebDecodeBigLoop_cont {b : Nat} (rest : Bytes) (zz shift n : Nat)
    (hb : b &&& 128 ≠ 0) :
    lebDecodeBigLoop (b :: rest) zz shift n =
      lebDecodeBigLoop rest (zz ||| (b % 128) <<< shift) (shift + 7) (n + 1) := by
  rw [lebDecodeBigLoop]; simp [hb]

theorem lebDecodeBigLoop_encode (z : Nat) : ∀ (tail : Bytes) (acc shift n : Nat),
    lebDecodeBigLoop (Varint.encode z ++ tail) acc shift n =
      .ok (acc ||| z <<< shift, n + (Varint.encode z).length) := by
  induction z using Nat.strong_induction_on with
  | _ z ih =>
    intro tail acc shift n
    rw [Varint.encode_eq]
    by_cases h : z < 128
    · rw [if_pos h, List.cons_append, List.nil_append,
        lebDecodeBigLoop_term _ _ _ _ (byte_and128_of_lt h)]
      simp [Nat.mod_eq_of_lt h]
    · rw [if_neg h, List.cons_append,
        lebDecodeBigLoop_cont _ _ _ _ (byte_and128_of_ge (by omega) (by omega))]
      have hmod : (z % 128 + 128) % 128 = z % 128 := by omega
      rw [hmod]
      rw [ih (z / 128) (Nat.div_lt_self (by omega) (by omega)) tail
        (acc ||| (z % 128) <<< shift) (shift + 7) (n + 1)]
      rw [Nat.or_assoc, ← shiftLeft_split]
      simp only [List.length_cons]
      rw [show n + 1 + (Varint.encode (z / 128)).length =
        n + ((Varint.encode (z / 128)).length + 1) from by omega]

theorem decodeBigInt_encodeBigInt (v : ℤ) (tail : Bytes)
    (h1 : -(2 ^ 63) ≤ v) (h2 : v < 2 ^ 63) :
    Varint.decodeBigInt (Varint.encodeBigInt v ++ tail) 0 =
      .ok (v, (Varint.encodeBigInt v).length) := by
  unfold Varint.decodeBigInt Varint.encodeBigInt
  rw [List.drop_zero, lebDecodeBigLoop_encode]
  show Except.ok (zigzagDecode (0 ||| (zigzag v).toNat <<< 0),
    0 + (Varint.encode (zigzag v).toNat).length) = _
  rw [Nat.zero_or, Nat.shiftLeft_zero, zigzagDecode_zigzag v h1 h2]
  simp

theorem decodeBigInts_flatten (vs : List ℤ)
    (hv : ∀ v ∈ vs, -(2 ^ 63) ≤ v ∧ v < 2 ^ 63) :
    ∀ fuel, (vs.map Varint.encodeBigInt).flatten.length ≤ fuel →
    decodeBigInts fuel (vs.map Varint.encodeBigInt).flatten = .ok vs := by
  induction vs with
  | nil =>
    intro fuel _
    match fuel with
    | 0 => rfl
    | f + 1 => rfl
  | cons v vs' ih =>
    intro fuel hfuel
    simp only [List.map_cons, List.flatten_cons]
    obtain ⟨b, bs, henc⟩ : ∃ b bs, Varint.encodeBigInt v = b :: bs := by
      rcases he : Varint.encodeBigInt v with _ | ⟨b, bs⟩
      · exact absurd he (encode_ne_nil _)
      · exact ⟨b, bs, rfl⟩
    have hlen1 : 1 ≤ (Varint.encodeBigInt v).length := by rw [henc]; simp
    match fuel, hfuel with
    | 0, hfuel =>
      exfalso
      simp only [List.map_cons, List.flatten_cons, henc] at hfuel
      simp at hfuel
    | f + 1, hfuel =>
      rw [henc, List.cons_append, decodeBigInts]
      rw [← List.cons_append, ← henc]
      rw [decodeBigInt_encodeBigInt v _ (hv v (by simp)).1 (hv v (by simp)).2]
      dsimp only
      rw [List.drop_left]
      rw [ih (fun x hx => hv x (by simp [hx])) f (by
        simp only [List.map_cons, List.flatten_cons, henc, List.length_append,
          List.length_cons] at hfuel
        omega)]

/-! ### NumberCodec lemmas -/

theorem sum_map_const {α : Type} (l : List α) (c : Nat) :
    (l.map (fun _ => c)).sum = c * l.length := by
  induction l with
  | nil => simp
  | cons a l ih => simp [ih]; ring

theorem mapM_num_proj : ∀ (qs : List ℚ),
    (qs.map JVal.num).mapM (fun v => match v with | JVal.num q => some q | _ => none) =
      some qs := by
  intro qs
  induction qs with
  | nil => rfl
  | cons q qs ih =>
    simp only [List.map_cons, List.mapM_cons, ih]
    rfl

theorem allInt_map_num (qs : List ℚ) :
    ((qs.map JVal.num).all JVal.isIntegerNum = true) ↔ ∀ q ∈ qs, q.den = 1 := by
  rw [List.all_eq_true]
  constructor
  · intro h q hq
    have h2 := h (JVal.num q) (List.mem_map_of_mem _ hq)
    simpa [JVal.isIntegerNum] using h2
  · intro h v hv
    obtain ⟨q, hq, rfl⟩ := List.mem_map.1 hv
    simpa [JVal.isIntegerNum] using h q hq

theorem bestScale_eq_some (values : List JVal) (s : Nat) (h1 : 1 ≤ s) (h6 : s ≤ 6)
    (hgood : goodScale values s = true)
    (hmin : ∀ t, 1 ≤ t → t < s → goodScale values t = false) :
    bestScale values = some s := by
  unfold bestScale
  rw [show List.range' 1 6 = [1, 2, 3, 4, 5, 6] from rfl]
  interval_cases s
  · simp [List.find?, hgood]
  · simp [List.find?, hmin 1 (by norm_num) (by norm_num), hgood]
  · simp [List.find?, hmin 1 (by norm_num) (by norm_num),
      hmin 2 (by norm_num) (by norm_num), hgood]
  · simp [List.find?, hmin 1 (by norm_num) (by norm_num),
      hmin 2 (by norm_num) (by norm_num), hmin 3 (by norm_num) (by norm_num), hgood]
  · simp [List.find?, hmin 1 (by norm_num) (by norm_num),
      hmin 2 (by norm_num) (by norm_num), hmin 3 (by norm_num) (by norm_num),
      hmin 4 (by norm_num) (by norm_num), hgood]
  · simp [List.find?, hmin 1 (by norm_num) (by norm_num),
      hmin 2 (by norm_num) (by norm_num), hmin 3 (by norm_num) (by norm_num),
      hmin 4 (by norm_num) (by norm_num), hmin 5 (by norm_num) (by norm_num), hgood]

theorem bestScale_eq_none (values : List JVal)
    (hbad : ∀ s, 1 ≤ s → s ≤ 6 → goodScale values s = false) :
    bestScale values = none := by
  unfold bestScale
  rw [List.find?_eq_none]
  intro x hx
  rw [show List.range' 1 6 = [1, 2, 3, 4, 5, 6] from rfl] at hx
  fin_cases hx <;>
    simp [hbad 1 (by norm_num) (by norm_num), hbad 2 (by norm_num) (by norm_num),
      hbad 3 (by norm_num) (by norm_num), hbad 4 (by norm_num) (by norm_num),
      hbad 5 (by norm_num) (by norm_num), hbad 6 (by norm_num) (by norm_num)]

/-- C3: for a non-empty column of numbers, the number codec's first output
byte is `0x01` iff every value is an integer, and in that case the body is
one ZigZag varint (`Varint.encodeBigInt`) per value; otherwise, when `s` is
the smallest scale in `1..6` accepted by the fixed-point test
`|v·10^s − round(v·10^s)| < 1e-9`, the output is `0x02`, the scale byte `s`,
then one ZigZag varint of `round(v·10^s)` per value; otherwise the output is
`0x00` followed by one 8-byte little-endian IEEE-754 double per value. -/
theorem number_codec_spec (f64 : ℚ → Bytes) (hf : ∀ q, (f64 q).length = 8)
    (qs : List ℚ) (hne : qs ≠ []) :
    (∀ out, NumberCodec.encode f64 (qs.map JVal.num) = .ok out →
      (out.head? = some 1 ↔ ∀ q ∈ qs, q.den = 1)) ∧
    ((∀ q ∈ qs, q.den = 1) →
      NumberCodec.encode f64 (qs.map JVal.num) =
        .ok (1 :: (qs.map (fun q => Varint.encodeBigInt q.num)).flatten)) ∧
    (∀ s, 1 ≤ s → s ≤ 6 → ¬ (∀ q ∈ qs, q.den = 1) →
      goodScale (qs.map JVal.num) s = true →
      (∀ t, 1 ≤ t → t < s → goodScale (qs.map JVal.num) t = false) →
      NumberCodec.encode f64 (qs.map JVal.num) =
        .ok (2 :: s ::
          (qs.map (fun q => Varint.encodeBigInt (jsRound (q * 10 ^ s)))).flatten)) ∧
    (¬ (∀ q ∈ qs, q.den = 1) →
      (∀ s, 1 ≤ s → s ≤ 6 → goodScale (qs.map JVal.num) s = false) →
      NumberCodec.encode f64 (qs.map JVal.num) = .ok (0 :: (qs.map f64).flatten) ∧
      (0 :: (qs.map f64).flatten).length = 1 + 8 * qs.length) := by
  have hlen0 : ¬ ((qs.map JVal.num).length = 0) := by
    simp only [List.length_map]
    intro h
    exact hne (List.length_eq_zero.1 h)
  have hbody : ∀ s : Nat, (qs.map JVal.num).map
      (fun v => Varint.encodeBigInt (jsRound (jsNumQ v * 10 ^ s))) =
      qs.map (fun q => Varint.encodeBigInt (jsRound (q * 10 ^ s))) := by
    intro s
    rw [List.map_map]
    rfl
  refine ⟨?_, ?_, ?_, ?_⟩
  · intro out hout
    unfold NumberCodec.encode at hout
    rw [if_neg hlen0] at hout
    by_cases hall : (qs.map JVal.num).all JVal.isIntegerNum = true
    · rw [if_pos hall] at hout
      have : out = 1 :: ((qs.map JVal.num).map
          (fun v => Varint.encodeBigInt (jsToInt v))).flatten := by
        injection hout with h
        exact h.symm
      subst this
      exact iff_of_true rfl ((allInt_map_num qs).1 hall)
    · rw [if_neg hall] at hout
      have hniff : ¬ (∀ q ∈ qs, q.den = 1) := fun h => hall ((allInt_map_num qs).2 h)
      rcases hbs : bestScale (qs.map JVal.num) with _ | s
      · rw [hbs, mapM_num_proj] at hout
        dsimp only at hout
        have : out = 0 :: (qs.map f64).flatten := by
          injection hout with h
          exact h.symm
        subst this
        exact iff_of_false (by simp) hniff
      · rw [hbs] at hout
        dsimp only at hout
        have : out = 2 :: s :: ((qs.map JVal.num).map
            (fun v => Varint.encodeBigInt (jsRound (jsNumQ v * 10 ^ s)))).flatten := by
          injection hout with h
          exact h.symm
        subst this
        exact iff_of_false (by simp) hniff
  · intro hint
    have hall : (qs.map JVal.num).all JVal.isIntegerNum = true := (allInt_map_num qs).2 hint
    unfold NumberCodec.encode
    rw [if_neg hlen0, if_pos hall, List.map_map]
    rfl
  · intro s hs1 hs6 hnall hgood hmin
    have hall : ¬ ((qs.map JVal.num).all JVal.isIntegerNum = true) :=
      fun h => hnall ((allInt_map_num qs).1 h)
    unfold NumberCodec.encode
    rw [if_neg hlen0, if_neg hall, bestScale_eq_some _ s hs1 hs6 hgood hmin]
    try dsimp only
    try rw [hbody]
  · intro hnall hbad
    have hall : ¬ ((qs.map JVal.num).all JVal.isIntegerNum = true) :=
      fun h => hnall ((allInt_map_num qs).1 h)
    constructor
    · unfold NumberCodec.encode
      rw [if_neg hlen0, if_neg hall, bestScale_eq_none _ hbad, mapM_num_proj]
      try dsimp only
    · simp only [List.length_cons, List.length_flatten, List.map_map]
      rw [show (List.length ∘ f64) = (fun _ => 8) from funext (fun q => hf q)]
      rw [sum_map_const]
      omega

/-! ### TimestampCodec lemmas (C7, C9) -/

/-- C9: `TimestampCodec.decode` applied to any buffer shorter than 8 bytes
(including non-empty truncated base buffers) returns the empty list
without raising an error. -/
theorem timestamp_decode_short (buf : Bytes) (h : buf.length < 8) :
    TimestampCodec.decode buf = .ok [] := by
  rcases buf with _ | ⟨a, _ | ⟨b, _ | ⟨c, _ | ⟨d, _ | ⟨e, _ | ⟨f, _ | ⟨g, _ | ⟨k, t⟩⟩⟩⟩⟩⟩⟩⟩ <;>
    first
      | rfl
      | (exfalso; simp only [List.length_cons] at h; omega)

/-- Witness for `timestamp_decode_short` at the non-empty truncated buffer
`[255, 1, 2]`. -/
theorem timestamp_decode_short_witness :
    TimestampCodec.decode [255, 1, 2] = .ok [] :=
  timestamp_decode_short [255, 1, 2] (by decide)

theorem mapM_str_proj : ∀ (strings : List (Option Bytes)),
    (strings.map strVal).mapM (fun v => match v with
      | JVal.str s => some (some s)
      | JVal.null => some (none : Option Bytes)
      | _ => none) = some strings := by
  intro strings
  induction strings with
  | nil => rfl
  | cons st rest ih =>
    rcases st with _ | b <;>
      simp only [List.map_cons, List.mapM_cons, strVal, ih] <;> rfl

/-- C4: for a non-empty column of strings-or-nulls, the adaptive string
codec emits raw mode `0x00` (per value: `Varint(0)` for null, else
`Varint(len+1)` then the bytes) exactly when the number of distinct values
is at least 0.7 times the column length; otherwise it emits `0x01`
(one varint index per position) or `0x02` (RLE `(index, runLength)` pairs),
whichever index stream is smaller, after the mode byte and dictionary
header. -/
theorem adaptive_string_codec_spec (strings : List (Option Bytes)) (hne : strings ≠ []) :
    (∀ out, AdaptiveStringCodec.encode (strings.map strVal) = .ok out →
      (out.head? = some 0 ↔ strings.length * 7 ≤ (uniqueList strings).length * 10)) ∧
    (strings.length * 7 ≤ (uniqueList strings).length * 10 →
      AdaptiveStringCodec.encode (strings.map strVal) =
        .ok (0 :: (strings.map rawEncodeOne).flatten)) ∧
    ((uniqueList strings).length * 10 < strings.length * 7 →
      AdaptiveStringCodec.encode (strings.map strVal) =
        .ok (if (ascRle strings).length < (ascStd strings).length
          then 2 :: ascDictHeader strings ++ ascRle strings
          else 1 :: ascDictHeader strings ++ ascStd strings)) := by
  have hlen0 : ¬ ((strings.map strVal).length = 0) := by
    simp only [List.length_map]
    intro h
    exact hne (List.length_eq_zero.1 h)
  have henc : AdaptiveStringCodec.encode (strings.map strVal) =
      if (uniqueList strings).length * 10 < strings.length * 7 then
        if (ascRle strings).length < (ascStd strings).length then
          .ok (2 :: ascDictHeader strings ++ ascRle strings)
        else .ok (1 :: ascDictHeader strings ++ ascStd strings)
      else .ok (0 :: (strings.map rawEncodeOne).flatten) := by
    unfold AdaptiveStringCodec.encode
    rw [if_neg hlen0, mapM_str_proj]
  refine ⟨?_, ?_, ?_⟩
  · intro out hout
    rw [henc] at hout
    by_cases hdict : (uniqueList strings).length * 10 < strings.length * 7
    · rw [if_pos hdict] at hout
      by_cases hrle : (ascRle strings).length < (ascStd strings).length
      · rw [if_pos hrle] at hout
        have : out = 2 :: ascDictHeader strings ++ ascRle strings := by
          injection hout with h
          exact h.symm
        subst this
        exact iff_of_false (by simp) (by omega)
      · rw [if_neg hrle] at hout
        have : out = 1 :: ascDictHeader strings ++ ascStd strings := by
          injection hout with h
          exact h.symm
        subst this
        exact iff_of_false (by simp) (by omega)
    · rw [if_neg hdict] at hout
      have : out = 0 :: (strings.map rawEncodeOne).flatten := by
        injection hout with h
        exact h.symm
      subst this
      exact iff_of_true rfl (by omega)
  · intro hraw
    rw [henc, if_neg (by omega)]
  · intro hdict
    rw [henc, if_pos hdict]
    split <;> rfl

/-- Witness for `adaptive_string_codec_spec`: the high-cardinality column
`["a", "b"]` takes raw mode with bytes `00 02 61 02 62`; the repetitive
column `["x", "x", "x"]` takes the smaller RLE stream with bytes
`02 01 02 78 00 03`. -/
theorem adaptive_string_codec_spec_witness :
    AdaptiveStringCodec.encode (([some [97], some [98]] :
        List (Option Bytes)).map strVal) =
      .ok (0 :: (([some [97], some [98]] :
        List (Option Bytes)).map rawEncodeOne).flatten) ∧
    (0 :: (([some [97], some [98]] : List (Option Bytes)).map rawEncodeOne).flatten :
      Bytes) = [0, 2, 97, 2, 98] ∧
    AdaptiveStringCodec.encode (([some [120], some [120], some [120]] :
        List (Option Bytes)).map strVal) =
      .ok (if (ascRle [some [120], some [120], some [120]]).length <
            (ascStd [some [120], some [120], some [120]]).length
        then 2 :: ascDictHeader [some [120], some [120], some [120]] ++
          ascRle [some [120], some [120], some [120]]
        else 1 :: ascDictHeader [some [120], some [120], some [120]] ++
          ascStd [some [120], some [120], some [120]]) ∧
    (if (ascRle ([some [120], some [120], some [120]] : List (Option Bytes))).length <
          (ascStd [some [120], some [120], some [120]]).length
      then 2 :: ascDictHeader [some [120], some [120], some [120]] ++
        ascRle [some [120], some [120], some [120]]
      else 1 :: ascDictHeader [some [120], some [120], some [120]] ++
        ascStd [some [120], some [120], some [120]] : Bytes) = [2, 1, 2, 120, 0, 3] := by
  refine ⟨?_, by decide, ?_, by decide⟩
  · exact (adaptive_string_codec_spec [some [97], some [98]] (by simp)).2.1 (by decide)
  · exact (adaptive_string_codec_spec [some [120], some [120], some [120]]
      (by simp)).2.2 (by decide)

theorem mem_uniqueList {α : Type} [DecidableEq α] (l : List α) (x : α) (hx : x ∈ l) :
    x ∈ uniqueList l := by
  have aux : ∀ (l' acc : List α) (y : α), y ∈ l' ∨ y ∈ acc →
      y ∈ l'.foldl (fun seen z => if z ∈ seen then seen else seen ++ [z]) acc := by
    intro l'
    induction l' with
    | nil =>
      intro acc y hy
      rcases hy with h | h
      · simp at h
      · simpa using h
    | cons a rest ih =>
      intro acc y hy
      rw [List.foldl_cons]
      by_cases ha : a ∈ acc
      · rw [if_pos ha]
        rcases hy with h | h
        · rcases List.mem_cons.1 h with rfl | h'
          · exact ih acc y (Or.inr ha)
          · exact ih acc y (Or.inl h')
        · exact ih acc y (Or.inr h)
      · rw [if_neg ha]
        rcases hy with h | h
        · rcases List.mem_cons.1 h with rfl | h'
          · exact ih _ y (Or.inr (by simp))
          · exact ih _ y (Or.inl h')
        · exact ih _ y (Or.inr (by simp [h]))
  exact aux l [] x (Or.inl hx)

theorem indexOf_lt_of_mem {α : Type} [BEq α] [LawfulBEq α] (x : α) :
    ∀ (l : List α), x ∈ l → l.indexOf x < l.length := by
  intro l
  induction l with
  | nil => intro hx; simp at hx
  | cons a rest ih =>
    intro hx
    rw [List.indexOf_cons]
    by_cases h : (a == x) = true
    · rw [h, cond_true]
      simp
    · rw [Bool.not_eq_true] at h
      rw [h, cond_false]
      have hx' : x ∈ rest := by
        rcases List.mem_cons.1 hx with rfl | h'
        · simp at h
        · exact h'
      have h2 := ih hx'
      simp only [List.length_cons]
      omega

theorem nibbleLoop_shift : ∀ (xs : List Nat) (i : Nat) (c : Nat) (bm : Bytes),
    nibbleLoop xs (i + 2) (c :: bm) = c :: nibbleLoop xs i bm := by
  intro xs
  induction xs with
  | nil => intro i c bm; rfl
  | cons x rest ih =>
    intro i c bm
    rw [nibbleLoop, nibbleLoop]
    have hmod : (i + 2) % 2 = i % 2 := by omega
    have hdiv : (i + 2) / 2 = i / 2 + 1 := by omega
    by_cases hpar : i % 2 = 0
    · rw [if_pos (by omega : (i + 2) % 2 = 0), if_pos hpar, hdiv, List.set_cons_succ, ih]
    · rw [if_neg (by omega : ¬ (i + 2) % 2 = 0), if_neg hpar, hdiv,
        List.set_cons_succ, List.getD_cons_succ, ih]

theorem nibbleLoop_pack : ∀ (k : Nat) (indices : List Nat), indices.length ≤ k →
    ∀ (bm : Bytes), indices.length ≤ 2 * bm.length →
    nibbleLoop indices 0 bm = packPairs indices ++ bm.drop ((indices.length + 1) / 2) := by
  intro k
  induction k with
  | zero =>
    intro indices hk bm _
    match indices, hk with
    | [], _ => simp [nibbleLoop, packPairs]
  | succ k ih =>
    intro indices hk bm hbm
    match indices with
    | [] => simp [nibbleLoop, packPairs]
    | [a] =>
      obtain ⟨c, bmrest, rfl⟩ : ∃ c bmrest, bm = c :: bmrest := by
        rcases bm with _ | ⟨c, bmrest⟩
        · simp at hbm
        · exact ⟨c, bmrest, rfl⟩
      rw [nibbleLoop]
      rw [if_pos (by norm_num)]
      rw [nibbleLoop]
      simp [packPairs, nibbleLoop, List.set_cons_zero]
    | a :: b :: rest =>
      obtain ⟨c, bmrest, rfl⟩ : ∃ c bmrest, bm = c :: bmrest := by
        rcases bm with _ | ⟨c, bmrest⟩
        · simp at hbm
        · exact ⟨c, bmrest, rfl⟩
      rw [nibbleLoop, if_pos (by norm_num), List.set_cons_zero]
      rw [nibbleLoop, if_neg (by norm_num), List.set_cons_zero, List.getD_cons_zero]
      rw [show (0 + 1 + 1 : Nat) = 0 + 2 from rfl, nibbleLoop_shift,
        ih rest (by simp at hk; omega) bmrest (by simp at hbm; omega)]
      simp only [packPairs, List.cons_append, List.length_cons]
      rw [show (rest.length + 1 + 1 + 1) / 2 = (rest.length + 1) / 2 + 1 from by omega,
        List.drop_succ_cons]

theorem or16 (a b : Nat) (ha : a < 16) (hb : b < 16) :
    ((a <<< 4) % 256 ||| b) % 256 = 16 * a + b := by
  interval_cases a <;> interval_cases b <;> decide

theorem packPairs_getD : ∀ (k : Nat) (indices : List Nat), indices.length ≤ k →
    (∀ x ∈ indices, x < 16) → ∀ j,
    (packPairs indices).getD j 0 =
      16 * indices.getD (2 * j) 0 + indices.getD (2 * j + 1) 0 := by
  intro k
  induction k with
  | zero =>
    intro indices hk _ j
    match indices, hk with
    | [], _ => simp [packPairs]
  | succ k ih =>
    intro indices hk hlt j
    match indices with
    | [] => simp [packPairs]
    | [a] =>
      match j with
      | 0 =>
        have ha := hlt a (by simp)
        simp only [packPairs, List.getD_cons_zero]
        rw [show (2 * 0 : Nat) = 0 from rfl]
        simp only [List.getD_cons_zero]
        rw [show ([a] : List Nat).getD (2 * 0 + 1) 0 = 0 from rfl]
        rw [Nat.shiftLeft_eq]
        omega
      | j + 1 =>
        have h1 : ([a] : List Nat).getD (2 * (j + 1)) 0 = 0 :=
          getD_eq_zero_of_le (by simp only [List.length_singleton]; omega)
        have h2 : ([a] : List Nat).getD (2 * (j + 1) + 1) 0 = 0 :=
          getD_eq_zero_of_le (by simp only [List.length_singleton]; omega)
        rw [h1, h2]
        simp [packPairs]
    | a :: b :: rest =>
      match j with
      | 0 =>
        simp only [packPairs, List.getD_cons_zero]
        rw [show (2 * 0 : Nat) = 0 from rfl, show (2 * 0 + 1 : Nat) = 1 from rfl]
        simp only [List.getD_cons_zero, List.getD_cons_succ]
        exact or16 a b (hlt a (by simp)) (hlt b (by simp))
      | j + 1 =>
        have h1 : (a :: b :: rest).getD (2 * (j + 1)) 0 = rest.getD (2 * j) 0 := by
          rw [show 2 * (j + 1) = 2 * j + 1 + 1 from by omega]
          simp [List.getD_cons_succ]
        have h2 : (b :: rest).getD (2 * (j + 1)) 0 = rest.getD (2 * j + 1) 0 := by
          rw [show 2 * (j + 1) = 2 * j + 1 + 1 from by omega]
          simp [List.getD_cons_succ]
        simp only [packPairs, List.getD_cons_succ]
        rw [ih rest (by simp at hk; omega) (fun x hx => hlt x (by simp [hx])) j,
          h1, h2]

/-- C6 counterexample: encoding `["A","B","A","C","B"]` produces, after the
count prefix and dictionary entries, the **three** packed bytes
`0x01 0x02 0x10`, not the two bytes `0x01 0x20` stated in the claim. -/
theorem enum_nibble_example_cex :
    EnumCodec.encode [some [65], some [66], some [65], some [67], some [66]] =
      .ok [5, 0, 0, 0, 3, 1, 65, 1, 66, 1, 67, 1, 2, 16] ∧
    ([5, 0, 0, 0, 3, 1, 65, 1, 66, 1, 67, 1, 2, 16] : Bytes).drop 11 ≠ [1, 32] :=
  ⟨rfl, by decide⟩

/-- C6 (amended): when the number of distinct values is at most 16, the
enum codec packs the index stream as 4-bit nibbles, two per byte with the
high nibble first (`16·idx(2j) + idx(2j+1)` per byte `j`); in particular
`["A","B","A","C","B"]` yields, after the count prefix and dictionary
entries, exactly the three index bytes `0x01 0x02 0x10`. -/
theorem enum_codec_nibble_spec (values : List (Option Bytes)) (dictEntries : List Bytes)
    (hne : values ≠ []) (hn : values.length < 2 ^ 32)
    (hu : (uniqueList values).length ≤ 16)
    (hdict : (uniqueList values).mapM enumDictEntry = .ok dictEntries) :
    EnumCodec.encode values =
      .ok (u32le values.length ++ (uniqueList values).length % 256 ::
        dictEntries.flatten ++
        enumPack (values.map (fun v => (uniqueList values).indexOf v)) values.length) ∧
    enumPack (values.map (fun v => (uniqueList values).indexOf v)) values.length =
      packPairs (values.map (fun v => (uniqueList values).indexOf v)) ∧
    (∀ j, (packPairs (values.map (fun v => (uniqueList values).indexOf v))).getD j 0 =
      16 * (values.map (fun v => (uniqueList values).indexOf v)).getD (2 * j) 0 +
        (values.map (fun v => (uniqueList values).indexOf v)).getD (2 * j + 1) 0) := by
  have hlt : ∀ x ∈ values.map (fun v => (uniqueList values).indexOf v), x < 16 := by
    intro x hx
    obtain ⟨v, hv, rfl⟩ := List.mem_map.1 hx
    have hmem : v ∈ uniqueList values := mem_uniqueList values v hv
    exact lt_of_lt_of_le (indexOf_lt_of_mem v (uniqueList values) hmem) hu
  have hlen : (values.map (fun v => (uniqueList values).indexOf v)).length =
      values.length := List.length_map _ _
  refine ⟨?_, ?_, packPairs_getD _ _ le_rfl hlt⟩
  · unfold EnumCodec.encode
    rw [if_neg (by omega), if_neg (by
      intro h
      exact hne (List.length_eq_zero.1 h))]
    rw [hdict]
    dsimp only
    rw [if_neg (by omega)]
  · unfold enumPack
    rw [nibbleLoop_pack (values.map (fun v => (uniqueList values).indexOf v)).length _
      le_rfl _ (by simp only [List.length_replicate, hlen]; omega)]
    rw [hlen, List.drop_eq_nil_of_le (by simp only [List.length_replicate]; omega)]
    simp

/-- Witness for `enum_codec_nibble_spec` at the column
`["A","B","A","C","B"]`. -/
theorem enum_codec_nibble_spec_witness :
    (EnumCodec.encode [some [65], some [66], some [65], some [67], some [66]] =
      .ok (u32le ([some [65], some [66], some [65], some [67], some [66]] :
          List (Option Bytes)).length ++
        (uniqueList ([some [65], some [66], some [65], some [67], some [66]] :
          List (Option Bytes))).length % 256 ::
        ([[1, 65], [1, 66], [1, 67]] : List Bytes).flatten ++
        enumPack (([some [65], some [66], some [65], some [67], some [66]] :
            List (Option Bytes)).map
          (fun v => (uniqueList ([some [65], some [66], some [65], some [67],
            some [66]] : List (Option Bytes))).indexOf v))
          ([some [65], some [66], some [65], some [67], some [66]] :
            List (Option Bytes)).length)) ∧
    enumPack (([some [65], some [66], some [65], some [67], some [66]] :
        List (Option Bytes)).map
      (fun v => (uniqueList ([some [65], some [66], some [65], some [67],
        some [66]] : List (Option Bytes))).indexOf v)) 5 = [1, 2, 16] := by
  have h := enum_codec_nibble_spec
    [some [65], some [66], some [65], some [67], some [66]]
    [[1, 65], [1, 66], [1, 67]] (by simp) (by norm_num) (by decide) rfl
  exact ⟨h.1, by decide⟩

/-! ### Unknown-mode behaviour (C8) -/

/-- C8 counterexample: the number codec does **not** fail on the
unrecognised mode byte `0x03`; it decodes the remaining 8 bytes in float
mode and returns a value. -/
theorem number_codec_unknown_mode_cex :
    NumberCodec.decode (fun _ => 0) [3, 0, 0, 0, 0, 0, 0, 0, 0] =
      .ok [JVal.num 0] := rfl

/-- C8 (amended): the adaptive string codec fails with `UnknownMode` on an
unrecognised leading mode byte, while the number codec treats any mode byte
other than `0x01`/`0x02` as float mode and decodes the remainder as 8-byte
doubles. -/
theorem unknown_mode_spec :
    (∀ (mode : Nat) (body : Bytes), mode ≠ 0 → mode ≠ 1 → mode ≠ 2 →
      AdaptiveStringCodec.decode (mode :: body) = .error .unknownMode) ∧
    (∀ (f64dec : Bytes → ℚ) (mode : Nat) (body : Bytes), mode ≠ 1 → mode ≠ 2 →
      NumberCodec.decode f64dec (mode :: body) =
        match floatLoop f64dec body with
        | .error e => .error e
        | .ok qs => .ok (qs.map JVal.num)) := by
  constructor
  · intro mode body h0 h1 h2
    unfold AdaptiveStringCodec.decode
    dsimp only
    rw [if_neg h0, if_neg (by simp [h1, h2])]
  · intro f64dec mode body h1 h2
    unfold NumberCodec.decode
    dsimp only
    rw [if_neg h1, if_neg h2]

/-- Witness for `unknown_mode_spec` at mode bytes `3` and `9`. -/
theorem unknown_mode_spec_witness :
    AdaptiveStringCodec.decode [3] = .error .unknownMode ∧
    NumberCodec.decode (fun _ => 0) [9] =
      match floatLoop (fun _ => (0 : ℚ)) ([] : Bytes) with
      | .error e => .error e
      | .ok qs => .ok (qs.map JVal.num) :=
  ⟨unknown_mode_spec.1 3 [] (by decide) (by decide) (by decide),
   unknown_mode_spec.2 (fun _ => 0) 9 [] (by decide) (by decide)⟩

/-- Witness for `number_codec_spec`: `encode [1.5, 2.25, 3.0]` chooses
decimal mode with scale 2 and encodes the scaled integers 150, 225, 300, so
the output bytes are `0x02 0x02` followed by the zig-zag varints of
150, 225, 300. -/
theorem number_codec_spec_witness :
    NumberCodec.encode (fun _ => List.replicate 8 0) (([1, 2, 3] : List ℚ).map JVal.num) =
      .ok (1 :: (([1, 2, 3] : List ℚ).map (fun q => Varint.encodeBigInt q.num)).flatten) ∧
    (1 :: (([1, 2, 3] : List ℚ).map (fun q => Varint.encodeBigInt q.num)).flatten : Bytes) =
      [1, 2, 4, 6] ∧
    NumberCodec.encode (fun _ => List.replicate 8 0)
        ([3 / 2, 9 / 4, 3].map JVal.num) =
      .ok (2 :: 2 ::
        (([3 / 2, 9 / 4, 3] : List ℚ).map
          (fun q => Varint.encodeBigInt (jsRound (q * 10 ^ 2)))).flatten) ∧
    (2 :: 2 :: (([3 / 2, 9 / 4, 3] : List ℚ).map
        (fun q => Varint.encodeBigInt (jsRound (q * 10 ^ 2)))).flatten : Bytes) =
      [2, 2, 172, 2, 194, 3, 216, 4] := by
  refine ⟨?_, ?_, ?_, ?_⟩
  · exact (number_codec_spec (fun _ => List.replicate 8 0) (fun _ => rfl)
      [1, 2, 3] (by simp)).2.1 (by with_unfolding_all decide)
  · with_unfolding_all decide
  · exact (number_codec_spec (fun _ => List.replicate 8 0) (fun _ => rfl)
      [3 / 2, 9 / 4, 3] (by simp)).2.2.1 2 (by norm_num) (by norm_num)
      (by intro h; exact absurd (h (3 / 2) (by simp)) (by with_unfolding_all decide))
      (by with_unfolding_all decide)
      (fun t h1 h2 => by interval_cases t; with_unfolding_all decide)
  · with_unfolding_all decide

/-- Witness for `nullable_wrapper_spec` on the column `[null, MISSING]`
(and a mismatching decode input). -/
theorem nullable_wrapper_spec_witness :
    (([2, 0, 0, 0, 1, 1] : Bytes).take 4 = u32le ([JVal.null, JVal.missing] : List JVal).length ∧
      (([2, 0, 0, 0, 1, 1] : Bytes).drop 4).take
          ((([JVal.null, JVal.missing] : List JVal).length + 7) / 8) =
        buildBitmap [JVal.null, JVal.missing] ∧
      (∀ i, i < ([JVal.null, JVal.missing] : List JVal).length →
        (bitAt (buildBitmap [JVal.null, JVal.missing]) i = true ↔
          (([JVal.null, JVal.missing] : List JVal).getD i JVal.missing).isMissing = false)) ∧
      totalPop (buildBitmap [JVal.null, JVal.missing]) =
        (([JVal.null, JVal.missing] : List JVal).filter (fun v => !v.isMissing)).length) ∧
    wrapDecode (fun _ => .ok []) [1, 0, 0, 0, 1, 9] = .error .bitmapMismatch := by
  have h := nullable_wrapper_spec (fun l => .ok [l.length]) [JVal.null, JVal.missing]
  exact ⟨h.1 [2, 0, 0, 0, 1, 1] rfl,
    h.2 (fun _ => .ok []) 1 0 0 0 [1, 9] [] (by decide) (by decide) rfl (by decide)⟩

/-! ### UUID codec roundtrip (C10) -/

theorem map_eq_self_iff_all {α : Type} (f : α → α) (l : List α) :
    l.map f = l ↔ ∀ x ∈ l, f x = x := by
  induction l with
  | nil => simp
  | cons a rest ih => simp [ih]

theorem isHexDigit_range {c : Nat} (h : isHexDigit c = true) :
    (48 ≤ c ∧ c ≤ 57) ∨ (97 ≤ c ∧ c ≤ 102) ∨ (65 ≤ c ∧ c ≤ 70) := by
  simp only [isHexDigit, Bool.or_eq_true, Bool.and_eq_true, decide_eq_true_eq] at h
  tauto

theorem hexVal_lt {c : Nat} (h : isHexDigit c = true) : hexVal c < 16 := by
  have hr := isHexDigit_range h
  simp only [hexVal]
  split_ifs <;> omega

theorem hexChar_hexVal {c : Nat} (h : isHexDigit c = true) :
    hexChar (hexVal c) = jsLower c := by
  have hr := isHexDigit_range h
  simp only [hexChar, hexVal, jsLower, Bool.and_eq_true, decide_eq_true_eq]
  split_ifs <;> omega

theorem byteToHex_pair {c1 c2 : Nat} (h1 : isHexDigit c1 = true)
    (h2 : isHexDigit c2 = true) :
    byteToHex (16 * hexVal c1 + hexVal c2) = [jsLower c1, jsLower c2] := by
  have hb := hexVal_lt h2
  have hd : (16 * hexVal c1 + hexVal c2) / 16 = hexVal c1 := by omega
  have hm : (16 * hexVal c1 + hexVal c2) % 16 = hexVal c2 := by omega
  simp only [byteToHex, hd, hm, hexChar_hexVal h1, hexChar_hexVal h2]

theorem parseHex_flatten : ∀ (k : Nat) (cs : List Nat), cs.length ≤ k →
    cs.length % 2 = 0 → (∀ c ∈ cs, isHexDigit c = true) →
    ((parseHex cs).map byteToHex).flatten = cs.map jsLower ∧
    (parseHex cs).length = cs.length / 2 := by
  intro k
  induction k with
  | zero =>
    intro cs hk _ _
    match cs, hk with
    | [], _ => simp [parseHex]
  | succ k ih =>
    intro cs hk hev hhex
    match cs with
    | [] => simp [parseHex]
    | [c] => simp at hev
    | c1 :: c2 :: rest =>
      have h1 := hhex c1 (by simp)
      have h2 := hhex c2 (by simp)
      rw [parseHex, if_pos (by rw [h1, h2]; rfl)]
      have hr := ih rest (by simp at hk; omega)
        (by simp only [List.length_cons] at hev ⊢; omega)
        (fun c hc => hhex c (by simp [hc]))
      refine ⟨?_, ?_⟩
      · simp [hr.1, byteToHex_pair h1 h2]
      · simp only [List.length_cons, hr.2]
        omega

theorem seg_drop_take (cs : List Nat) (a b : Nat) :
    (cs.drop a).take b ++ cs.drop (a + b) = cs.drop a := by
  rw [← List.drop_drop, List.take_append_drop]

theorem seg_recompose (cs : List Nat) :
    cs.take 8 ++ (cs.drop 8).take 4 ++ (cs.drop 12).take 4 ++ (cs.drop 16).take 4 ++
      cs.drop 20 = cs := by
  have e1 : (cs.drop 16).take 4 ++ cs.drop 20 = cs.drop 16 := by
    rw [show (20 : Nat) = 16 + 4 from rfl]
    exact seg_drop_take cs 16 4
  have e2 : (cs.drop 12).take 4 ++ cs.drop 16 = cs.drop 12 := by
    rw [show (16 : Nat) = 12 + 4 from rfl]
    exact seg_drop_take cs 12 4
  have e3 : (cs.drop 8).take 4 ++ cs.drop 12 = cs.drop 8 := by
    rw [show (12 : Nat) = 8 + 4 from rfl]
    exact seg_drop_take cs 8 4
  calc cs.take 8 ++ (cs.drop 8).take 4 ++ (cs.drop 12).take 4 ++ (cs.drop 16).take 4 ++
      cs.drop 20
      = cs.take 8 ++ ((cs.drop 8).take 4 ++ ((cs.drop 12).take 4 ++
        ((cs.drop 16).take 4 ++ cs.drop 20))) := by simp [List.append_assoc]
    _ = cs := by rw [e1, e2, e3, List.take_append_drop]

theorem mem_hyphenate {cs : List Nat} {c : Nat} (hc : c ∈ cs) : c ∈ hyphenate cs := by
  simp only [hyphenate, List.mem_append, List.mem_singleton]
  have h1 : c ∈ cs.take 8 ++ cs.drop 8 := by rw [List.take_append_drop]; exact hc
  rcases List.mem_append.1 h1 with h | h
  · tauto
  · have h2 : c ∈ (cs.drop 8).take 4 ++ (cs.drop 8).drop 4 := by
      rw [List.take_append_drop]; exact h
    rw [List.drop_drop] at h2
    rcases List.mem_append.1 h2 with h | h
    · tauto
    · have h3 : c ∈ (cs.drop 12).take 4 ++ (cs.drop 12).drop 4 := by
        rw [List.take_append_drop]; exact h
      rw [List.drop_drop] at h3
      rcases List.mem_append.1 h3 with h | h
      · tauto
      · have h4 : c ∈ (cs.drop 16).take 4 ++ (cs.drop 16).drop 4 := by
          rw [List.take_append_drop]; exact h
        rw [List.drop_drop] at h4
        rcases List.mem_append.1 h4 with h | h
        · tauto
        · rw [show (16 + 4 : Nat) = 20 from rfl] at h
          tauto

theorem filter_hyphenate (cs : List Nat) (h45 : ∀ c ∈ cs, c ≠ 45) :
    (hyphenate cs).filter (fun c => c ≠ 45) = cs := by
  have hseg : ∀ (seg : List Nat), (∀ x ∈ seg, x ∈ cs) →
      seg.filter (fun c => c ≠ 45) = seg := by
    intro seg hsub
    rw [List.filter_eq_self]
    intro a ha
    simpa using h45 a (hsub a ha)
  have h45f : ([45] : List Nat).filter (fun c => c ≠ 45) = [] := rfl
  simp only [hyphenate, List.filter_append, h45f, List.append_nil, List.nil_append]
  rw [hseg (cs.take 8) (fun x hx => List.take_subset _ _ hx),
    hseg ((cs.drop 8).take 4) (fun x hx => List.drop_subset _ _ (List.take_subset _ _ hx)),
    hseg ((cs.drop 12).take 4) (fun x hx => List.drop_subset _ _ (List.take_subset _ _ hx)),
    hseg ((cs.drop 16).take 4) (fun x hx => List.drop_subset _ _ (List.take_subset _ _ hx)),
    hseg (cs.drop 20) (fun x hx => List.drop_subset _ _ hx)]
  exact seg_recompose cs

theorem uuidDecodeLoop_nil (f : Nat) : uuidDecodeLoop f [] = [] := by
  cases f <;> rfl

theorem uuid_decode_16 (bytes : Bytes) (h : bytes.length = 16) :
    UUIDCodec.decode bytes = [hyphenate ((bytes.map byteToHex).flatten)] := by
  match bytes, h with
  | b :: rest, h =>
    rw [UUIDCodec.decode, h, show (16 : Nat) = 15 + 1 from rfl, uuidDecodeLoop]
    rw [List.take_of_length_le (by omega), List.drop_eq_nil_of_le (by omega),
      uuidDecodeLoop_nil]

theorem uuid_encode_single (u : List Nat) :
    UUIDCodec.encode [u] = parseHex (u.filter (fun c => c ≠ 45)) := by
  simp [UUIDCodec.encode]

theorem hyphenate_map_jsLower (cs : List Nat) :
    (hyphenate cs).map jsLower = hyphenate (cs.map jsLower) := by
  have h45 : jsLower 45 = 45 := rfl
  simp [hyphenate, h45]

/-- C10: for every canonical hyphenated UUID string (32 hex digits, upper- or
lower-case), decode after encode yields the lowercased string, and the
round trip is the identity exactly when no hex digit is uppercase. -/
theorem uuid_codec_spec (cs : List Nat) (hlen : cs.length = 32)
    (hhex : ∀ c ∈ cs, isHexDigit c = true) :
    UUIDCodec.decode (UUIDCodec.encode [hyphenate cs]) =
      [(hyphenate cs).map jsLower] ∧
    (UUIDCodec.decode (UUIDCodec.encode [hyphenate cs]) = [hyphenate cs] ↔
      ∀ c ∈ cs, ¬(65 ≤ c ∧ c ≤ 70)) := by
  have h45 : ∀ c ∈ cs, c ≠ 45 := by
    intro c hc hceq
    have hcontra := hhex c hc
    rw [hceq] at hcontra
    exact absurd hcontra (by decide)
  have hph := parseHex_flatten cs.length cs le_rfl (by omega) hhex
  have henc : UUIDCodec.encode [hyphenate cs] = parseHex cs := by
    rw [uuid_encode_single, filter_hyphenate cs h45]
  have hmain : UUIDCodec.decode (UUIDCodec.encode [hyphenate cs]) =
      [(hyphenate cs).map jsLower] := by
    rw [henc, uuid_decode_16 _ (by rw [hph.2, hlen]), hph.1, hyphenate_map_jsLower]
  refine ⟨hmain, ?_⟩
  rw [hmain]
  simp only [List.cons.injEq, and_true]
  rw [map_eq_self_iff_all]
  constructor
  · intro hall c hc hup
    have hfix := hall c (mem_hyphenate hc)
    simp only [jsLower, Bool.and_eq_true, decide_eq_true_eq] at hfix
    split_ifs at hfix <;> omega
  · intro hlow x hx
    simp only [hyphenate, List.mem_append, List.mem_singleton] at hx
    have hx' : x = 45 ∨ x ∈ cs := by
      rcases hx with ((((((((h | h) | h) | h) | h) | h) | h) | h) | h) <;>
        first
          | exact Or.inl h
          | exact Or.inr (List.take_subset _ _ h)
          | exact Or.inr (List.drop_subset _ _ (List.take_subset _ _ h))
          | exact Or.inr (List.drop_subset _ _ h)
    rcases hx' with rfl | hxc
    · rfl
    · have hnup := hlow x hxc
      simp only [jsLower, Bool.and_eq_true, decide_eq_true_eq]
      have hr := isHexDigit_range (hhex x hxc)
      split_ifs with hcond
      · exact absurd ⟨hcond.1, by omega⟩ hnup
      · rfl

/-- Witness for `uuid_codec_spec` at the uppercase UUID
`550E8400-E29B-41D4-A716-446655440000`. -/
theorem uuid_codec_spec_witness :
    (([53, 53, 48, 69, 56, 52, 48, 48, 69, 50, 57, 66, 52, 49, 68, 52, 65, 55,
        49, 54, 52, 52, 54, 54, 53, 53, 52, 52, 48, 48, 48, 48] :
        List Nat).length = 32 ∧
      ∀ c ∈ ([53, 53, 48, 69, 56, 52, 48, 48, 69, 50, 57, 66, 52, 49, 68, 52,
        65, 55, 49, 54, 52, 52, 54, 54, 53, 53, 52, 52, 48, 48, 48, 48] :
        List Nat), isHexDigit c = true) ∧
    UUIDCodec.decode (UUIDCodec.encode
      [hyphenate [53, 53, 48, 69, 56, 52, 48, 48, 69, 50, 57, 66, 52, 49, 68,
        52, 65, 55, 49, 54, 52, 52, 54, 54, 53, 53, 52, 52, 48, 48, 48, 48]]) =
      [(hyphenate [53, 53, 48, 69, 56, 52, 48, 48, 69, 50, 57, 66, 52, 49, 68,
        52, 65, 55, 49, 54, 52, 52, 54, 54, 53, 53, 52, 52, 48, 48, 48,
        48]).map jsLower] :=
  ⟨⟨by decide, by decide⟩,
    (uuid_codec_spec [53, 53, 48, 69, 56, 52, 48, 48, 69, 50, 57, 66, 52, 49,
      68, 52, 65, 55, 49, 54, 52, 52, 54, 54, 53, 53, 52, 52, 48, 48, 48, 48]
      (by decide) (by decide)).1⟩

/-! ### SemanticCompressor round trip (C1): association-list and key lemmas -/

theorem recLookup_eq_none_of_not_mem : ∀ {r : Rec} {k : Bytes},
    k ∉ r.map Prod.fst → recLookup r k = none := by
  intro r
  induction r with
  | nil => intro k _; rfl
  | cons p rest ih =>
    intro k h
    obtain ⟨k1, v1⟩ := p
    rw [recLookup, if_neg (by simp at h; exact fun hk => h.1 hk)]
    exact ih (by simp at h ⊢; exact h.2)

theorem recLookup_isSome_of_mem : ∀ {r : Rec} {k : Bytes},
    k ∈ r.map Prod.fst → ∃ v, recLookup r k = some v := by
  intro r
  induction r with
  | nil => intro k h; simp at h
  | cons p rest ih =>
    intro k h
    obtain ⟨k1, v1⟩ := p
    by_cases hk : k = k1
    · exact ⟨v1, by rw [recLookup, if_pos hk]⟩
    · obtain ⟨v, hv⟩ := ih (by
        simp only [List.map_cons, List.mem_cons] at h
        exact h.resolve_left hk)
      exact ⟨v, by rw [recLookup, if_neg hk]; exact hv⟩

theorem recLookup_mem : ∀ {r : Rec} {k : Bytes} {v : JVal},
    recLookup r k = some v → (k, v) ∈ r := by
  intro r
  induction r with
  | nil => intro k v h; exact absurd h (by rw [recLookup]; simp)
  | cons p rest ih =>
    intro k v h
    obtain ⟨k1, v1⟩ := p
    rw [recLookup] at h
    by_cases hk : k = k1
    · rw [if_pos hk] at h
      injection h with h
      subst hk; subst h
      exact List.mem_cons_self _ _
    · rw [if_neg hk] at h
      exact List.mem_cons_of_mem _ (ih h)

theorem recGet_missing_of_not_mem {r : Rec} {k : Bytes} (h : k ∉ r.map Prod.fst) :
    recGet r k = JVal.missing := by
  rw [recGet, recLookup_eq_none_of_not_mem h]
  rfl

theorem dictSet_append {r : Rec} {k : Bytes} (v : JVal) (h : k ∉ r.map Prod.fst) :
    dictSet r k v = r ++ [(k, v)] := by
  rw [dictSet, if_neg h]

theorem insertSorted_perm (k : Bytes) : ∀ (l : List Bytes),
    (insertSorted k l).Perm (k :: l) := by
  intro l
  induction l with
  | nil => rfl
  | cons x xs ih =>
    rw [insertSorted]
    by_cases h : bytesLe k x
    · rw [if_pos h]
    · rw [if_neg h]
      exact (List.Perm.cons x ih).trans (List.Perm.swap k x xs)

theorem sortKeys_perm (l : List Bytes) : (sortKeys l).Perm l := by
  induction l with
  | nil => rfl
  | cons x xs ih =>
    rw [sortKeys, List.foldr_cons]
    exact (insertSorted_perm x _).trans (List.Perm.cons x ih)

theorem mem_sortKeys {l : List Bytes} {k : Bytes} : k ∈ sortKeys l ↔ k ∈ l :=
  (sortKeys_perm l).mem_iff

theorem sortKeys_nodup {l : List Bytes} (h : l.Nodup) : (sortKeys l).Nodup :=
  ((sortKeys_perm l).nodup_iff).2 h

theorem uniqueList_aux_mem {α : Type} [DecidableEq α] : ∀ (l acc : List α) (x : α),
    x ∈ l.foldl (fun seen z => if z ∈ seen then seen else seen ++ [z]) acc ↔
      x ∈ acc ∨ x ∈ l := by
  intro l
  induction l with
  | nil => intro acc x; simp
  | cons a rest ih =>
    intro acc x
    rw [List.foldl_cons]
    by_cases ha : a ∈ acc
    · rw [if_pos ha, ih]
      constructor
      · rintro (h | h)
        · exact Or.inl h
        · exact Or.inr (List.mem_cons_of_mem _ h)
      · rintro (h | h)
        · exact Or.inl h
        · rcases List.mem_cons.1 h with rfl | h2
          · exact Or.inl ha
          · exact Or.inr h2
    · rw [if_neg ha, ih]
      simp only [List.mem_append, List.mem_singleton, List.mem_cons]
      tauto

theorem uniqueList_aux_nodup {α : Type} [DecidableEq α] : ∀ (l acc : List α),
    acc.Nodup →
    (l.foldl (fun seen z => if z ∈ seen then seen else seen ++ [z]) acc).Nodup := by
  intro l
  induction l with
  | nil => intro acc h; simpa using h
  | cons a rest ih =>
    intro acc h
    rw [List.foldl_cons]
    by_cases ha : a ∈ acc
    · rw [if_pos ha]; exact ih acc h
    · rw [if_neg ha]
      exact ih _ (by simp [List.nodup_append, h, ha])

theorem uniqueList_aux_fix {α : Type} [DecidableEq α] : ∀ (l acc : List α),
    (∀ x ∈ l, x ∈ acc) →
    l.foldl (fun seen z => if z ∈ seen then seen else seen ++ [z]) acc = acc := by
  intro l
  induction l with
  | nil => intro acc _; rfl
  | cons a rest ih =>
    intro acc h
    rw [List.foldl_cons, if_pos (h a (by simp))]
    exact ih acc (fun x hx => h x (by simp [hx]))

theorem uniqueList_aux_extend {α : Type} [DecidableEq α] : ∀ (l acc : List α),
    l.Nodup → (∀ x ∈ l, x ∉ acc) →
    l.foldl (fun seen z => if z ∈ seen then seen else seen ++ [z]) acc = acc ++ l := by
  intro l
  induction l with
  | nil => intro acc _ _; simp
  | cons a rest ih =>
    intro acc hnd hdisj
    rw [List.foldl_cons, if_neg (hdisj a (by simp))]
    rw [ih (acc ++ [a]) (by simp_all) (by
      intro x hx
      simp only [List.mem_append, List.mem_singleton]
      rintro (h | rfl)
      · exact hdisj x (by simp [hx]) h
      · simp at hnd
        exact hnd.1 hx)]
    simp

theorem mem_uniqueList_iff {α : Type} [DecidableEq α] {l : List α} {x : α} :
    x ∈ uniqueList l ↔ x ∈ l := by
  rw [uniqueList, uniqueList_aux_mem]
  simp

theorem uniqueList_nodup {α : Type} [DecidableEq α] (l : List α) :
    (uniqueList l).Nodup :=
  uniqueList_aux_nodup l [] List.nodup_nil

theorem uniqueList_of_nodup {α : Type} [DecidableEq α] {l : List α} (h : l.Nodup) :
    uniqueList l = l := by
  rw [uniqueList]
  have := uniqueList_aux_extend l [] h (by simp)
  simpa using this

theorem uniqueList_append_absorb {α : Type} [DecidableEq α] {l1 l2 : List α}
    (hnd : l1.Nodup) (hsub : ∀ x ∈ l2, x ∈ l1) : uniqueList (l1 ++ l2) = l1 := by
  rw [uniqueList, List.foldl_append]
  rw [show l1.foldl (fun seen z => if z ∈ seen then seen else seen ++ [z]) [] =
    uniqueList l1 from rfl]
  rw [uniqueList_of_nodup hnd]
  exact uniqueList_aux_fix l2 l1 hsub

theorem padMissing_eq_self {ks : List Bytes} {f : Rec}
    (h : ∀ k ∈ ks, k ∈ f.map Prod.fst) : padMissing ks f = f := by
  rw [padMissing]
  have hfil : ks.filter (fun k => ! decide (k ∈ f.map Prod.fst)) = [] := by
    rw [List.filter_eq_nil_iff]
    intro a ha
    simp [h a ha]
  rw [hfil]
  simp

theorem getD_map_of_lt {α β : Type} (f : α → β) (l : List α) (i : Nat) (d : β) (d' : α)
    (h : i < l.length) : (l.map f).getD i d = f (l.getD i d') := by
  rw [List.getD_eq_getElem?_getD, List.getD_eq_getElem?_getD,
    List.getElem?_eq_getElem (by simpa using h), List.getElem?_eq_getElem h,
    List.getElem_map]
  rfl

mutual
theorem jeq_refl : ∀ v : JVal, jeq v v = true
  | .null => rfl
  | .missing => rfl
  | .bool b => by simp [jeq]
  | .num q => by simp [jeq]
  | .str s => by simp [jeq]
  | .arr l => jeqList_refl l
  | .obj l => jeqFields_refl l
theorem jeqList_refl : ∀ l : List JVal, jeqList l l = true
  | [] => rfl
  | v :: vs => by simp [jeqList, jeq_refl v, jeqList_refl vs]
theorem jeqFields_refl : ∀ l : List (Bytes × JVal), jeqFields l l = true
  | [] => rfl
  | (k, v) :: ps => by simp [jeqFields, jeq_refl v, jeqFields_refl ps]
end

theorem flattenVal_leaf (acc : Rec) (path : Bytes) (v : JVal)
    (h : v.isPlainObject = false) : flattenVal acc path v = dictSet acc path v := by
  cases v <;> first | rfl | (exfalso; simp [JVal.isPlainObject] at h)

theorem flattenFields_id : ∀ (entries : List (Bytes × JVal)) (acc : Rec),
    (∀ p ∈ entries, (p.2 : JVal).isPlainObject = false) →
    (entries.map Prod.fst).Nodup →
    (∀ p ∈ entries, p.1 ∉ acc.map Prod.fst) →
    flattenFields acc [] entries = acc ++ entries := by
  intro entries
  induction entries with
  | nil => intro acc _ _ _; simp [flattenFields]
  | cons p rest ih =>
    intro acc hleaf hnd hdisj
    obtain ⟨k, v⟩ := p
    rw [flattenFields]
    have hpath : (if ([] : Bytes) = [] then k else [] ++ 46 :: k) = k := if_pos rfl
    rw [hpath, flattenVal_leaf _ _ _ (hleaf (k, v) (by simp)),
      dictSet_append _ (hdisj (k, v) (by simp))]
    rw [List.map_cons] at hnd
    have hnd' : (rest.map Prod.fst).Nodup := (List.nodup_cons.1 hnd).2
    have hk : k ∉ rest.map Prod.fst := (List.nodup_cons.1 hnd).1
    rw [ih (acc ++ [(k, v)]) (fun q hq => hleaf q (by simp [hq])) hnd' (by
      intro q hq
      simp only [List.map_append, List.mem_append, List.map_cons, List.map_nil,
        List.mem_singleton]
      rintro (h1 | h1)
      · exact hdisj q (by simp [hq]) h1
      · exact hk (h1 ▸ List.mem_map_of_mem Prod.fst hq))]
    simp

theorem flatten_id (r : Rec) (hleaf : ∀ p ∈ r, (p.2 : JVal).isPlainObject = false)
    (hnd : (r.map Prod.fst).Nodup) : ObjectFlattener.flatten r = r := by
  rw [ObjectFlattener.flatten, flattenFields_id r [] hleaf hnd (by simp)]
  simp

theorem padRecord_keys (ks : List Bytes) (r : Rec) :
    (padRecord ks r).map Prod.fst = ks := by
  simp [padRecord, List.map_map, Function.comp_def]

theorem recLookup_padRecord (ks : List Bytes) (r : Rec) (k : Bytes) :
    recLookup (padRecord ks r) k = if k ∈ ks then some (recGet r k) else none := by
  induction ks with
  | nil => simp [padRecord, recLookup]
  | cons a rest ih =>
    rw [padRecord, List.map_cons, recLookup]
    by_cases hk : k = a
    · subst hk
      rw [if_pos rfl, if_pos (by simp)]
    · rw [if_neg hk,
        show rest.map (fun k => (k, recGet r k)) = padRecord rest r from rfl, ih]
      simp [List.mem_cons, hk]

theorem recGet_padRecord_mem (ks : List Bytes) (r : Rec) {k : Bytes} (h : k ∈ ks) :
    recGet (padRecord ks r) k = recGet r k := by
  rw [recGet, recLookup_padRecord, if_pos h]
  rfl

theorem varintDecodeLoop_encode (z : Nat) : ∀ (tail : Bytes) (acc shift n : Nat),
    shift ≤ 31 → z <<< shift < 2 ^ 32 →
    varintDecodeLoop (Varint.encode z ++ tail) acc shift n =
      .ok (acc ||| z <<< shift, n + (Varint.encode z).length) := by
  induction z using Nat.strong_induction_on with
  | _ z ih =>
    intro tail acc shift n hs hz
    rw [Varint.encode_eq]
    by_cases h : z < 128
    · rw [if_pos h, List.cons_append, List.nil_append,
        varintDecodeLoop_term _ _ _ _ (byte_and128_of_lt h)]
      rw [Nat.mod_eq_of_lt h, Nat.mod_eq_of_lt (show shift < 32 by omega),
        Nat.mod_eq_of_lt hz]
      simp
    · have hge : 2 ^ 7 * 2 ^ shift ≤ z <<< shift := by
        rw [Nat.shiftLeft_eq]
        exact Nat.mul_le_mul_right _ (by omega)
      have hshift24 : shift ≤ 24 := by
        by_contra hgt
        have h32 : (2 : Nat) ^ 32 ≤ 2 ^ 7 * 2 ^ shift := by
          rw [← pow_add]
          exact Nat.pow_le_pow_right (by norm_num) (by omega)
        omega
      rw [if_neg h, List.cons_append,
        varintDecodeLoop_cont _ _ _ _ (byte_and128_of_ge (by omega) (by omega)) (by omega)]
      rw [show (z % 128 + 128) % 128 = z % 128 from by omega,
        Nat.mod_eq_of_lt (show shift < 32 by omega)]
      have hlt1 : (z % 128) <<< shift < 2 ^ 32 := by
        have hle : (z % 128) <<< shift ≤ z <<< shift := by
          rw [Nat.shiftLeft_eq, Nat.shiftLeft_eq]
          exact Nat.mul_le_mul_right _ (Nat.mod_le _ _)
        omega
      rw [Nat.mod_eq_of_lt hlt1]
      have hz' : (z / 128) <<< (shift + 7) < 2 ^ 32 := by
        have he : (z / 128) <<< (shift + 7) = (z / 128 * 128) <<< shift := by
          rw [Nat.shiftLeft_eq, Nat.shiftLeft_eq, pow_add]
          ring
        have hle : (z / 128 * 128) <<< shift ≤ z <<< shift := by
          rw [Nat.shiftLeft_eq, Nat.shiftLeft_eq]
          exact Nat.mul_le_mul_right _ (Nat.div_mul_le_self z 128)
        omega
      rw [ih (z / 128) (Nat.div_lt_self (by omega) (by omega)) tail
        (acc ||| (z % 128) <<< shift) (shift + 7) (n + 1) (by omega) hz']
      rw [Nat.or_assoc, ← shiftLeft_split]
      simp only [List.length_cons]
      rw [show n + 1 + (Varint.encode (z / 128)).length =
        n + ((Varint.encode (z / 128)).length + 1) from by omega]

theorem varint_roundtrip (m : Nat) (hm : m < 2 ^ 32) (tail : Bytes) :
    Varint.decode (Varint.encode m ++ tail) 0 = .ok (m, (Varint.encode m).length) := by
  rw [Varint.decode, List.drop_zero, varintDecodeLoop_encode m tail 0 0 0 (by omega)
    (by rwa [Nat.shiftLeft_zero])]
  rw [Nat.shiftLeft_zero, Nat.zero_or, Nat.zero_add]

theorem encode_length_le : ∀ (k z : Nat), z < 128 ^ k →
    (Varint.encode z).length ≤ k + 1 := by
  intro k
  induction k with
  | zero =>
    intro z hz
    rw [pow_zero] at hz
    rw [Varint.encode_eq, if_pos (by omega)]
    simp
  | succ k ih =>
    intro z hz
    rw [Varint.encode_eq]
    by_cases h : z < 128
    · rw [if_pos h]
      simp
    · rw [if_neg h]
      simp only [List.length_cons]
      have hdiv : z / 128 < 128 ^ k := by
        rw [pow_succ, mul_comm] at hz
        exact Nat.div_lt_of_lt_mul hz
      have := ih (z / 128) hdiv
      omega

theorem encodeBigInt_length_le (v : ℤ) (h1 : -(2 ^ 63) ≤ v) (h2 : v < 2 ^ 63) :
    (Varint.encodeBigInt v).length ≤ 11 := by
  rw [Varint.encodeBigInt]
  have hlt : (zigzag v).toNat < 2 ^ 64 := by
    match v with
    | .ofNat m =>
      have hm : m < 2 ^ 63 := by
        have h2' : (Int.ofNat m : ℤ) < 2 ^ 63 := h2
        rw [Int.ofNat_eq_natCast] at h2'
        exact_mod_cast h2'
      rw [show Int.ofNat m = ((m : ℕ) : ℤ) from rfl, zigzag_toNat_ofNat m hm]
      omega
    | .negSucc m =>
      have hm : m < 2 ^ 63 := by
        have h1' : -(2 ^ 63) ≤ Int.negSucc m := h1
        rw [Int.negSucc_eq] at h1'
        omega
      rw [zigzag_toNat_negSucc m hm]
      omega
  refine le_trans (encode_length_le 10 _ ?_) (by norm_num)
  have h70 : (128 : Nat) ^ 10 = 2 ^ 70 := by norm_num
  have hle : (2 : Nat) ^ 64 ≤ 2 ^ 70 := Nat.pow_le_pow_right (by norm_num) (by norm_num)
  omega

theorem map_pair_fst {α β : Type} (g : α → β) (ks : List α) :
    (ks.map (fun k => (k, g k))).map Prod.fst = ks := by
  simp [List.map_map, Function.comp_def]

theorem colAdd_present (ks : List Bytes) (g : Bytes → List JVal) (k1 : Bytes) (v : JVal)
    (hk : k1 ∈ ks) :
    colAdd (ks.map (fun k => (k, g k))) k1 v =
      ks.map (fun k => (k, if k = k1 then g k ++ [v] else g k)) := by
  rw [colAdd, if_pos (by rw [map_pair_fst]; exact hk), List.map_map]
  refine List.map_congr_left (fun k _ => ?_)
  by_cases h : k = k1
  · subst h; simp
  · simp [h]

theorem colFold_update (ks : List Bytes) (h : Bytes → JVal) :
    ∀ (sub : List Bytes) (g : Bytes → List JVal), sub.Nodup → (∀ k ∈ sub, k ∈ ks) →
    (sub.map (fun k => (k, h k))).foldl (fun c p => colAdd c p.1 p.2)
        (ks.map (fun k => (k, g k))) =
      ks.map (fun k => (k, if k ∈ sub then g k ++ [h k] else g k)) := by
  intro sub
  induction sub with
  | nil =>
    intro g _ _
    simp
  | cons k1 rest ih =>
    intro g hnd hsub
    rw [List.map_cons, List.foldl_cons]
    have hstep : colAdd (ks.map (fun k => (k, g k))) (k1, h k1).1 (k1, h k1).2 =
        ks.map (fun k => (k, if k = k1 then g k ++ [h k] else g k)) := by
      rw [colAdd_present ks g k1 (h k1) (hsub k1 (by simp))]
      refine List.map_congr_left (fun k _ => ?_)
      by_cases hk : k = k1
      · subst hk; simp
      · simp [hk]
    rw [hstep,
      ih (fun k => if k = k1 then g k ++ [h k] else g k) (List.nodup_cons.1 hnd).2
        (fun k hk => hsub k (by simp [hk]))]
    refine List.map_congr_left (fun k _ => ?_)
    have hk1 : k1 ∉ rest := (List.nodup_cons.1 hnd).1
    by_cases h1 : k = k1
    · subst h1
      simp [hk1]
    · by_cases h2 : k ∈ rest <;> simp [h1, h2]

theorem colFold_first (h : Bytes → JVal) :
    ∀ (sub : List Bytes) (acc : List (Bytes × List JVal)), sub.Nodup →
    (∀ k ∈ sub, k ∉ acc.map Prod.fst) →
    (sub.map (fun k => (k, h k))).foldl (fun c p => colAdd c p.1 p.2) acc =
      acc ++ sub.map (fun k => (k, [h k])) := by
  intro sub
  induction sub with
  | nil => intro acc _ _; simp
  | cons k1 rest ih =>
    intro acc hnd hdisj
    rw [List.map_cons, List.foldl_cons]
    have hstep : colAdd acc (k1, h k1).1 (k1, h k1).2 = acc ++ [(k1, [h k1])] := by
      rw [colAdd, if_neg (hdisj k1 (by simp))]
    rw [hstep, ih (acc ++ [(k1, [h k1])]) (List.nodup_cons.1 hnd).2 (by
      intro k hk
      simp only [List.map_append, List.mem_append, List.map_cons, List.map_nil,
        List.mem_singleton]
      rintro (h1 | h1)
      · exact hdisj k (by simp [hk]) h1
      · exact (List.nodup_cons.1 hnd).1 (h1 ▸ hk))]
    simp

theorem buildColumns_eq (ks : List Bytes) (hnd : ks.Nodup) :
    ∀ (rs : List Rec), rs ≠ [] →
    buildColumns (rs.map (padRecord ks)) =
      ks.map (fun k => (k, rs.map (fun r => recGet r k))) := by
  have hrec : ∀ (rest : List Rec) (g : Bytes → List JVal),
      (rest.map (padRecord ks)).foldl (fun cols r => r.foldl (fun c p => colAdd c p.1 p.2) cols)
        (ks.map (fun k => (k, g k))) =
      ks.map (fun k => (k, g k ++ rest.map (fun r => recGet r k))) := by
    intro rest
    induction rest with
    | nil =>
      intro g
      simp
    | cons r rest ih =>
      intro g
      rw [List.map_cons, List.foldl_cons,
        show padRecord ks r = ks.map (fun k => (k, recGet r k)) from rfl,
        colFold_update ks (fun k => recGet r k) ks g hnd (fun _ hk => hk)]
      have hmem : ks.map (fun k => (k, if k ∈ ks then g k ++ [recGet r k] else g k)) =
          ks.map (fun k => (k, g k ++ [recGet r k])) :=
        List.map_congr_left (fun k hk => by simp [hk])
      rw [hmem, ih (fun k => g k ++ [recGet r k])]
      refine List.map_congr_left (fun k _ => ?_)
      simp
  intro rs hne
  match rs with
  | r :: rest =>
    rw [buildColumns, List.map_cons, List.foldl_cons,
      show padRecord ks r = ks.map (fun k => (k, recGet r k)) from rfl,
      colFold_first (fun k => recGet r k) ks [] hnd (by simp)]
    rw [List.nil_append, hrec rest (fun k => [recGet r k])]
    refine List.map_congr_left (fun k _ => ?_)
    simp

theorem all_false_of_mem {l : List JVal} {p : JVal → Bool} (hne : l ≠ [])
    (h : ∀ x ∈ l, p x = false) : l.all p = false := by
  match l with
  | x :: xs => simp [List.all_cons, h x (by simp)]

theorem detectType_allnum (uuidT dateT : Bytes → Bool) : ∀ (vs : List JVal), vs ≠ [] →
    (∀ v ∈ vs, ∃ q : ℚ, v = JVal.num q) → detectType uuidT dateT vs = 1 := by
  intro vs hne h
  have hnn : vs.filter (fun v => ! v.isNull) = vs := by
    rw [List.filter_eq_self]
    intro v hv
    obtain ⟨q, rfl⟩ := h v hv
    rfl
  rw [detectType, hnn]
  match vs, hne, h with
  | v0 :: rest, _, h =>
    obtain ⟨q0, rfl⟩ := h v0 (by simp)
    rw [if_neg (by simp)]
    have huuid : (JVal.num q0 :: rest).all
        (fun v => match v with | JVal.str s => uuidT s | _ => false) = false :=
      all_false_of_mem (by simp) (fun x hx => by obtain ⟨q, rfl⟩ := h x hx; rfl)
    have hdate : (JVal.num q0 :: rest).all
        (fun v => match v with | JVal.str s => dateT s | _ => false) = false :=
      all_false_of_mem (by simp) (fun x hx => by obtain ⟨q, rfl⟩ := h x hx; rfl)
    have henum : ((JVal.num q0 :: rest).mapM
        (fun v => match v with | JVal.str s => some s | _ => none)) = none := rfl
    have hbool : (JVal.num q0 :: rest).all JVal.isBoolV = false :=
      all_false_of_mem (by simp)
        (fun x hx => by obtain ⟨q, rfl⟩ := h x hx; rfl)
    rw [if_neg (by simp [huuid]), if_neg (by simp [hdate]),
      if_neg (by rw [henum]; simp), if_neg (by simp [hbool]),
      if_pos (List.all_eq_true.2 (fun x hx => by obtain ⟨q, rfl⟩ := h x hx; rfl))]

theorem detectType_allnull (uuidT dateT : Bytes → Bool) (vs : List JVal)
    (h : ∀ v ∈ vs, v = JVal.null) : detectType uuidT dateT vs = 0 := by
  have hnn : vs.filter (fun v => ! v.isNull) = [] := by
    rw [List.filter_eq_nil_iff]
    intro v hv
    rw [h v hv]
    simp [JVal.isNull]
  rw [detectType, hnn]
  rfl

theorem columnType_num (uuidT dateT : Bytes → Bool) (vals : List JVal)
    (hval : ∀ v ∈ vals, v.isMissing = true ∨ ∃ q : ℚ, v = JVal.num q)
    (hex : ∃ v ∈ vals, ∃ q : ℚ, v = JVal.num q) :
    columnType uuidT dateT vals = 1 := by
  rw [columnType]
  have hfilne : vals.filter (fun v => ! v.isMissing) ≠ [] := by
    obtain ⟨v, hv, q, rfl⟩ := hex
    intro hempty
    have hmem : JVal.num q ∈ vals.filter (fun v => ! v.isMissing) := by
      rw [List.mem_filter]
      exact ⟨hv, rfl⟩
    rw [hempty] at hmem
    simp at hmem
  rw [if_pos (List.length_pos.2 hfilne)]
  refine detectType_allnum _ _ _ hfilne (fun v hv => ?_)
  rw [List.mem_filter] at hv
  rcases hval v hv.1 with hm | hq
  · rw [hm] at hv
    simp at hv
  · exact hq

theorem columnType_null (uuidT dateT : Bytes → Bool) (vals : List JVal)
    (hval : ∀ v ∈ vals, v.isMissing = true ∨ v = JVal.null)
    (hex : ∃ v ∈ vals, v = JVal.null) :
    columnType uuidT dateT vals = 0 := by
  rw [columnType]
  have hfilne : vals.filter (fun v => ! v.isMissing) ≠ [] := by
    obtain ⟨v, hv, rfl⟩ := hex
    intro hempty
    have hmem : JVal.null ∈ vals.filter (fun v => ! v.isMissing) := by
      rw [List.mem_filter]
      exact ⟨hv, rfl⟩
    rw [hempty] at hmem
    simp at hmem
  rw [if_pos (List.length_pos.2 hfilne)]
  refine detectType_allnull _ _ _ (fun v hv => ?_)
  rw [List.mem_filter] at hv
  rcases hval v hv.1 with hm | hq
  · rw [hm] at hv
    simp at hv
  · exact hq

theorem isMissing_eq_missing : ∀ {v : JVal}, v.isMissing = true → v = JVal.missing := by
  intro v h
  cases v <;> first | rfl | simp [JVal.isMissing] at h

theorem interleave_reconstruct : ∀ (vals : List JVal) (i : Nat) (bm : Bytes),
    (∀ j, j < vals.length → bitAt bm (i + j) = ! (vals.getD j JVal.missing).isMissing) →
    interleaveLoop bm i vals.length (vals.filter (fun v => ! v.isMissing)) = vals := by
  intro vals
  induction vals with
  | nil => intro i bm _; rfl
  | cons v rest ih =>
    intro i bm hbit
    rw [List.length_cons, interleaveLoop]
    have h0 := hbit 0 (by simp)
    rw [Nat.add_zero, List.getD_cons_zero] at h0
    have hshift : ∀ j, j < rest.length →
        bitAt bm (i + 1 + j) = ! (rest.getD j JVal.missing).isMissing := by
      intro j hj
      have := hbit (j + 1) (by simp; omega)
      rw [show i + (j + 1) = i + 1 + j from by omega, List.getD_cons_succ] at this
      exact this
    by_cases hm : v.isMissing
    · rw [hm] at h0
      simp only [Bool.not_true] at h0
      rw [if_neg (by rw [h0]; exact Bool.false_ne_true)]
      have hfil : (v :: rest).filter (fun v => ! v.isMissing) =
          rest.filter (fun v => ! v.isMissing) := by
        simp [List.filter_cons, hm]
      rw [hfil, ih (i + 1) bm hshift, isMissing_eq_missing hm]
    · rw [Bool.not_eq_true] at hm
      rw [hm] at h0
      simp only [Bool.not_false] at h0
      rw [if_pos h0]
      have hfil : (v :: rest).filter (fun v => ! v.isMissing) =
          v :: rest.filter (fun v => ! v.isMissing) := by
        simp [List.filter_cons, hm]
      rw [hfil]
      rw [show (v :: rest.filter (fun v => ! v.isMissing)).headD JVal.missing = v from rfl,
        show (v :: rest.filter (fun v => ! v.isMissing)).tail =
          rest.filter (fun v => ! v.isMissing) from rfl,
        ih (i + 1) bm hshift]

theorem wrap_roundtrip (innerEnc : List JVal → Except CErr Bytes)
    (innerDec : Bytes → Except CErr (List JVal)) (vals : List JVal) (ib : Bytes)
    (hn0 : vals ≠ []) (hn : vals.length < 2 ^ 32)
    (henc : innerEnc (vals.filter (fun v => ! v.isMissing)) = .ok ib)
    (hdec : innerDec ib = .ok (vals.filter (fun v => ! v.isMissing))) :
    wrapEncode innerEnc vals = .ok (u32le vals.length ++ buildBitmap vals ++ ib) ∧
    wrapDecode innerDec (u32le vals.length ++ buildBitmap vals ++ ib) = .ok vals := by
  constructor
  · rw [wrapEncode]
    rw [show (vals.filter (fun v => !v.isMissing)) = (vals.filter (fun v => !v.isMissing))
      from rfl, henc]
    dsimp only
    rw [if_pos hn]
  · rw [show u32le vals.length ++ buildBitmap vals ++ ib =
      vals.length % 256 :: (vals.length / 256 % 256) :: (vals.length / 65536 % 256) ::
        (vals.length / 16777216 % 256) :: (buildBitmap vals ++ ib) from by
      rw [u32le]; simp]
    have hread : readU32 (vals.length % 256) (vals.length / 256 % 256)
        (vals.length / 65536 % 256) (vals.length / 16777216 % 256) = vals.length := by
      rw [readU32]
      omega
    unfold wrapDecode
    simp only [hread]
    rw [if_neg (by
      intro h0
      exact hn0 (List.length_eq_zero.1 h0))]
    have hbml : (buildBitmap vals).length = (vals.length + 7) / 8 := buildBitmap_length vals
    rw [if_neg (by
      rw [List.length_append]
      omega)]
    rw [show (vals.length + 7) / 8 = (buildBitmap vals).length from hbml.symm,
      List.take_left, List.drop_left, hdec]
    dsimp only
    rw [if_neg (fun hcontra => hcontra (countSetBits_buildBitmap vals))]
    rw [interleave_reconstruct vals 0 (buildBitmap vals) (fun j hj => by
      rw [Nat.zero_add]
      exact bitAt_buildBitmap vals j)]

theorem num_cast_eq_self {q : ℚ} (hden : q.den = 1) : ((q.num : ℚ)) = q := by
  have h1 : ((q.den : ℚ)) = 1 := by rw [hden]; norm_num
  have h2 := Rat.num_div_den q
  rw [h1, div_one] at h2
  exact h2

theorem map_num_jsToInt : ∀ (vals : List JVal),
    (∀ v ∈ vals, ∃ q : ℚ, v = JVal.num q ∧ q.den = 1) →
    (vals.map jsToInt).map (fun z : ℤ => JVal.num (z : ℚ)) = vals := by
  intro vals
  induction vals with
  | nil => intro _; rfl
  | cons v rest ih =>
    intro h
    obtain ⟨q, rfl, hden⟩ := h v (by simp)
    simp only [List.map_cons]
    rw [ih (fun x hx => h x (by simp [hx])),
      show jsToInt (JVal.num q) = q.num from rfl, num_cast_eq_self hden]

theorem number_int_roundtrip (f64 : ℚ → Bytes) (f64dec : Bytes → ℚ) (vals : List JVal)
    (hne : vals ≠ [])
    (hint : ∀ v ∈ vals, ∃ q : ℚ, v = JVal.num q ∧ q.den = 1 ∧ |q.num| < 2 ^ 63) :
    NumberCodec.encode f64 vals =
      .ok (1 :: (vals.map (fun v => Varint.encodeBigInt (jsToInt v))).flatten) ∧
    NumberCodec.decode f64dec
        (1 :: (vals.map (fun v => Varint.encodeBigInt (jsToInt v))).flatten) =
      .ok vals := by
  have hmap : vals.map (fun v => Varint.encodeBigInt (jsToInt v)) =
      (vals.map jsToInt).map Varint.encodeBigInt := by
    rw [List.map_map]
    rfl
  constructor
  · rw [NumberCodec.encode,
      if_neg (by intro h; exact hne (List.length_eq_zero.1 h)),
      if_pos (List.all_eq_true.2 (fun v hv => by
        obtain ⟨q, rfl, hden, _⟩ := hint v hv
        simp [JVal.isIntegerNum, hden]))]
  · rw [NumberCodec.decode.eq_def]
    dsimp only
    rw [if_pos rfl, hmap,
      decodeBigInts_flatten (vals.map jsToInt) (by
        intro z hz
        obtain ⟨v, hv, rfl⟩ := List.mem_map.1 hz
        obtain ⟨q, rfl, hden, habs⟩ := hint v hv
        rw [abs_lt] at habs
        rw [jsToInt]
        exact ⟨by omega, habs.2⟩) _ le_rfl]
    dsimp only
    congr 1
    exact map_num_jsToInt vals (fun v hv => by
      obtain ⟨q, rfl, hden, _⟩ := hint v hv
      exact ⟨q, rfl, hden⟩)

theorem mapM_strnull_replicate : ∀ (m : Nat),
    (List.replicate m JVal.null).mapM (fun v => match v with
      | JVal.str s => some (some s)
      | JVal.null => some none
      | _ => none) = some (List.replicate m (none : Option Bytes)) := by
  intro m
  induction m with
  | zero => rfl
  | succ m ih =>
    rw [List.replicate_succ, List.mapM_cons, ih]
    rfl

theorem uniqueList_replicate_none (m : Nat) (hm : 1 ≤ m) :
    uniqueList (List.replicate m (none : Option Bytes)) = [none] := by
  match m, hm with
  | m + 1, _ =>
    rw [List.replicate_succ, uniqueList, List.foldl_cons, if_neg (by simp)]
    rw [List.nil_append]
    exact uniqueList_aux_fix (List.replicate m none) [none] (fun x hx => by
      rw [List.eq_of_mem_replicate hx]
      simp)

theorem flatten_replicate_single (x : Nat) : ∀ (m : Nat),
    (List.replicate m ([x] : Bytes)).flatten = List.replicate m x := by
  intro m
  induction m with
  | zero => rfl
  | succ m ih => simp [List.replicate_succ, ih]

theorem rleLoop_replicate (cur : Nat) : ∀ (j run : Nat),
    rleLoop (List.replicate j cur) cur run = [(cur, run + j)] := by
  intro j
  induction j with
  | zero => intro run; rfl
  | succ j ih =>
    intro run
    rw [List.replicate_succ, rleLoop, if_pos rfl, ih]
    rw [show run + 1 + j = run + (j + 1) from by omega]

theorem rleIndexLoop_nil (dict : List JVal) (f : Nat) :
    rleIndexLoop dict f [] = .ok [] := by
  cases f <;> rfl

theorem asc_allnull_roundtrip (m : Nat) (hm1 : 1 ≤ m) (hm2 : m < 2 ^ 32) :
    ∃ out, AdaptiveStringCodec.encode (List.replicate m JVal.null) = .ok out ∧
      AdaptiveStringCodec.decode out = .ok (List.replicate m JVal.null) ∧
      out.length ≤ 10 := by
  match m, hm1 with
  | 1, _ => exact ⟨[0, 0], rfl, rfl, by norm_num⟩
  | 2, _ => exact ⟨[1, 1, 0, 0, 0], rfl, rfl, by norm_num⟩
  | (j + 3), _ =>
    have hm3 : 3 ≤ j + 3 := by omega
    have hlen10 : (([2, 1, 0, 0] : Bytes) ++ Varint.encode (j + 3)).length ≤ 10 := by
      have := encode_length_le 5 (j + 3) (by
        have h5 : (128 : Nat) ^ 5 = 2 ^ 35 := by norm_num
        have hle : (2 : Nat) ^ 32 ≤ 2 ^ 35 :=
          Nat.pow_le_pow_right (by norm_num) (by norm_num)
        omega)
      simp only [List.length_append]
      simp
      omega
    refine ⟨[2, 1, 0, 0] ++ Varint.encode (j + 3), ?_, ?_, hlen10⟩
    · rw [AdaptiveStringCodec.encode, if_neg (by simp),
        mapM_strnull_replicate (j + 3)]
      dsimp only
      rw [uniqueList_replicate_none (j + 3) (by omega)]
      rw [if_pos (by simp [List.length_replicate]; omega)]
      have hidx : ascIndices (List.replicate (j + 3) (none : Option Bytes)) =
          List.replicate (j + 3) 0 := by
        rw [ascIndices, uniqueList_replicate_none (j + 3) (by omega), List.map_replicate,
          show List.indexOf (none : Option Bytes) [none] = 0 from by decide]
      have hstd : ascStd (List.replicate (j + 3) (none : Option Bytes)) =
          List.replicate (j + 3) 0 := by
        rw [ascStd, hidx, List.map_replicate, show Varint.encode 0 = [0] from rfl,
          flatten_replicate_single]
      have hrle : ascRle (List.replicate (j + 3) (none : Option Bytes)) =
          0 :: Varint.encode (j + 3) := by
        rw [ascRle, hidx,
          show List.replicate (j + 3) 0 = 0 :: List.replicate (j + 2) 0 from by
            rw [← List.replicate_succ],
          show rleRuns (0 :: List.replicate (j + 2) 0) =
            rleLoop (List.replicate (j + 2) 0) 0 1 from rfl,
          rleLoop_replicate 0 (j + 2) 1,
          show 1 + (j + 2) = j + 3 from by omega]
        simp [show Varint.encode 0 = [0] from rfl]
      rw [if_pos (by
        rw [hrle, hstd]
        simp only [List.length_cons, List.length_replicate]
        by_cases hsmall : j + 3 < 128
        · rw [Varint.encode_eq, if_pos hsmall]
          simp
        · have := encode_length_le 5 (j + 3) (by
            have h5 : (128 : Nat) ^ 5 = 2 ^ 35 := by norm_num
            have hle : (2 : Nat) ^ 32 ≤ 2 ^ 35 :=
              Nat.pow_le_pow_right (by norm_num) (by norm_num)
            omega)
          omega)]
      rw [hrle]
      rw [show ascDictHeader (List.replicate (j + 3) (none : Option Bytes)) = [1, 0] from by
        rw [ascDictHeader, uniqueList_replicate_none (j + 3) (by omega)]
        rfl]
      rfl
    · have hE : varintDecodeLoop (Varint.encode (j + 3)) 0 0 0 =
          .ok (j + 3, (Varint.encode (j + 3)).length) := by
        rw [show Varint.encode (j + 3) = Varint.encode (j + 3) ++ [] from
          (List.append_nil _).symm,
          varintDecodeLoop_encode (j + 3) [] 0 0 0 (by omega)
            (by rwa [Nat.shiftLeft_zero])]
        rw [Nat.shiftLeft_zero, Nat.zero_or, Nat.zero_add, List.append_nil]
      have hrd : readDict 1 ((0 : Nat) :: 0 :: Varint.encode (j + 3)) =
          .ok ([JVal.null], 0 :: Varint.encode (j + 3)) := by
        rw [show (1 : Nat) = 0 + 1 from rfl, readDict,
          show ((0 : Nat) :: 0 :: Varint.encode (j + 3) : Bytes) =
            Varint.encode 0 ++ (0 :: Varint.encode (j + 3)) from rfl,
          varint_roundtrip 0 (by norm_num)]
        dsimp only
        rw [if_pos rfl, List.drop_left, readDict]
      rw [AdaptiveStringCodec.decode.eq_def,
        show ([2, 1, 0, 0] : Bytes) ++ Varint.encode (j + 3) =
          2 :: (1 :: 0 :: 0 :: Varint.encode (j + 3)) from by simp]
      dsimp only
      rw [if_neg (by norm_num), if_pos (Or.inr rfl)]
      rw [show (1 : Nat) :: 0 :: 0 :: Varint.encode (j + 3) =
        Varint.encode 1 ++ (0 :: 0 :: Varint.encode (j + 3)) from rfl,
        varint_roundtrip 1 (by norm_num)]
      dsimp only
      rw [List.drop_left, hrd]
      dsimp only
      rw [if_neg (by norm_num : ¬ (2 : Nat) = 1)]
      rw [show ((0 : Nat) :: Varint.encode (j + 3)).length =
        (Varint.encode (j + 3)).length + 1 from by simp]
      rw [rleIndexLoop]
      rw [show ((0 : Nat) :: Varint.encode (j + 3) : Bytes) =
        Varint.encode 0 ++ Varint.encode (j + 3) from rfl,
        varint_roundtrip 0 (by norm_num)]
      dsimp only
      rw [Varint.decode, List.drop_left, hE]
      dsimp only
      rw [List.drop_eq_nil_of_le (by simp [List.length_append]), rleIndexLoop_nil]
      dsimp only
      rw [show (([JVal.null] : List JVal).getD 0 JVal.null) = JVal.null from rfl,
        List.append_nil]

theorem flatten_length_le {α : Type} (f : α → Bytes) (c : Nat) : ∀ (l : List α),
    (∀ x ∈ l, (f x).length ≤ c) → ((l.map f).flatten).length ≤ c * l.length := by
  intro l
  induction l with
  | nil => intro _; simp
  | cons a rest ih =>
    intro h
    simp only [List.map_cons, List.flatten_cons, List.length_append, List.length_cons]
    have h1 := h a (by simp)
    have h2 := ih (fun x hx => h x (by simp [hx]))
    have : c * (rest.length + 1) = c * rest.length + c := by ring
    omega

theorem eq_replicate_null {l : List JVal} (h : ∀ v ∈ l, v = JVal.null) :
    l = List.replicate l.length JVal.null :=
  List.eq_replicate_of_mem h

theorem processColumn_ok (f64 : ℚ → Bytes) (f64dec : Bytes → ℚ)
    (uuidT dateT : Bytes → Bool) (name : Bytes) (vals : List JVal)
    (hn0 : vals ≠ []) (hn : vals.length < 2 ^ 32)
    (hval : ∀ v ∈ vals, v.isMissing = true ∨ v = JVal.null ∨
      ∃ q : ℚ, v = JVal.num q ∧ q.den = 1 ∧ |q.num| < 2 ^ 63)
    (hex : ∃ v ∈ vals, v.isMissing = false)
    (hhom : (∀ v ∈ vals, v ≠ JVal.null) ∨ (∀ v ∈ vals, ∀ q : ℚ, v ≠ JVal.num q)) :
    ∃ encBuf, processColumn f64 f64dec uuidT dateT name vals =
        .ok (name, columnType uuidT dateT vals, encBuf) ∧
      wrapDecode (codecDecode f64dec (columnType uuidT dateT vals)) encBuf = .ok vals ∧
      encBuf.length ≤ 5 + (vals.length + 7) / 8 + 11 * vals.length ∧
      columnType uuidT dateT vals < 256 := by
  have hfilne : vals.filter (fun v => ! v.isMissing) ≠ [] := by
    obtain ⟨v, hv, hvm⟩ := hex
    intro hempty
    have hmem : v ∈ vals.filter (fun v => ! v.isMissing) := by
      rw [List.mem_filter]
      exact ⟨hv, by rw [hvm]; rfl⟩
    rw [hempty] at hmem
    simp at hmem
  have hfl : (vals.filter (fun v => ! v.isMissing)).length ≤ vals.length :=
    List.length_filter_le _ _
  rcases hhom with hN | hS
  · -- number column
    have hint : ∀ v ∈ vals.filter (fun v => ! v.isMissing),
        ∃ q : ℚ, v = JVal.num q ∧ q.den = 1 ∧ |q.num| < 2 ^ 63 := by
      intro v hv
      rw [List.mem_filter] at hv
      rcases hval v hv.1 with hm | hnull | hq
      · rw [hm] at hv
        simp at hv
      · exact absurd hnull (hN v hv.1)
      · exact hq
    have htype : columnType uuidT dateT vals = 1 := by
      refine columnType_num uuidT dateT vals (fun v hv => ?_) ?_
      · rcases hval v hv with hm | hnull | ⟨q, hq, _, _⟩
        · exact Or.inl hm
        · exact absurd hnull (hN v hv)
        · exact Or.inr ⟨q, hq⟩
      · obtain ⟨v, hv, hvm⟩ := hex
        rcases hval v hv with hm | hnull | ⟨q, hq, _, _⟩
        · rw [hm] at hvm; cases hvm
        · exact absurd hnull (hN v hv)
        · exact ⟨v, hv, q, hq⟩
    obtain ⟨henc, hdec⟩ :=
      number_int_roundtrip f64 f64dec (vals.filter (fun v => ! v.isMissing)) hfilne hint
    have henc2 : codecEncode f64 1 (vals.filter (fun v => ! v.isMissing)) =
        .ok (1 :: ((vals.filter (fun v => ! v.isMissing)).map
          (fun v => Varint.encodeBigInt (jsToInt v))).flatten) := henc
    have hdec2 : codecDecode f64dec 1
        (1 :: ((vals.filter (fun v => ! v.isMissing)).map
          (fun v => Varint.encodeBigInt (jsToInt v))).flatten) =
        .ok (vals.filter (fun v => ! v.isMissing)) := hdec
    have hwrap := wrap_roundtrip (codecEncode f64 1) (codecDecode f64dec 1) vals
      (1 :: ((vals.filter (fun v => ! v.isMissing)).map
        (fun v => Varint.encodeBigInt (jsToInt v))).flatten) hn0 hn henc2 hdec2
    refine ⟨u32le vals.length ++ buildBitmap vals ++
      (1 :: ((vals.filter (fun v => ! v.isMissing)).map
        (fun v => Varint.encodeBigInt (jsToInt v))).flatten), ?_, ?_, ?_,
      by rw [htype]; norm_num⟩
    · rw [processColumn, htype, hwrap.1]
      dsimp only
      rw [hwrap.2]
      dsimp only
      rw [if_pos (jeqList_refl vals)]
    · rw [htype]
      exact hwrap.2
    · have hib : (((vals.filter (fun v => ! v.isMissing)).map
          (fun v => Varint.encodeBigInt (jsToInt v))).flatten).length ≤
          11 * vals.length := by
        refine le_trans (flatten_length_le _ 11 _ (fun v hv => ?_)) (by omega)
        obtain ⟨q, rfl, hden, habs⟩ := hint v hv
        rw [show jsToInt (JVal.num q) = q.num from rfl]
        rw [abs_lt] at habs
        exact encodeBigInt_length_le q.num (by omega) habs.2
      simp only [List.length_append, List.length_cons]
      have h4 : (u32le vals.length).length = 4 := rfl
      have hbm : (buildBitmap vals).length = (vals.length + 7) / 8 :=
        buildBitmap_length vals
      omega
  · -- all-null column
    have hnull : ∀ v ∈ vals.filter (fun v => ! v.isMissing), v = JVal.null := by
      intro v hv
      rw [List.mem_filter] at hv
      rcases hval v hv.1 with hm | hn' | ⟨q, hq, _, _⟩
      · rw [hm] at hv
        simp at hv
      · exact hn'
      · exact absurd hq (hS v hv.1 q)
    have hrep := eq_replicate_null hnull
    have htype : columnType uuidT dateT vals = 0 := by
      refine columnType_null uuidT dateT vals (fun v hv => ?_) ?_
      · rcases hval v hv with hm | hn' | ⟨q, hq, _, _⟩
        · exact Or.inl hm
        · exact Or.inr hn'
        · exact absurd hq (hS v hv q)
      · obtain ⟨v, hv, hvm⟩ := hex
        rcases hval v hv with hm | hn' | ⟨q, hq, _, _⟩
        · rw [hm] at hvm; cases hvm
        · exact ⟨v, hv, hn'⟩
        · exact absurd hq (hS v hv q)
    obtain ⟨out, henc0, hdec0, hout10⟩ := asc_allnull_roundtrip
      (vals.filter (fun v => ! v.isMissing)).length
      (by
        have := List.length_pos.2 hfilne
        omega)
      (by omega)
    have henc : codecEncode f64 0 (vals.filter (fun v => ! v.isMissing)) = .ok out := by
      show AdaptiveStringCodec.encode (vals.filter (fun v => ! v.isMissing)) = .ok out
      rw [hrep] at henc0 ⊢
      simpa using henc0
    have hdec : codecDecode f64dec 0 out = .ok (vals.filter (fun v => ! v.isMissing)) := by
      show AdaptiveStringCodec.decode out = .ok (vals.filter (fun v => ! v.isMissing))
      rw [hrep]
      simpa using hdec0
    have hwrap := wrap_roundtrip (codecEncode f64 0) (codecDecode f64dec 0) vals out
      hn0 hn henc hdec
    refine ⟨u32le vals.length ++ buildBitmap vals ++ out, ?_, ?_, ?_,
      by rw [htype]; norm_num⟩
    · rw [processColumn, htype, hwrap.1]
      dsimp only
      rw [hwrap.2]
      dsimp only
      rw [if_pos (jeqList_refl vals)]
    · rw [htype]
      exact hwrap.2
    · simp only [List.length_append]
      have h4 : (u32le vals.length).length = 4 := rfl
      have hbm : (buildBitmap vals).length = (vals.length + 7) / 8 :=
        buildBitmap_length vals
      have h1 : 1 ≤ vals.length := by
        have := List.length_pos.2 hn0
        omega
      omega

theorem mapM_ok_forall₂ {α β : Type} (f : α → Except CErr β) : ∀ (l : List α),
    (∀ a ∈ l, ∃ b, f a = .ok b) →
    ∃ bs, l.mapM f = .ok bs ∧ List.Forall₂ (fun a b => f a = .ok b) l bs := by
  intro l
  induction l with
  | nil => intro _; exact ⟨[], rfl, List.Forall₂.nil⟩
  | cons a rest ih =>
    intro h
    obtain ⟨b, hb⟩ := h a (by simp)
    obtain ⟨bs, hbs, hrel⟩ := ih (fun x hx => h x (by simp [hx]))
    refine ⟨b :: bs, ?_, List.Forall₂.cons hb hrel⟩
    rw [List.mapM_cons, hb, hbs]
    rfl

theorem readU32_u32le (n : Nat) (h : n < 2 ^ 32) :
    readU32 (n % 256) (n / 256 % 256) (n / 65536 % 256) (n / 16777216 % 256) = n := by
  rw [readU32]
  omega

theorem parseFields_glue : ∀ (fields : List (Bytes × Nat × Bytes)) (tail : Bytes),
    (∀ f ∈ fields, f.1.length < 256 ∧ f.2.1 < 256 ∧ f.2.2.length < 2 ^ 32) →
    parseFields fields.length
        ((fields.map (fun f =>
          f.1.length % 256 :: f.1 ++ f.2.1 % 256 :: u32le f.2.2.length)).flatten ++ tail) =
      .ok (fields.map (fun f => (f.1, f.2.1, f.2.2.length)), tail) := by
  intro fields
  induction fields with
  | nil => intro tail _; rfl
  | cons f rest ih =>
    intro tail h
    obtain ⟨nm, ty, buf⟩ := f
    have h0 := h (nm, ty, buf) (by simp)
    simp only [List.map_cons, List.flatten_cons, List.length_cons]
    have hshape : ((nm.length % 256 :: nm ++ ty % 256 :: u32le buf.length) ++
        (rest.map (fun f =>
          f.1.length % 256 :: f.1 ++ f.2.1 % 256 :: u32le f.2.2.length)).flatten) ++ tail =
        nm.length % 256 :: (nm ++ (ty % 256 :: (u32le buf.length ++
          ((rest.map (fun f =>
            f.1.length % 256 :: f.1 ++ f.2.1 % 256 :: u32le f.2.2.length)).flatten ++
            tail)))) := by
      simp [List.cons_append, List.append_assoc]
    rw [hshape, parseFields]
    have hnm : nm.length % 256 = nm.length := Nat.mod_eq_of_lt h0.1
    rw [hnm]
    rw [if_neg (by
      simp only [List.length_append, Nat.not_lt]
      omega)]
    rw [List.take_left, List.drop_left]
    rw [show u32le buf.length ++ ((rest.map (fun f =>
        f.1.length % 256 :: f.1 ++ f.2.1 % 256 :: u32le f.2.2.length)).flatten ++ tail) =
      buf.length % 256 :: buf.length / 256 % 256 :: buf.length / 65536 % 256 ::
        buf.length / 16777216 % 256 :: ((rest.map (fun f =>
          f.1.length % 256 :: f.1 ++ f.2.1 % 256 :: u32le f.2.2.length)).flatten ++ tail)
      from by rw [u32le]; rfl]
    dsimp only
    rw [ih tail (fun x hx => h x (by simp [hx]))]
    dsimp only
    rw [readU32_u32le buf.length h0.2.2, Nat.mod_eq_of_lt h0.2.1]

theorem readColumns_glue (f64dec : Bytes → ℚ) (fields : List (Bytes × Nat × Bytes))
    (decoded : List (Bytes × List JVal))
    (hrel : List.Forall₂ (fun (f : Bytes × Nat × Bytes) (d : Bytes × List JVal) =>
      f.1 = d.1 ∧ wrapDecode (codecDecode f64dec f.2.1) f.2.2 = .ok d.2) fields decoded) :
    readColumns f64dec (fields.map (fun f => (f.1, f.2.1, f.2.2.length)))
      ((fields.map (fun f => f.2.2)).flatten) = .ok decoded := by
  induction hrel with
  | nil => rfl
  | @cons a b l1 l2 h1 h2 ih =>
    simp only [List.map_cons, List.flatten_cons]
    rw [readColumns]
    rw [show ((a.1, a.2.1, a.2.2.length) : Bytes × Nat × Nat).2.2 = a.2.2.length from rfl]
    rw [List.take_left, show ((a.1, a.2.1, a.2.2.length) : Bytes × Nat × Nat).2.1 =
      a.2.1 from rfl, h1.2]
    dsimp only
    rw [List.drop_left, ih]
    dsimp only
    rw [show ((a.1, a.2.1, a.2.2.length) : Bytes × Nat × Nat).1 = a.1 from rfl, h1.1]

theorem filledRecords_eq (R : List Rec) (hne : R ≠ [])
    (hpv : ∀ r ∈ R, ∀ p ∈ r, (p.2 : JVal).isPlainObject = false) :
    filledRecords R = R.map (padRecord (sortKeys (allKeys R))) := by
  have hksnd : (sortKeys (allKeys R)).Nodup := sortKeys_nodup (uniqueList_nodup _)
  have hflat : flattenedRecords R = R.map (padRecord (sortKeys (allKeys R))) := by
    rw [flattenedRecords]
    refine List.map_congr_left (fun r hr => ?_)
    refine flatten_id _ (fun p hp => ?_) (by rw [padRecord_keys]; exact hksnd)
    rw [padRecord] at hp
    obtain ⟨k, hk, rfl⟩ := List.mem_map.1 hp
    show (recGet r k).isPlainObject = false
    rw [recGet]
    rcases hlk : recLookup r k with _ | v
    · rfl
    · exact hpv r hr (k, v) (recLookup_mem hlk)
  rw [filledRecords, hflat]
  have hkeys : uniqueList ((R.map (padRecord (sortKeys (allKeys R)))).flatMap
      (fun f => f.map Prod.fst)) = sortKeys (allKeys R) := by
    match R, hne with
    | r0 :: rest, _ =>
      rw [List.map_cons, List.flatMap_cons, padRecord_keys]
      refine uniqueList_append_absorb hksnd (fun x hx => ?_)
      obtain ⟨f, hf, hxf⟩ := List.mem_flatMap.1 hx
      obtain ⟨r, hr, rfl⟩ := List.mem_map.1 hf
      rw [padRecord_keys] at hxf
      exact hxf
  rw [hkeys, List.map_map]
  refine List.map_congr_left (fun r hr => ?_)
  show padMissing (sortKeys (allKeys R)) (padRecord (sortKeys (allKeys R)) r) =
    padRecord (sortKeys (allKeys R)) r
  exact padMissing_eq_self (fun k hk => by rw [padRecord_keys]; exact hk)

theorem mapM_ok_rel {α β : Type} (f : α → Except CErr β) (S : α → β → Prop) :
    ∀ (l : List α), (∀ a ∈ l, ∃ b, f a = .ok b ∧ S a b) →
    ∃ bs, l.mapM f = .ok bs ∧ List.Forall₂ S l bs := by
  intro l
  induction l with
  | nil => intro _; exact ⟨[], rfl, List.Forall₂.nil⟩
  | cons a rest ih =>
    intro h
    obtain ⟨b, hb, hS⟩ := h a (by simp)
    obtain ⟨bs, hbs, hrel⟩ := ih (fun x hx => h x (by simp [hx]))
    refine ⟨b :: bs, ?_, List.Forall₂.cons hS hrel⟩
    rw [List.mapM_cons, hb, hbs]
    rfl

theorem forall₂_right_mem {α β : Type} {S : α → β → Prop} :
    ∀ {l1 : List α} {l2 : List β}, List.Forall₂ S l1 l2 → ∀ b ∈ l2, ∃ a ∈ l1, S a b := by
  intro l1 l2 hrel
  induction hrel with
  | nil => intro b hb; simp at hb
  | @cons a b l1 l2 h1 h2 ih =>
    intro x hx
    rcases List.mem_cons.1 hx with rfl | hx2
    · exact ⟨a, by simp, h1⟩
    · obtain ⟨a2, ha2, hS⟩ := ih x hx2
      exact ⟨a2, by simp [ha2], hS⟩

theorem forall₂_map_eq {α β γ : Type} {S : α → β → Prop} (g : β → γ) (h : α → γ) :
    ∀ {l1 : List α} {l2 : List β}, List.Forall₂ S l1 l2 → (∀ a b, S a b → g b = h a) →
    l2.map g = l1.map h := by
  intro l1 l2 hrel
  induction hrel with
  | nil => intro _; rfl
  | @cons a b l1 l2 h1 h2 ih =>
    intro hgh
    simp only [List.map_cons]
    rw [hgh a b h1, ih hgh]

theorem colLookup_map (g : Bytes → List JVal) : ∀ (ks : List Bytes) (k : Bytes),
    k ∈ ks → colLookup (ks.map (fun k => (k, g k))) k = g k := by
  intro ks
  induction ks with
  | nil => intro k hk; simp at hk
  | cons a rest ih =>
    intro k hk
    rw [List.map_cons, colLookup]
    by_cases hka : k = a
    · rw [if_pos (by rw [hka])]
      rw [hka]
    · rw [if_neg (by simpa using hka)]
      exact ih k ((List.mem_cons.1 hk).resolve_left hka)

theorem foldl_congr_mem {α β : Type} (step1 step2 : β → α → β) : ∀ (l : List α) (b : β),
    (∀ acc x, x ∈ l → step1 acc x = step2 acc x) → l.foldl step1 b = l.foldl step2 b := by
  intro l
  induction l with
  | nil => intro b _; rfl
  | cons a rest ih =>
    intro b h
    rw [List.foldl_cons, List.foldl_cons, h b a (by simp)]
    exact ih _ (fun acc x hx => h acc x (by simp [hx]))

theorem foldl_dictSet_filterMap (w : Bytes → JVal) : ∀ (ks : List Bytes) (acc : Rec),
    (ks.Nodup) → (∀ k ∈ ks, k ∉ acc.map Prod.fst) →
    ks.foldl (fun rec k => if (w k).isMissing then rec else dictSet rec k (w k)) acc =
      acc ++ ks.filterMap (fun k => if (w k).isMissing then none else some (k, w k)) := by
  intro ks
  induction ks with
  | nil => intro acc _ _; simp
  | cons a rest ih =>
    intro acc hnd hdisj
    rw [List.foldl_cons]
    by_cases hm : (w a).isMissing
    · rw [if_pos hm, ih acc (List.nodup_cons.1 hnd).2
        (fun k hk => hdisj k (by simp [hk]))]
      rw [List.filterMap_cons_none (by rw [if_pos hm])]
    · rw [if_neg hm, dictSet_append _ (hdisj a (by simp))]
      rw [ih (acc ++ [(a, w a)]) (List.nodup_cons.1 hnd).2 (by
        intro k hk
        simp only [List.map_append, List.mem_append, List.map_cons, List.map_nil,
          List.mem_singleton]
        rintro (h1 | h1)
        · exact hdisj k (by simp [hk]) h1
        · exact (List.nodup_cons.1 hnd).1 (h1 ▸ hk))]
      rw [List.filterMap_cons_some (by rw [if_neg hm])]
      simp

theorem filterMap_sel_keys (w : Bytes → JVal) : ∀ (ks : List Bytes),
    (ks.filterMap (fun k => if (w k).isMissing then none else some (k, w k))).map
      Prod.fst = ks.filter (fun k => ! (w k).isMissing) := by
  intro ks
  induction ks with
  | nil => rfl
  | cons a rest ih =>
    by_cases hm : (w a).isMissing
    · rw [List.filterMap_cons_none (by rw [if_pos hm]),
        List.filter_cons_of_neg (by simp [hm]), ih]
    · rw [List.filterMap_cons_some (by rw [if_neg hm]),
        List.filter_cons_of_pos (by simp [hm]), List.map_cons, ih]

theorem filterMap_sel_vals (w : Bytes → JVal) : ∀ (ks : List Bytes),
    ∀ p ∈ ks.filterMap (fun k => if (w k).isMissing then none else some (k, w k)),
      (p.2 : JVal).isMissing = false := by
  intro ks p hp
  obtain ⟨k, hk, hsel⟩ := List.mem_filterMap.1 hp
  by_cases hm : (w k).isMissing
  · rw [if_pos hm] at hsel
    cases hsel
  · rw [if_neg hm] at hsel
    injection hsel with hsel
    subst hsel
    simpa using hm

theorem splitDots_nodot : ∀ (k : Bytes), (46 : Nat) ∉ k → splitDots k = [k] := by
  intro k
  induction k with
  | nil => intro _; rfl
  | cons c rest ih =>
    intro h
    rw [splitDots, if_neg (by simp at h; omega), ih (by simp at h; exact h.2)]

theorem deepInsert_single (res : Rec) (p : Bytes) (v : JVal) :
    deepInsert res [p] v = dictSet res p v := rfl

theorem unflatten_id (flat : Rec) (hdot : ∀ p ∈ flat, (46 : Nat) ∉ p.1)
    (hnm : ∀ p ∈ flat, (p.2 : JVal).isMissing = false)
    (hnd : (flat.map Prod.fst).Nodup) : unflatten flat = flat := by
  have aux : ∀ (l : Rec) (acc : Rec), (∀ p ∈ l, (46 : Nat) ∉ p.1) →
      (∀ p ∈ l, (p.2 : JVal).isMissing = false) → (l.map Prod.fst).Nodup →
      (∀ p ∈ l, p.1 ∉ acc.map Prod.fst) →
      l.foldl (fun res p =>
        if p.2.isMissing then res else deepInsert res (splitDots p.1) p.2) acc =
      acc ++ l := by
    intro l
    induction l with
    | nil => intro acc _ _ _ _; simp
    | cons p rest ih =>
      intro acc hd hm hnd2 hdisj
      obtain ⟨k, v⟩ := p
      rw [List.foldl_cons]
      rw [if_neg (by rw [hm (k, v) (by simp)]; exact Bool.false_ne_true)]
      rw [splitDots_nodot k (hd (k, v) (by simp)), deepInsert_single,
        dictSet_append _ (hdisj (k, v) (by simp))]
      rw [List.map_cons] at hnd2
      rw [ih (acc ++ [(k, v)]) (fun q hq => hd q (by simp [hq]))
        (fun q hq => hm q (by simp [hq])) (List.nodup_cons.1 hnd2).2 (by
          intro q hq
          simp only [List.map_append, List.mem_append, List.map_cons, List.map_nil,
            List.mem_singleton]
          rintro (h1 | h1)
          · exact hdisj q (by simp [hq]) h1
          · exact (List.nodup_cons.1 hnd2).1 (List.mem_map.2 ⟨q, hq, h1⟩))]
      simp
  rw [unflatten, aux flat [] hdot hnm hnd (by simp)]
  simp

theorem recLookup_filterMap (w : Bytes → JVal) : ∀ (ks : List Bytes) (k : Bytes),
    recLookup (ks.filterMap (fun k => if (w k).isMissing then none else some (k, w k))) k =
      if k ∈ ks ∧ (w k).isMissing = false then some (w k) else none := by
  intro ks
  induction ks with
  | nil =>
    intro k
    rw [show (([] : List Bytes).filterMap
      (fun k => if (w k).isMissing then none else some (k, w k))) = [] from rfl]
    simp [recLookup]
  | cons a rest ih =>
    intro k
    by_cases hma : (w a).isMissing
    · rw [List.filterMap_cons_none (by rw [if_pos hma]), ih]
      by_cases hka : k = a
      · subst hka
        rw [if_neg (by rw [hma]; simp), if_neg (by rw [hma]; simp)]
      · by_cases hkr : k ∈ rest
        · simp [hkr, hka]
        · simp [hkr, hka]
    · rw [List.filterMap_cons_some (by rw [if_neg hma]), recLookup]
      by_cases hka : k = a
      · subst hka
        rw [if_pos rfl, if_pos ⟨by simp, by simpa using hma⟩]
      · rw [if_neg hka, ih]
        by_cases hkr : k ∈ rest
        · simp [hkr, hka]
        · simp [hkr, hka]

theorem forall₂_flip_imp {α β : Type} {S : α → β → Prop} {T : β → α → Prop}
    (hST : ∀ a b, S a b → T b a) :
    ∀ {l1 : List α} {l2 : List β}, List.Forall₂ S l1 l2 → List.Forall₂ T l2 l1 := by
  intro l1 l2 h
  induction h with
  | nil => exact List.Forall₂.nil
  | cons h1 _ ih => exact List.Forall₂.cons (hST _ _ h1) ih

theorem foldl_triple_keys (cols : List (Bytes × List JVal)) (row : Nat) :
    ∀ (fs : List (Bytes × Nat × Bytes)) (acc : Rec),
    (fs.map (fun f => (f.1, f.2.1, f.2.2.length))).foldl (fun rec f =>
      if ((colLookup cols f.1).getD row JVal.missing).isMissing then rec
      else dictSet rec f.1 ((colLookup cols f.1).getD row JVal.missing)) acc =
    (fs.map (fun f => f.1)).foldl (fun rec k =>
      if ((colLookup cols k).getD row JVal.missing).isMissing then rec
      else dictSet rec k ((colLookup cols k).getD row JVal.missing)) acc := by
  intro fs
  induction fs with
  | nil => intro acc; rfl
  | cons f rest ih =>
    intro acc
    simp only [List.map_cons, List.foldl_cons]
    rw [ih]

/-- C1 (amended): for every non-empty batch of records having at least one
key, with dot-free duplicate-free keys shorter than 256 bytes, fewer than
`2^16` distinct keys, at most `2^28` rows, every value either `null` or an
integer of magnitude below `2^63`, and no key mapped to `null` in one
record and to a number in another, `decompress (compress R)` succeeds and
returns a batch of the same length in which every record has exactly the
original record's keys and values: a key absent from an input record is
absent from the output record, and a `null` value stays `null`. -/
theorem sajc_roundtrip (f64 : ℚ → Bytes) (f64dec : Bytes → ℚ) (uuidT dateT : Bytes → Bool)
    (R : List Rec)
    (hne : R ≠ [])
    (hn : R.length ≤ 2 ^ 28)
    (hkne : R.flatMap (fun r => r.map Prod.fst) ≠ [])
    (hknd : ∀ r ∈ R, (r.map Prod.fst).Nodup)
    (hkdot : ∀ r ∈ R, ∀ p ∈ r, (46 : Nat) ∉ p.1)
    (hklen : ∀ r ∈ R, ∀ p ∈ r, p.1.length < 256)
    (hkcount : (allKeys R).length < 2 ^ 16)
    (hvals : ∀ r ∈ R, ∀ p ∈ r, p.2 = JVal.null ∨
      ∃ q : ℚ, p.2 = JVal.num q ∧ q.den = 1 ∧ |q.num| < 2 ^ 63)
    (hhom : ∀ k : Bytes, (∀ r ∈ R, recLookup r k ≠ some JVal.null) ∨
      (∀ r ∈ R, ∀ q : ℚ, recLookup r k ≠ some (JVal.num q))) :
    ∃ buf out, compress f64 f64dec uuidT dateT R = .ok buf ∧
      decompress f64dec buf = .ok out ∧
      out.length = R.length ∧
      ∀ i, i < R.length → ∀ k : Bytes,
        recGet (out.getD i []) k = recGet (R.getD i []) k := by
  have h28 : (2 : Nat) ^ 28 = 268435456 := by norm_num
  have h32 : (2 : Nat) ^ 32 = 4294967296 := by norm_num
  have h16 : (2 : Nat) ^ 16 = 65536 := by norm_num
  have hksnd : (sortKeys (allKeys R)).Nodup := sortKeys_nodup (uniqueList_nodup _)
  have hkslen : (sortKeys (allKeys R)).length = (allKeys R).length :=
    (sortKeys_perm (allKeys R)).length_eq
  have hksrc : ∀ k ∈ sortKeys (allKeys R), ∃ r ∈ R, ∃ v, (k, v) ∈ r := by
    intro k hk
    rw [mem_sortKeys] at hk
    rw [allKeys, mem_uniqueList_iff] at hk
    obtain ⟨r, hr, hkr⟩ := List.mem_flatMap.1 hk
    obtain ⟨p, hp, hpk⟩ := List.mem_map.1 hkr
    refine ⟨r, hr, p.2, ?_⟩
    rw [show (k, p.2) = p from by rw [← hpk]]
    exact hp
  have hksne : sortKeys (allKeys R) ≠ [] := by
    intro hempty
    obtain ⟨x, hx⟩ := List.exists_mem_of_ne_nil _ hkne
    have hxs : x ∈ sortKeys (allKeys R) := by
      rw [mem_sortKeys, allKeys, mem_uniqueList_iff]
      exact hx
    rw [hempty] at hxs
    simp at hxs
  have hkeysub : ∀ r ∈ R, ∀ p ∈ r, p.1 ∈ sortKeys (allKeys R) := by
    intro r hr p hp
    rw [mem_sortKeys, allKeys, mem_uniqueList_iff]
    exact List.mem_flatMap.2 ⟨r, hr, List.mem_map_of_mem Prod.fst hp⟩
  have hfill : filledRecords R = R.map (padRecord (sortKeys (allKeys R))) :=
    filledRecords_eq R hne (fun r hr p hp => by
      rcases hvals r hr p hp with h | ⟨q, hq, _, _⟩
      · rw [h]; rfl
      · rw [hq]; rfl)
  have hbc : buildColumns (filledRecords R) =
      (sortKeys (allKeys R)).map (fun k => (k, R.map (fun r => recGet r k))) := by
    rw [hfill]
    exact buildColumns_eq _ hksnd R hne
  have hcolok : ∀ c ∈ (sortKeys (allKeys R)).map
      (fun k => (k, R.map (fun r => recGet r k))),
      ∃ b, processColumn f64 f64dec uuidT dateT c.1 c.2 = .ok b ∧
        (b.1 = c.1 ∧ wrapDecode (codecDecode f64dec b.2.1) b.2.2 = .ok c.2 ∧
          b.1.length < 256 ∧ b.2.1 < 256 ∧ b.2.2.length < 2 ^ 32) := by
    intro c hc
    obtain ⟨k, hk, rfl⟩ := List.mem_map.1 hc
    have hv1 : (R.map (fun r => recGet r k)) ≠ [] := by
      intro h
      exact hne (by simpa using h)
    have hv2 : (R.map (fun r => recGet r k)).length < 2 ^ 32 := by
      rw [List.length_map]
      omega
    have hval : ∀ v ∈ R.map (fun r => recGet r k), v.isMissing = true ∨ v = JVal.null ∨
        ∃ q : ℚ, v = JVal.num q ∧ q.den = 1 ∧ |q.num| < 2 ^ 63 := by
      intro v hv
      obtain ⟨r, hr, rfl⟩ := List.mem_map.1 hv
      rcases hlk : recLookup r k with _ | w
      · left
        rw [recGet, hlk]
        rfl
      · rw [recGet, hlk]
        rcases hvals r hr (k, w) (recLookup_mem hlk) with h2 | h2
        · right; left; exact h2
        · right; right; exact h2
    have hex : ∃ v ∈ R.map (fun r => recGet r k), v.isMissing = false := by
      obtain ⟨r, hr, w, hwmem⟩ := hksrc k hk
      obtain ⟨u, hu⟩ := recLookup_isSome_of_mem (List.mem_map.2 ⟨(k, w), hwmem, rfl⟩)
      refine ⟨recGet r k, List.mem_map_of_mem _ hr, ?_⟩
      rw [recGet, hu, show (some u).getD JVal.missing = u from rfl]
      rcases hvals r hr (k, u) (recLookup_mem hu) with h2 | ⟨q, h2, _, _⟩
      · have h3 : u = JVal.null := h2
        rw [h3]
        rfl
      · have h3 : u = JVal.num q := h2
        rw [h3]
        rfl
    have hhomc : (∀ v ∈ R.map (fun r => recGet r k), v ≠ JVal.null) ∨
        (∀ v ∈ R.map (fun r => recGet r k), ∀ q : ℚ, v ≠ JVal.num q) := by
      rcases hhom k with hL | hR
      · left
        intro v hv hvnull
        obtain ⟨r, hr, rfl⟩ := List.mem_map.1 hv
        rcases hlk : recLookup r k with _ | w
        · rw [recGet, hlk] at hvnull
          have hvm : JVal.missing = JVal.null := hvnull
          exact JVal.noConfusion hvm
        · rw [recGet, hlk] at hvnull
          have hw : w = JVal.null := hvnull
          exact hL r hr (by rw [hlk, hw])
      · right
        intro v hv q hvnum
        obtain ⟨r, hr, rfl⟩ := List.mem_map.1 hv
        rcases hlk : recLookup r k with _ | w
        · rw [recGet, hlk] at hvnum
          have hvm : JVal.missing = JVal.num q := hvnum
          exact JVal.noConfusion hvm
        · rw [recGet, hlk] at hvnum
          have hw : w = JVal.num q := hvnum
          exact hR r hr q (by rw [hlk, hw])
    obtain ⟨encBuf, hpc, hdec, hlen, htylt⟩ :=
      processColumn_ok f64 f64dec uuidT dateT k _ hv1 hv2 hval hex hhomc
    refine ⟨(k, columnType uuidT dateT (R.map (fun r => recGet r k)), encBuf), hpc,
      rfl, hdec, ?_, htylt, ?_⟩
    · obtain ⟨r, hr, v, hvmem⟩ := hksrc k hk
      exact hklen r hr (k, v) hvmem
    · show encBuf.length < 2 ^ 32
      have hml : (R.map (fun r => recGet r k)).length = R.length := List.length_map _ _
      omega
  obtain ⟨fields, hmapm, hrel⟩ := mapM_ok_rel
    (fun c : Bytes × List JVal => processColumn f64 f64dec uuidT dateT c.1 c.2) _ _ hcolok
  have hprep : prepareData f64 f64dec uuidT dateT R = .ok fields := by
    rw [prepareData, if_neg (by intro h; exact hne (List.length_eq_zero.1 h)), hbc, hmapm]
  have hflen : fields.length = (sortKeys (allKeys R)).length := by
    have hl := List.Forall₂.length_eq hrel
    rw [List.length_map] at hl
    omega
  have hfnames : fields.map (fun f => f.1) = sortKeys (allKeys R) := by
    have hmeq := forall₂_map_eq (fun (f : Bytes × Nat × Bytes) => f.1)
      (fun (c : Bytes × List JVal) => c.1) hrel (fun a b hS => hS.1)
    rw [hmeq]
    exact map_pair_fst _ _
  have hffacts : ∀ f ∈ fields, f.1.length < 256 ∧ f.2.1 < 256 ∧ f.2.2.length < 2 ^ 32 := by
    intro f hf
    obtain ⟨c, hc, hS⟩ := forall₂_right_mem hrel f hf
    exact ⟨hS.2.2.1, hS.2.2.2.1, hS.2.2.2.2⟩
  have hany : (fields.map (fun c => (c.1, c.2.1, c.2.2.length))).any
      (fun f => 2 ^ 32 ≤ f.2.2) = false := by
    rw [List.any_eq_false]
    intro x hx
    obtain ⟨f, hf, rfl⟩ := List.mem_map.1 hx
    simp only [decide_eq_true_eq]
    have := (hffacts f hf).2.2
    omega
  have hhdr : headerEncode 1 (fields.map (fun c => (c.1, c.2.1, c.2.2.length))) =
      .ok ([83, 65, 74, 67] ++ 1 % 256 :: u16le fields.length ++
        (fields.map (fun f =>
          f.1.length % 256 :: f.1 ++ f.2.1 % 256 :: u32le f.2.2.length)).flatten) := by
    rw [headerEncode]
    rw [if_neg (by rw [List.length_map]; omega)]
    rw [if_neg (by intro hc; rw [hany] at hc; exact Bool.false_ne_true hc)]
    rw [List.length_map, List.map_map]
    rfl
  have hcomp : compress f64 f64dec uuidT dateT R =
      .ok (([83, 65, 74, 67] ++ 1 % 256 :: u16le fields.length ++
        (fields.map (fun f =>
          f.1.length % 256 :: f.1 ++ f.2.1 % 256 :: u32le f.2.2.length)).flatten) ++
        (fields.map (fun c => c.2.2)).flatten) := by
    rw [compress, hprep]
    dsimp only
    rw [hhdr]
  obtain ⟨k0, krest, hks⟩ : ∃ k0 krest, sortKeys (allKeys R) = k0 :: krest := by
    cases hkse : sortKeys (allKeys R) with
    | nil => exact absurd hkse hksne
    | cons a l => exact ⟨a, l, rfl⟩
  obtain ⟨f0, frest, hfcons⟩ : ∃ f0 frest, fields = f0 :: frest := by
    cases hfc : fields with
    | nil =>
      exfalso
      rw [hfc, hks] at hflen
      simp only [List.length_nil, List.length_cons] at hflen
      omega
    | cons a l => exact ⟨a, l, rfl⟩
  have hf0k : f0.1 = k0 := by
    have hmn := hfnames
    rw [hfcons, hks, List.map_cons] at hmn
    injection hmn
  have hfl16 : fields.length < 65536 := by
    rw [hflen, hkslen]
    omega
  have hk0 : k0 ∈ sortKeys (allKeys R) := by
    rw [hks]
    exact List.mem_cons_self _ _
  have hrel2 : List.Forall₂ (fun (f : Bytes × Nat × Bytes) (d : Bytes × List JVal) =>
      f.1 = d.1 ∧ wrapDecode (codecDecode f64dec f.2.1) f.2.2 = .ok d.2) fields
      ((sortKeys (allKeys R)).map (fun k => (k, R.map (fun r => recGet r k)))) :=
    forall₂_flip_imp (fun c f hS => ⟨hS.1, hS.2.1⟩) hrel
  have hhead : ((fields.map (fun f => (f.1, f.2.1, f.2.2.length))).headD ([], 0, 0)).1 = k0 := by
    rw [hfcons]
    exact hf0k
  have hmapeq : (List.range R.length).map (fun row =>
      unflatten ((fields.map (fun f => (f.1, f.2.1, f.2.2.length))).foldl (fun rec f =>
        if ((colLookup ((sortKeys (allKeys R)).map
            (fun k => (k, R.map (fun r => recGet r k)))) f.1).getD row JVal.missing).isMissing
        then rec
        else dictSet rec f.1 ((colLookup ((sortKeys (allKeys R)).map
          (fun k => (k, R.map (fun r => recGet r k)))) f.1).getD row JVal.missing)) [])) =
      (List.range R.length).map (fun row => (sortKeys (allKeys R)).filterMap
        (fun k => if (recGet (R.getD row []) k).isMissing then none
          else some (k, recGet (R.getD row []) k))) := by
    refine List.map_congr_left (fun row hrow => ?_)
    rw [List.mem_range] at hrow
    rw [foldl_triple_keys, hfnames]
    rw [foldl_congr_mem _ (fun rec k => if (recGet (R.getD row []) k).isMissing then rec
      else dictSet rec k (recGet (R.getD row []) k)) _ [] (fun acc k hk => by
        dsimp only
        rw [colLookup_map (fun k => R.map (fun r => recGet r k)) _ k hk,
          getD_map_of_lt (fun r => recGet r k) R row JVal.missing [] hrow])]
    rw [foldl_dictSet_filterMap (fun k => recGet (R.getD row []) k) _ [] hksnd
      (fun k _ => by simp)]
    rw [List.nil_append]
    refine unflatten_id _ ?_ (filterMap_sel_vals _ _) ?_
    · intro p hp
      obtain ⟨k, hk, hsel⟩ := List.mem_filterMap.1 hp
      by_cases hm : (recGet (R.getD row []) k).isMissing
      · rw [if_pos hm] at hsel
        cases hsel
      · rw [if_neg hm] at hsel
        injection hsel with hsel
        obtain ⟨r, hr, v, hv⟩ := hksrc k hk
        rw [← hsel]
        exact hkdot r hr (k, v) hv
    · rw [filterMap_sel_keys]
      exact hksnd.filter _
  have hdec : decompress f64dec (([83, 65, 74, 67] ++ 1 % 256 :: u16le fields.length ++
      (fields.map (fun f =>
        f.1.length % 256 :: f.1 ++ f.2.1 % 256 :: u32le f.2.2.length)).flatten) ++
      (fields.map (fun c => c.2.2)).flatten) =
      .ok ((List.range R.length).map (fun row => (sortKeys (allKeys R)).filterMap
        (fun k => if (recGet (R.getD row []) k).isMissing then none
          else some (k, recGet (R.getD row []) k)))) := by
    rw [show ([83, 65, 74, 67] ++ 1 % 256 :: u16le fields.length ++
        (fields.map (fun f =>
          f.1.length % 256 :: f.1 ++ f.2.1 % 256 :: u32le f.2.2.length)).flatten) ++
        (fields.map (fun c => c.2.2)).flatten =
        83 :: 65 :: 74 :: 67 :: 1 :: fields.length % 256 :: fields.length / 256 % 256 ::
        ((fields.map (fun f =>
          f.1.length % 256 :: f.1 ++ f.2.1 % 256 :: u32le f.2.2.length)).flatten ++
        (fields.map (fun c => c.2.2)).flatten)
      from by simp [u16le, List.cons_append, List.append_assoc]]
    rw [decompress]
    rw [if_neg (by
      simp only [List.length_cons, List.length_append, Nat.not_lt]
      have hfb : 1 ≤ ((fields.map (fun f =>
          f.1.length % 256 :: f.1 ++ f.2.1 % 256 :: u32le f.2.2.length)).flatten).length := by
        rw [hfcons]
        simp only [List.map_cons, List.flatten_cons, List.length_append, List.length_cons]
        omega
      omega)]
    rw [if_neg (fun hmag => hmag rfl)]
    rw [show (83 :: 65 :: 74 :: 67 :: 1 :: fields.length % 256 ::
        fields.length / 256 % 256 :: ((fields.map (fun f =>
          f.1.length % 256 :: f.1 ++ f.2.1 % 256 :: u32le f.2.2.length)).flatten ++
        (fields.map (fun c => c.2.2)).flatten)).drop 4 =
        1 :: fields.length % 256 :: fields.length / 256 % 256 :: ((fields.map (fun f =>
          f.1.length % 256 :: f.1 ++ f.2.1 % 256 :: u32le f.2.2.length)).flatten ++
        (fields.map (fun c => c.2.2)).flatten) from rfl]
    dsimp only
    rw [show fields.length % 256 + 256 * (fields.length / 256 % 256) = fields.length
      from by omega]
    rw [parseFields_glue fields ((fields.map (fun c => c.2.2)).flatten) hffacts]
    dsimp only
    rw [if_neg (by
      rw [List.length_map, hfcons]
      simp)]
    rw [readColumns_glue f64dec fields
      ((sortKeys (allKeys R)).map (fun k => (k, R.map (fun r => recGet r k)))) hrel2]
    dsimp only
    rw [hhead]
    rw [colLookup_map (fun k => R.map (fun r => recGet r k)) (sortKeys (allKeys R)) k0 hk0]
    rw [List.length_map]
    exact congrArg Except.ok hmapeq
  refine ⟨_, _, hcomp, hdec, ?_, ?_⟩
  · rw [List.length_map, List.length_range]
  · intro i hi k
    have hri : (List.range R.length).getD i 0 = i := by
      rw [List.getD_eq_getElem?_getD, List.getElem?_range hi]
      rfl
    rw [getD_map_of_lt (fun row => (sortKeys (allKeys R)).filterMap
      (fun k => if (recGet (R.getD row []) k).isMissing then none
        else some (k, recGet (R.getD row []) k))) (List.range R.length) i [] 0
      (by rw [List.length_range]; exact hi)]
    rw [hri]
    show recGet ((sortKeys (allKeys R)).filterMap
      (fun k => if (recGet (R.getD i []) k).isMissing then none
        else some (k, recGet (R.getD i []) k))) k = recGet (R.getD i []) k
    rw [recGet, recLookup_filterMap (fun k => recGet (R.getD i []) k) (sortKeys (allKeys R)) k]
    by_cases hc : k ∈ sortKeys (allKeys R) ∧ (recGet (R.getD i []) k).isMissing = false
    · rw [if_pos hc]
      rfl
    · rw [if_neg hc]
      show JVal.missing = recGet (R.getD i []) k
      by_cases hkin : k ∈ sortKeys (allKeys R)
      · have hmt : (recGet (R.getD i []) k).isMissing = true := by
          cases hmb : (recGet (R.getD i []) k).isMissing with
          | true => rfl
          | false => exact absurd ⟨hkin, hmb⟩ hc
        exact (isMissing_eq_missing hmt).symm
      · have hRim : R.getD i [] ∈ R := by
          rw [List.getD_eq_getElem?_getD, List.getElem?_eq_getElem hi]
          exact List.getElem_mem hi
        refine (recGet_missing_of_not_mem ?_).symm
        intro hkm
        obtain ⟨p, hp, hpk⟩ := List.mem_map.1 hkm
        exact hkin (hpk ▸ hkeysub _ hRim p hp)

/-- C1 counterexample: the round trip is **not** the identity on every
non-empty batch.  For the single record whose one key is the three bytes
`"a.b"` (containing a dot) with value `1`, `compress` succeeds and
`decompress` succeeds, but the decompressed record's only key is `"a"`
(holding a nested object), not `"a.b"`: `unflatten` splits stored key names
on dots, so dotted keys do not survive the round trip. -/
theorem sajc_roundtrip_cex :
    (compress (fun _ => List.replicate 8 0) (fun _ => 0) (fun _ => false) (fun _ => false)
      [[([97, 46, 98], JVal.num 1)]]).isOk = true ∧
    (decompress (fun _ => 0)
      ((compress (fun _ => List.replicate 8 0) (fun _ => 0) (fun _ => false) (fun _ => false)
        [[([97, 46, 98], JVal.num 1)]]).toOption.getD [])).isOk = true ∧
    ((decompress (fun _ => 0)
      ((compress (fun _ => List.replicate 8 0) (fun _ => 0) (fun _ => false) (fun _ => false)
        [[([97, 46, 98], JVal.num 1)]]).toOption.getD [])).toOption.getD []).map
      (fun r => r.map Prod.fst) = [[[97]]] ∧
    [[[97]]] ≠ ([[[97, 46, 98]]] : List (List Bytes)) := by
  with_unfolding_all decide

/-- C1 witness: the spec's own example batch `[{a:1, b:null}, {a:2}]`
(keys `a` = byte 97, `b` = byte 98) satisfies every hypothesis of the
amended round-trip theorem, so its compressed form decompresses to two
records agreeing with the originals on every key — `b` is `null` in row 0
and missing in row 1. -/
theorem sajc_roundtrip_witness :
    ∃ buf out,
      compress (fun _ => List.replicate 8 0) (fun _ => 0) (fun _ => false) (fun _ => false)
        [[([97], JVal.num 1), ([98], JVal.null)], [([97], JVal.num 2)]] = .ok buf ∧
      decompress (fun _ => 0) buf = .ok out ∧
      out.length = 2 ∧
      ∀ i, i < 2 → ∀ k : Bytes,
        recGet (out.getD i []) k =
          recGet (([[([97], JVal.num 1), ([98], JVal.null)],
            [([97], JVal.num 2)]] : List Rec).getD i []) k :=
  sajc_roundtrip (fun _ => List.replicate 8 0) (fun _ => 0) (fun _ => false) (fun _ => false)
    [[([97], JVal.num 1), ([98], JVal.null)], [([97], JVal.num 2)]]
    (List.cons_ne_nil _ _) (by decide) (by decide) (by decide) (by decide) (by decide)
    (by decide)
    (by
      intro r hr p hp
      rcases List.mem_cons.1 hr with rfl | hr2
      · rcases List.mem_cons.1 hp with rfl | hp2
        · right
          exact ⟨1, rfl, by norm_num, by norm_num⟩
        · rcases List.mem_cons.1 hp2 with rfl | hp3
          · left
            rfl
          · simp at hp3
      · rcases List.mem_cons.1 hr2 with rfl | hr3
        · rcases List.mem_cons.1 hp with rfl | hp2
          · right
            exact ⟨2, rfl, by norm_num, by norm_num⟩
          · simp at hp2
        · simp at hr3)
    (by
      intro k
      by_cases hk98 : k = [98]
      · right
        subst hk98
        intro r hr q hq
        rcases List.mem_cons.1 hr with rfl | hr2
        · have hcalc : recLookup [([97], JVal.num 1), ([98], JVal.null)] [98] =
            some JVal.null := rfl
          rw [hcalc] at hq
          injection hq with hq2
          exact JVal.noConfusion hq2
        · rcases List.mem_cons.1 hr2 with rfl | hr3
          · have hcalc : recLookup [([97], JVal.num 2)] [98] = none := rfl
            rw [hcalc] at hq
            exact Option.noConfusion hq
          · simp at hr3
      · left
        intro r hr hq
        rcases List.mem_cons.1 hr with rfl | hr2
        · rw [recLookup] at hq
          by_cases h97 : k = [97]
          · rw [if_pos h97] at hq
            injection hq with hq2
            exact JVal.noConfusion hq2
          · rw [if_neg h97, recLookup, if_neg hk98, recLookup] at hq
            exact Option.noConfusion hq
        · rcases List.mem_cons.1 hr2 with rfl | hr3
          · rw [recLookup] at hq
            by_cases h97 : k = [97]
            · rw [if_pos h97] at hq
              injection hq with hq2
              exact JVal.noConfusion hq2
            · rw [if_neg h97, recLookup] at hq
              exact Option.noConfusion hq
          · simp at hr3)

end SAJC
